import Mathlib

/-!
# Dijkstra path visualizer: grid model and search engine

A shallow embedding of `src/dijkstra.cpp`.  The window, the font and the drawing
calls have no effect on the grid model and are left out: `render()` is a pure
read of the state and `sf::sleep` only delays.

* `sf::Vector2i` is a pair of integers `(x, y)`.
* `std::vector<std::vector<Cell>> grid` is a map from coordinates to cells, where
  `g (x, y)` stands for `grid[y][x]`.  Only coordinates with
  `0 ≤ x, y < GRID_SIZE` denote cells of the vector; the operations below test
  that range exactly where the source does, and where the source indexes the
  vector without a test the model fails (`none`) for an index outside the range.
* `int` is `Int`; the one addition of the program (the candidate distance of a
  relaxation) is reduced to 32 bits, two's complement.
* The two `while` loops take a step budget (`fuel`) and fail (`none`) when it
  runs out; the theorems show a budget that is enough.
-/

namespace DijkstraVisualizer

/-! ## Constants and the data model -/

/-- Number of rows and of columns of the grid (`GRID_SIZE`). -/
def GRID_SIZE : Int := 20

/-- Side of a cell in pixels (`CELL_SIZE`). -/
def CELL_SIZE : Int := 30

/-- Largest `int`: `std::numeric_limits<int>::max()`. -/
def INT_MAX : Int := 2147483647

/-- A coordinate `(x, y)`, as `sf::Vector2i`. -/
abbrev Coord := Int × Int

/-- Kind of a cell (`enum class CellType`). -/
inductive CellType where
  | Empty
  | Wall
  | Start
  | End
  | Path
  deriving DecidableEq

/-- One cell of the grid (`struct Cell`) with the defaults of the source. -/
structure Cell where
  type : CellType := CellType.Empty
  distance : Int := INT_MAX
  parent : Coord := (-1, -1)
  weight : Int := 1
  deriving DecidableEq

/-- The grid: `g (x, y)` is `grid[y][x]`. -/
abbrev Grid := Coord → Cell

/-- The fields of `DijkstraVisualizer` that make up the grid model. -/
structure State where
  grid : Grid
  startPos : Coord := (-1, -1)
  endPos : Coord := (-1, -1)
  isRunning : Bool := false
  isSettingWeight : Bool := false

/-- State built by the constructor: every cell default, no Start, no End. -/
def initialState : State :=
  { grid := fun _ => {} }

/-- Mouse buttons told apart by `handleMouseClick`. -/
inductive Button where
  | Left
  | Right
  | Middle
  | Other
  deriving DecidableEq

/-- Keys told apart by `handleKeyPress`. -/
inductive Key where
  | Space
  | R
  | W
  | Other
  deriving DecidableEq

/-- The test `x >= 0 && x < GRID_SIZE && y >= 0 && y < GRID_SIZE`. -/
def inGrid (c : Coord) : Prop :=
  0 ≤ c.1 ∧ c.1 < GRID_SIZE ∧ 0 ≤ c.2 ∧ c.2 < GRID_SIZE

instance (c : Coord) : Decidable (inGrid c) := by
  unfold inGrid
  infer_instance

/-- Assignment to one cell of the grid. -/
def setCell (g : Grid) (c : Coord) (v : Cell) : Grid :=
  fun d => if d = c then v else g d

/-- Result of a 32-bit two's complement addition whose exact value is `z`. -/
def wrapInt (z : Int) : Int :=
  (z + 2147483648) % 4294967296 - 2147483648

/-! ## Input handling -/

/-- The weight cycle `(weight % 9) + 1`. -/
def nextWeight (w : Int) : Int :=
  Int.tmod w 9 + 1

/-- The weight-set branch: only an Empty cell changes. -/
def cycleWeight (s : State) (c : Coord) : State :=
  if (s.grid c).type = CellType.Empty then
    { s with grid := setCell s.grid c { s.grid c with weight := nextWeight (s.grid c).weight } }
  else s

/-- Model of `handleMouseClick`: `mx`, `my` are the pixel coordinates of the event. -/
def handleMouseClick (s : State) (mx my : Int) (button : Button) : State :=
  let x := Int.tdiv mx CELL_SIZE
  let y := Int.tdiv my CELL_SIZE
  if 0 ≤ x ∧ x < GRID_SIZE ∧ 0 ≤ y ∧ y < GRID_SIZE then
    match button with
    | Button.Left =>
      if s.isSettingWeight then
        cycleWeight s (x, y)
      else if s.startPos.1 = -1 then
        { s with startPos := (x, y),
                 grid := setCell s.grid (x, y) { s.grid (x, y) with type := CellType.Start } }
      else if s.endPos.1 = -1 then
        { s with endPos := (x, y),
                 grid := setCell s.grid (x, y) { s.grid (x, y) with type := CellType.End } }
      else
        { s with grid := setCell s.grid (x, y) { s.grid (x, y) with type := CellType.Wall } }
    | Button.Right =>
      let s1 : State :=
        if (s.grid (x, y)).type = CellType.Start then { s with startPos := (-1, -1) }
        else if (s.grid (x, y)).type = CellType.End then { s with endPos := (-1, -1) }
        else s
      { s1 with grid := setCell s1.grid (x, y)
                  { s1.grid (x, y) with type := CellType.Empty, weight := 1 } }
    | Button.Middle => cycleWeight s (x, y)
    | Button.Other => s
  else s

/-- Model of `resetGrid`. -/
def resetGrid (s : State) : State :=
  { s with grid := fun _ => {}, startPos := (-1, -1), endPos := (-1, -1) }

/-- An event that `handleEvents` passes on to a handler: a mouse button pressed at
the pixel `(x, y)`, or a key pressed. -/
inductive Event where
  | MouseButtonPressed (x y : Int) (button : Button)
  | KeyPressed (code : Key)

/-! ## The search -/

/-- An entry of the priority queue: `std::pair<int, sf::Vector2i>`. -/
abbrev Entry := Int × Coord

/-- The comparison `VectorCompare`. -/
def VectorCompare (lhs rhs : Coord) : Bool :=
  decide (lhs.1 < rhs.1) || (decide (lhs.1 = rhs.1) && decide (lhs.2 < rhs.2))

/-- The comparison `cmp` given to the priority queue. -/
def cmp (left right : Entry) : Bool :=
  decide (left.1 > right.1) || (decide (left.1 = right.1) && VectorCompare left.2 right.2)

/-- Greatest entry of a non-empty queue for `cmp`, which is what
`std::priority_queue::top` returns: `best` is replaced whenever it compares
less than the next entry. -/
def pqTopFrom (best : Entry) : List Entry → Entry
  | [] => best
  | e :: rest => pqTopFrom (if cmp best e then e else best) rest

/-- The call `pq.top()`: `none` on an empty queue. -/
def pqTop : List Entry → Option Entry
  | [] => none
  | e :: rest => some (pqTopFrom e rest)

/-- One pass of the body of the `for` loop of `runDijkstra`, for the offset `d`. -/
def relax (current : Coord) (gq : Grid × List Entry) (d : Int × Int) : Grid × List Entry :=
  let g := gq.1
  let newX := current.1 + d.1
  let newY := current.2 + d.2
  if 0 ≤ newX ∧ newX < GRID_SIZE ∧ 0 ≤ newY ∧ newY < GRID_SIZE ∧
      (g (newX, newY)).type ≠ CellType.Wall then
    let newDist := wrapInt ((g current).distance + (g (newX, newY)).weight)
    if newDist < (g (newX, newY)).distance then
      (setCell g (newX, newY) { g (newX, newY) with distance := newDist, parent := current },
        (newDist, (newX, newY)) :: gq.2)
    else gq
  else gq

/-- The offsets `(dx[i], dy[i])` for `i = 0, 1, 2, 3`. -/
def directions : List (Int × Int) :=
  [(-1, 0), (1, 0), (0, -1), (0, 1)]

/-- The whole `for` loop over the four neighbours of `current`. -/
def relaxAll (current : Coord) (g : Grid) (q : List Entry) : Grid × List Entry :=
  directions.foldl (relax current) (g, q)

/-- The two ways the `while` loop of `runDijkstra` is left. -/
inductive SearchResult where
  | reachedEnd (g : Grid)
  | exhausted (g : Grid)

/-- The `while (!pq.empty())` loop of `runDijkstra`, up to the call of
`reconstructPath`. -/
def dijkstraLoop (endPos : Coord) : Nat → Grid → List Entry → Option SearchResult
  | 0, _, _ => none
  | fuel + 1, g, q =>
    match pqTop q with
    | none => some (SearchResult.exhausted g)
    | some top =>
      let q1 := q.erase top
      if top.2 = endPos then some (SearchResult.reachedEnd g)
      else if ¬ inGrid top.2 then none
      else if top.1 > (g top.2).distance then dijkstraLoop endPos fuel g q1
      else
        let gq := relaxAll top.2 g q1
        dijkstraLoop endPos fuel gq.1 gq.2

/-- The `while (current != startPos)` loop of `reconstructPath`. -/
def reconstructLoop (startPos : Coord) : Nat → Grid → Coord → Option Grid
  | 0, _, _ => none
  | fuel + 1, g, current =>
    if current = startPos then some g
    else if ¬ inGrid current then none
    else
      let g1 : Grid :=
        if (g current).type ≠ CellType.End then
          setCell g current { g current with type := CellType.Path }
        else g
      reconstructLoop startPos fuel g1 (g1 current).parent

/-- Model of `reconstructPath`. -/
def reconstructPath (fuel : Nat) (s : State) : Option State :=
  (reconstructLoop s.startPos fuel s.grid s.endPos).map fun g => { s with grid := g }

/-- Whether the loop was left through the test `current == endPos`, that is,
whether End was popped. -/
def endPopped : Option SearchResult → Bool
  | some (SearchResult.reachedEnd _) => true
  | _ => false

/-- Whether the loop was left through the test `pq.empty()`, End never popped. -/
def queueEmptied : Option SearchResult → Bool
  | some (SearchResult.exhausted _) => true
  | _ => false

/-- The search of `runDijkstra` without the path reconstruction: the distance of
Start is set to 0, the queue is seeded with `(0, startPos)` and the loop runs. -/
def search (fuel : Nat) (s : State) : Option SearchResult :=
  if ¬ inGrid s.startPos then none
  else
    dijkstraLoop s.endPos fuel
      (setCell s.grid s.startPos { s.grid s.startPos with distance := 0 })
      [((0 : Int), s.startPos)]

/-- Model of `runDijkstra`. -/
def runDijkstra (fuel : Nat) (s : State) : Option State :=
  match search fuel s with
  | none => none
  | some (SearchResult.reachedEnd g) => reconstructPath fuel { s with grid := g }
  | some (SearchResult.exhausted g) => some { s with grid := g }

/-- Model of `handleKeyPress`. -/
def handleKeyPress (fuel : Nat) (s : State) (key : Key) : Option State :=
  match key with
  | Key.Space =>
    if s.startPos.1 ≠ -1 ∧ s.endPos.1 ≠ -1 then runDijkstra fuel s else some s
  | Key.R => some (resetGrid s)
  | Key.W => some { s with isSettingWeight := !s.isSettingWeight }
  | Key.Other => some s

/-! ## Events and reachable states -/

/-- One pass of the loop of `handleEvents` for an event that reaches a handler. -/
def handleEvent (fuel : Nat) (s : State) : Event → Option State
  | Event.MouseButtonPressed x y button => some (handleMouseClick s x y button)
  | Event.KeyPressed code => handleKeyPress fuel s code

/-- The states that the program reaches from its initial state through mouse
clicks and key presses (searches and resets among them). -/
inductive Reachable : State → Prop where
  | init : Reachable initialState
  | step {s s' : State} (fuel : Nat) (e : Event) :
      Reachable s → handleEvent fuel s e = some s' → Reachable s'

/-- The state after a series of mouse clicks, given as `(x, y, button)`. -/
def clicks (s : State) (evs : List (Int × Int × Button)) : State :=
  evs.foldl (fun t e => handleMouseClick t e.1 e.2.1 e.2.2) s

/-- The cell that a click at the pixel `(x, y)` falls on. -/
def cellOf (x y : Int) : Coord :=
  (Int.tdiv x CELL_SIZE, Int.tdiv y CELL_SIZE)

/-- A click `(x, y, button)` is a weight-set action on the cell `c` in the state
`s`: it falls on `c` and is a middle click, or a left click in weight-setting
mode. -/
def isWeightSet (s : State) (c : Coord) (e : Int × Int × Button) : Prop :=
  cellOf e.1 e.2.1 = c ∧
    (e.2.2 = Button.Middle ∨ (e.2.2 = Button.Left ∧ s.isSettingWeight = true))

instance (s : State) (c : Coord) (e : Int × Int × Button) : Decidable (isWeightSet s c e) := by
  unfold isWeightSet
  infer_instance

/-- The state with the kinds, weights, Start and End of `s` in which every distance
is the sentinel and every parent is unset. -/
def clearSearchData (s : State) : State :=
  { s with grid := fun c => { s.grid c with distance := INT_MAX, parent := (-1, -1) } }

/-! ## Paths on the grid -/

/-- The four orthogonal neighbours of `u`. -/
def adjacent (u v : Coord) : Prop :=
  v = (u.1 - 1, u.2) ∨ v = (u.1 + 1, u.2) ∨ v = (u.1, u.2 - 1) ∨ v = (u.1, u.2 + 1)

instance (u v : Coord) : Decidable (adjacent u v) := by
  unfold adjacent
  infer_instance

/-- A step from `u` into `v`: `v` is a 4-neighbour of `u`, lies in the grid and
is not a Wall. -/
def canEnter (g : Grid) (u v : Coord) : Prop :=
  adjacent u v ∧ inGrid v ∧ (g v).type ≠ CellType.Wall

instance (g : Grid) (u v : Coord) : Decidable (canEnter g u v) := by
  unfold canEnter
  infer_instance

/-- The relation `PathCost g a v c`: some path of 4-directional steps from `a` to
`v`, entering only in-grid non-Wall cells, has `c` as the sum of the weights of
the cells it enters (all its cells except `a`). -/
inductive PathCost (g : Grid) (a : Coord) : Coord → Int → Prop where
  | here : PathCost g a a 0
  | step {u v : Coord} {c : Int} :
      PathCost g a u c → canEnter g u v → PathCost g a v (c + (g v).weight)

/-- The cell `v` can be reached from `a` by 4-directional steps through in-grid
non-Wall cells. -/
def Connected (g : Grid) (a v : Coord) : Prop :=
  ∃ c, PathCost g a v c

/-- The value `d` is the least cost of a path from `a` to `v`. -/
def IsMinCost (g : Grid) (a v : Coord) (d : Int) : Prop :=
  PathCost g a v d ∧ ∀ c, PathCost g a v c → d ≤ c

/-- The coordinates that the loop of `reconstructPath` visits from `current` on,
Start included: the trace of `reconstructLoop`. -/
def parentWalk (startPos : Coord) (g : Grid) : Nat → Coord → Option (List Coord)
  | 0, _ => none
  | fuel + 1, current =>
    if current = startPos then some [current]
    else if ¬ inGrid current then none
    else (parentWalk startPos g fuel (g current).parent).map fun w => current :: w

/-- The grid `g` after the cells of `walk` other than Start whose kind is not End
have been made Path. -/
def markWalk (startPos : Coord) (g : Grid) (walk : List Coord) : Grid :=
  fun c =>
    if c ∈ walk ∧ c ≠ startPos ∧ (g c).type ≠ CellType.End then
      { g c with type := CellType.Path }
    else g c

/-- A list of cells, read from its head back to its last cell `a`, is a path from
`a`: each cell but the last is entered from the next one of the list. -/
def isWalkBack (g : Grid) (a : Coord) : List Coord → Prop
  | [] => False
  | [c] => c = a
  | v :: u :: rest => canEnter g u v ∧ isWalkBack g a (u :: rest)

/-- Sum of the weights of the cells of the list other than its last cell. -/
def walkCost (g : Grid) : List Coord → Int
  | [] => 0
  | [_] => 0
  | v :: u :: rest => (g v).weight + walkCost g (u :: rest)

/-! ## Example states -/

/-- An open grid with Start at `(0, 0)` and End at `(2, 0)`, every cell default
otherwise: the state after a left click on each of the two cells. -/
def openState : State :=
  { grid := fun c =>
      if c = (0, 0) then { type := CellType.Start }
      else if c = (2, 0) then { type := CellType.End }
      else {},
    startPos := (0, 0),
    endPos := (2, 0) }

/-- Start in the corner `(0, 0)`, End at `(2, 0)`, and Walls on the two in-grid
neighbours `(1, 0)` and `(0, 1)` of Start. -/
def walledState : State :=
  { grid := fun c =>
      if c = (0, 0) then { type := CellType.Start }
      else if c = (2, 0) then { type := CellType.End }
      else if c = (1, 0) ∨ c = (0, 1) then { type := CellType.Wall }
      else {},
    startPos := (0, 0),
    endPos := (2, 0) }

/-- The state after left clicks on `(0, 0)` and `(2, 0)`: Start and End placed. -/
def placedState : State :=
  clicks initialState [(0, 0, Button.Left), (60, 0, Button.Left)]

/-- The state after the first search on `placedState`, which marks `(1, 0)`. -/
def searchedState : State :=
  (runDijkstra 4 placedState).getD placedState

/-- The state `searchedState` after a left click that puts a Wall on `(1, 0)`. -/
def blockedState : State :=
  clicks searchedState [(30, 0, Button.Left)]

/-- The state `placedState` after a further left click on the Start cell, which
overwrites it with a Wall and leaves `startPos` as it is. -/
def overwrittenState : State :=
  clicks placedState [(0, 0, Button.Left)]

/-- A state in which the cell at the End coordinate `(1, 0)` is Empty: Start is
placed on `(2, 2)` and End on `(1, 0)`, Start is removed, placed again on `(1, 0)`
and removed again, and is then placed on `(0, 0)`. -/
def movedState : State :=
  clicks initialState
    [(60, 60, Button.Left), (30, 0, Button.Left), (60, 60, Button.Right),
      (30, 0, Button.Left), (30, 0, Button.Right), (0, 0, Button.Left)]

/-! ## Devices of the proofs -/

/-- What `handleMouseClick` does once the click is known to fall on the cell `p`
of the grid. -/
def clickCell (s : State) (p : Coord) : Button → State
  | Button.Left =>
    if s.isSettingWeight then cycleWeight s p
    else if s.startPos.1 = -1 then
      { s with startPos := p, grid := setCell s.grid p { s.grid p with type := CellType.Start } }
    else if s.endPos.1 = -1 then
      { s with endPos := p, grid := setCell s.grid p { s.grid p with type := CellType.End } }
    else { s with grid := setCell s.grid p { s.grid p with type := CellType.Wall } }
  | Button.Right =>
    { grid := setCell s.grid p { s.grid p with type := CellType.Empty, weight := 1 },
      startPos := if (s.grid p).type = CellType.Start then (-1, -1) else s.startPos,
      endPos :=
        if (s.grid p).type = CellType.Start then s.endPos
        else if (s.grid p).type = CellType.End then (-1, -1) else s.endPos,
      isRunning := s.isRunning,
      isSettingWeight := s.isSettingWeight }
  | Button.Middle => cycleWeight s p
  | Button.Other => s

/-- Every cell of kind Start lies at `startPos` and every cell of kind End at
`endPos`, inside the grid. -/
structure MarkerInv (s : State) : Prop where
  start_at : ∀ c, (s.grid c).type = CellType.Start → c = s.startPos ∧ inGrid c
  end_at : ∀ c, (s.grid c).type = CellType.End → c = s.endPos ∧ inGrid c

/-- The coordinates of the cells of the grid. -/
def gridCoords : Finset Coord :=
  Finset.Icc (0 : Int) 19 ×ˢ Finset.Icc (0 : Int) 19

/-- Number of cells of the grid whose distance is not the sentinel. -/
def finCount (g : Grid) : Nat :=
  (gridCoords.filter fun c => (g c).distance < INT_MAX).card

/-- Total of the distances of the grid, each counted from the least `int`. -/
def distSum (g : Grid) : Nat :=
  ∑ c ∈ gridCoords, ((g c).distance + 2147483648).toNat

/-- What one or several passes of the `for` loop over the neighbours of `cur`
do to the grid and the queue. -/
structure RelaxStep (cur : Coord) (g : Grid) (q : List Entry) (g' : Grid)
    (q' : List Entry) : Prop where
  type_eq : ∀ v, (g' v).type = (g v).type
  weight_eq : ∀ v, (g' v).weight = (g v).weight
  cell : ∀ v, g' v = g v ∨
    (canEnter g cur v ∧ (g' v).distance = wrapInt ((g cur).distance + (g v).weight) ∧
      (g' v).distance < (g v).distance ∧ (g' v).parent = cur ∧ ((g' v).distance, v) ∈ q')
  queue_sub : ∀ e ∈ q, e ∈ q'
  queue_new : ∀ e ∈ q', e ∈ q ∨
    (canEnter g cur e.2 ∧ e.1 = wrapInt ((g cur).distance + (g e.2).weight) ∧
      (g' e.2).distance ≤ e.1)
  measure_le : q'.length + distSum g' ≤ q.length + distSum g

/-- Invariant of the `while` loop of `runDijkstra` on a grid `g0` that had default
distances: `g` and `q` are the grid and the queue at the head of the loop, and
`S` holds the cells whose neighbours have been relaxed so far. -/
structure SearchInv (g0 : Grid) (a endp : Coord) (S : Coord → Prop) (g : Grid)
    (q : List Entry) : Prop where
  type_eq : ∀ v, (g v).type = (g0 v).type
  weight_eq : ∀ v, (g v).weight = (g0 v).weight
  start_dist : (g a).distance = 0
  le_max : ∀ v, inGrid v → (g v).distance ≤ INT_MAX
  bound : ∀ v, inGrid v → (g v).distance < INT_MAX →
    0 ≤ (g v).distance ∧ (g v).distance + 9 ≤ 9 * (finCount g : Int)
  path : ∀ v, inGrid v → (g v).distance < INT_MAX → PathCost g0 a v (g v).distance
  settled_edge : ∀ u v, S u → canEnter g0 u v →
    (g v).distance ≤ (g u).distance + (g0 v).weight
  frontier : ∀ v, inGrid v → (g v).distance < INT_MAX → ¬ S v → ((g v).distance, v) ∈ q
  queue_ok : ∀ e ∈ q, inGrid e.2 ∧ (g e.2).distance ≤ e.1 ∧ (g e.2).distance < INT_MAX
  settled_le : ∀ u, S u → ∀ e ∈ q, (g u).distance ≤ e.1
  settled_ok : ∀ u, S u → inGrid u ∧ (g u).distance < INT_MAX ∧ u ≠ endp
  parent_ok : ∀ v, inGrid v → (g v).distance < INT_MAX → v ≠ a →
    S (g v).parent ∧ canEnter g0 (g v).parent v ∧
      (g v).distance = (g (g v).parent).distance + (g0 v).weight
  unset : ∀ v, inGrid v → ¬ (g v).distance < INT_MAX → g v = g0 v

/-- What the `while` loop of `runDijkstra` keeps on every grid, whatever distances
and parents it starts from: the kinds and weights of `g0` and a queue of in-grid
cells that can be reached from `a`. -/
structure FrameInv (g0 : Grid) (a : Coord) (g : Grid) (q : List Entry) : Prop where
  type_eq : ∀ v, (g v).type = (g0 v).type
  weight_eq : ∀ v, (g v).weight = (g0 v).weight
  queue_conn : ∀ e ∈ q, inGrid e.2 ∧ Connected g0 a e.2

/-- What holds of the result of the loop on every grid: kinds and weights are those
of `g0`, and the exit through `current == endPos` is taken only when End can be
reached from `a`. -/
def FrameExit (g0 : Grid) (a endp : Coord) : SearchResult → Prop
  | SearchResult.reachedEnd gf =>
    Connected g0 a endp ∧ (∀ v, (gf v).type = (g0 v).type) ∧
      ∀ v, (gf v).weight = (g0 v).weight
  | SearchResult.exhausted gf =>
    (∀ v, (gf v).type = (g0 v).type) ∧ ∀ v, (gf v).weight = (g0 v).weight

/-- What holds when the `while` loop of `runDijkstra` is left: on the exit through
the test `current == endPos` the invariant holds with End at the top of the
queue, on the exit through `pq.empty()` it holds with the empty queue. -/
def SearchExit (g0 : Grid) (a endp : Coord) : SearchResult → Prop
  | SearchResult.reachedEnd gf =>
    ∃ (S : Coord → Prop) (q : List Entry) (top : Entry),
      SearchInv g0 a endp S gf q ∧ pqTop q = some top ∧ top.2 = endp
  | SearchResult.exhausted gf => ∃ S : Coord → Prop, SearchInv g0 a endp S gf []

end DijkstraVisualizer

namespace DijkstraVisualizer

/-! ## The steps of the search -/

/-- What `runDijkstra` does before `reconstructPath`, step by step. -/
inductive SearchEvent where
  /-- The statements `grid[startPos].distance = 0; pq.emplace(0, startPos)`; `old`
  is the distance that the cell held. -/
  | seeded (start : Coord) (old : Int)
  /-- The statements `pq.top(); pq.pop()`. -/
  | popped (e : Entry)
  /-- The test `dist > distance` succeeded: the entry is dropped by `continue`. -/
  | skipped (e : Entry)
  /-- The `for` loop over the neighbours of `current` is entered; `distance` is the
  distance of `current`. -/
  | expanded (current : Coord) (distance : Int)
  /-- The sum `distance + weight` is computed for the neighbour `v`. -/
  | candidate (v : Coord) (distance weight : Int)
  /-- The test `newDist < distance` succeeded at `v`: its distance `old` becomes
  `new`, its parent becomes the current cell and `(new, v)` is pushed. -/
  | written (v : Coord) (old new : Int)
  deriving DecidableEq

/-- The steps of one pass of the body of the `for` loop, read off the state on
which `relax` works. -/
def relaxEvents (current : Coord) (gq : Grid × List Entry) (d : Int × Int) :
    List SearchEvent :=
  let g := gq.1
  let newX := current.1 + d.1
  let newY := current.2 + d.2
  if 0 ≤ newX ∧ newX < GRID_SIZE ∧ 0 ≤ newY ∧ newY < GRID_SIZE ∧
      (g (newX, newY)).type ≠ CellType.Wall then
    let newDist := wrapInt ((g current).distance + (g (newX, newY)).weight)
    SearchEvent.candidate (newX, newY) (g current).distance (g (newX, newY)).weight ::
      (if newDist < (g (newX, newY)).distance then
        [SearchEvent.written (newX, newY) (g (newX, newY)).distance newDist]
      else [])
  else []

/-- The steps of the passes for the offsets `ds`, each read off the state that
`relax` has reached. -/
def relaxEventsFrom (current : Coord) : List (Int × Int) → Grid × List Entry → List SearchEvent
  | [], _ => []
  | d :: ds, gq => relaxEvents current gq d ++ relaxEventsFrom current ds (relax current gq d)

/-- The steps of the `while` loop, read off the states that `dijkstraLoop` goes
through. -/
def loopEvents (endPos : Coord) : Nat → Grid → List Entry → List SearchEvent
  | 0, _, _ => []
  | fuel + 1, g, q =>
    match pqTop q with
    | none => []
    | some top =>
      let q1 := q.erase top
      SearchEvent.popped top ::
        (if top.2 = endPos then []
        else if ¬ inGrid top.2 then []
        else if top.1 > (g top.2).distance then
          SearchEvent.skipped top :: loopEvents endPos fuel g q1
        else
          let gq := relaxAll top.2 g q1
          SearchEvent.expanded top.2 (g top.2).distance ::
            (relaxEventsFrom top.2 directions (g, q1) ++ loopEvents endPos fuel gq.1 gq.2))

/-- The steps of `search`: the seed, then the steps of the loop. -/
def searchEvents (fuel : Nat) (s : State) : List SearchEvent :=
  if ¬ inGrid s.startPos then []
  else
    SearchEvent.seeded s.startPos (s.grid s.startPos).distance ::
      loopEvents s.endPos fuel
        (setCell s.grid s.startPos { s.grid s.startPos with distance := 0 })
        [((0 : Int), s.startPos)]

/-- The coordinates pushed onto the queue, in the order of the pushes: the one of
the seed and those of the relaxations. -/
def pushedCoords : List SearchEvent → List Coord
  | [] => []
  | SearchEvent.seeded v _ :: rest => v :: pushedCoords rest
  | SearchEvent.written v _ _ :: rest => v :: pushedCoords rest
  | _ :: rest => pushedCoords rest

/-- Lexicographic order of coordinates, `x` first. -/
def lexLe (a b : Coord) : Prop :=
  a.1 < b.1 ∨ (a.1 = b.1 ∧ a.2 ≤ b.2)

instance (a b : Coord) : Decidable (lexLe a b) := by
  unfold lexLe
  infer_instance

/-! ## Further example states -/

/-- The state after two left clicks on the cell `(0, 0)`: Start and End on the
same cell. -/
def sameCellState : State :=
  clicks initialState [(0, 0, Button.Left), (0, 0, Button.Left)]

/-- Every weight lies in [1,9]. -/
def WeightInv (s : State) : Prop :=
  ∀ c, 1 ≤ (s.grid c).weight ∧ (s.grid c).weight ≤ 9

/-- Each marker is `(-1, -1)` or a coordinate of the grid. -/
structure RangeInv (s : State) : Prop where
  start_ok : s.startPos = (-1, -1) ∨ inGrid s.startPos
  end_ok : s.endPos = (-1, -1) ∨ inGrid s.endPos

/-- The grid with which the loop of the search is left. -/
def SearchResult.grid : SearchResult → Grid
  | SearchResult.reachedEnd g => g
  | SearchResult.exhausted g => g

/-- The entries pushed by the relaxations, in the order of the pushes. -/
def writtenEntries : List SearchEvent → List Entry
  | [] => []
  | SearchEvent.written v _ new :: rest => (new, v) :: writtenEntries rest
  | _ :: rest => writtenEntries rest

/-- Bound on the distances of a grid: a distance of a cell of the grid is the
sentinel, or it is not negative and lies at least 9 below 9 times the number of
cells that hold a distance other than the sentinel. -/
def DistInv (g : Grid) : Prop :=
  ∀ c, inGrid c → (g c).distance ≤ INT_MAX ∧
    ((g c).distance < INT_MAX →
      0 ≤ (g c).distance ∧ (g c).distance + 9 ≤ 9 * (finCount g : Int))

/-- The invariant `SearchInv` for some set of expanded cells, together with the
fact that every entry of the queue carries the distance that its cell holds. -/
def ExactInv (g0 : Grid) (a endp : Coord) (g : Grid) (q : List Entry) : Prop :=
  ∃ S : Coord → Prop, SearchInv g0 a endp S g q ∧ ∀ e ∈ q, e.1 = (g e.2).distance

/-- Invariant of the `while` loop of `runDijkstra` on any grid with weights in
[1,9] that satisfies `DistInv`: the bound on the distances holds and every entry of
the queue names a cell of the grid that holds a distance other than the sentinel. -/
def BoundInv (g : Grid) (q : List Entry) : Prop :=
  (∀ c, inGrid c → 1 ≤ (g c).weight ∧ (g c).weight ≤ 9) ∧ DistInv g ∧
    ∀ e ∈ q, inGrid e.2 ∧ (g e.2).distance < INT_MAX

/-- Invariant of the `while` loop of `runDijkstra` on any grid that satisfies
`BoundInv`, for the walk of `reconstructPath`: `T` holds the cells that the search
has pushed so far; each lies in the grid and holds a distance other than the
sentinel, and each but Start has its parent in `T`, at a smaller distance. -/
structure ChainInv (a : Coord) (T : Coord → Prop) (g : Grid) (q : List Entry) : Prop where
  bound : BoundInv g q
  start_mem : T a
  start_dist : (g a).distance = 0
  mem_ok : ∀ v, T v → inGrid v ∧ (g v).distance < INT_MAX
  parent_ok : ∀ v, T v → v ≠ a →
    T (g v).parent ∧ (g (g v).parent).distance < (g v).distance
  queue_mem : ∀ e ∈ q, T e.2

/-! ## Basic facts -/

theorem setCell_same (g : Grid) (c : Coord) (v : Cell) : setCell g c v c = v := by
  simp [setCell]

theorem setCell_other (g : Grid) (c d : Coord) (v : Cell) (h : d ≠ c) :
    setCell g c v d = g d := by
  simp [setCell, h]

theorem mem_gridCoords (c : Coord) : c ∈ gridCoords ↔ inGrid c := by
  unfold gridCoords inGrid GRID_SIZE
  rw [Finset.mem_product, Finset.mem_Icc, Finset.mem_Icc]
  constructor
  · rintro ⟨⟨h1, h2⟩, h3, h4⟩
    exact ⟨h1, by omega, h3, by omega⟩
  · rintro ⟨h1, h2, h3, h4⟩
    exact ⟨⟨h1, by omega⟩, h3, by omega⟩

theorem card_gridCoords : gridCoords.card = 400 := by
  unfold gridCoords
  rw [Finset.card_product, Int.card_Icc]
  rfl

theorem finCount_le (g : Grid) : finCount g ≤ 400 := by
  unfold finCount
  calc (gridCoords.filter fun c => (g c).distance < INT_MAX).card
      ≤ gridCoords.card := Finset.card_filter_le _ _
    _ = 400 := card_gridCoords

theorem wrapInt_eq (z : Int) (h1 : -2147483648 ≤ z) (h2 : z ≤ 2147483647) : wrapInt z = z := by
  unfold wrapInt
  omega

theorem wrapInt_ge (z : Int) : -2147483648 ≤ wrapInt z := by
  unfold wrapInt
  omega

theorem not_adjacent_self (u : Coord) : ¬ adjacent u u := by
  obtain ⟨x, y⟩ := u
  unfold adjacent
  simp only [Prod.mk.injEq]
  omega

theorem adjacent_iff_direction (u v : Coord) :
    adjacent u v ↔ ∃ d ∈ directions, v = (u.1 + d.1, u.2 + d.2) := by
  obtain ⟨x, y⟩ := u
  obtain ⟨a, b⟩ := v
  unfold adjacent directions
  simp only [List.mem_cons, List.mem_singleton, List.not_mem_nil, or_false, exists_eq_or_imp,
    exists_eq_left, Prod.mk.injEq]
  constructor
  · rintro (h | h | h | h) <;> omega
  · rintro (h | h | h | h) <;> omega

/-! ## The priority queue -/

theorem pqTopFrom_mem (best : Entry) (l : List Entry) : pqTopFrom best l ∈ best :: l := by
  induction l generalizing best with
  | nil => simp [pqTopFrom]
  | cons e rest ih =>
    simp only [pqTopFrom]
    have h := ih (if cmp best e then e else best)
    by_cases hc : cmp best e = true
    · rw [if_pos hc] at h ⊢
      simp only [List.mem_cons] at h ⊢
      tauto
    · rw [if_neg hc] at h ⊢
      simp only [List.mem_cons] at h ⊢
      tauto

theorem pqTopFrom_le (best : Entry) (l : List Entry) :
    ∀ e ∈ best :: l, (pqTopFrom best l).1 ≤ e.1 := by
  induction l generalizing best with
  | nil => simp [pqTopFrom]
  | cons e rest ih =>
    intro x hx
    simp only [pqTopFrom]
    have h := ih (if cmp best e then e else best)
    by_cases hc : cmp best e = true
    · rw [if_pos hc] at h ⊢
      have h1 : e.1 ≤ best.1 := by
        unfold cmp at hc
        simp only [gt_iff_lt, Bool.or_eq_true, decide_eq_true_eq, Bool.and_eq_true] at hc
        omega
      simp only [List.mem_cons] at hx
      rcases hx with rfl | rfl | hx
      · exact le_trans (h e (List.mem_cons_self _ _)) h1
      · exact h _ (List.mem_cons_self _ _)
      · exact h x (List.mem_cons_of_mem _ hx)
    · rw [if_neg hc] at h ⊢
      have h1 : best.1 ≤ e.1 := by
        unfold cmp at hc
        simp only [gt_iff_lt, Bool.or_eq_true, decide_eq_true_eq, Bool.and_eq_true, not_or,
          not_lt] at hc
        exact hc.1
      simp only [List.mem_cons] at hx
      rcases hx with rfl | rfl | hx
      · exact h _ (List.mem_cons_self _ _)
      · exact le_trans (h best (List.mem_cons_self _ _)) h1
      · exact h x (List.mem_cons_of_mem _ hx)

theorem pqTop_mem {q : List Entry} {top : Entry} (h : pqTop q = some top) : top ∈ q := by
  cases q with
  | nil => simp [pqTop] at h
  | cons e rest =>
    simp only [pqTop, Option.some.injEq] at h
    rw [← h]
    exact pqTopFrom_mem e rest

theorem pqTop_le {q : List Entry} {top : Entry} (h : pqTop q = some top) :
    ∀ e ∈ q, top.1 ≤ e.1 := by
  cases q with
  | nil => simp [pqTop] at h
  | cons e rest =>
    simp only [pqTop, Option.some.injEq] at h
    rw [← h]
    exact pqTopFrom_le e rest

theorem pqTop_eq_none {q : List Entry} (h : pqTop q = none) : q = [] := by
  cases q with
  | nil => rfl
  | cons e rest => simp [pqTop] at h

/-! ## One expansion: the loop over the four neighbours -/

theorem distSum_lt (g g' : Grid) (c : Coord) (hc : inGrid c)
    (hother : ∀ v, v ≠ c → (g' v).distance = (g v).distance)
    (hm : -2147483648 ≤ (g' c).distance) (hlt : (g' c).distance < (g c).distance) :
    distSum g' < distSum g := by
  unfold distSum
  apply Finset.sum_lt_sum
  · intro v _
    by_cases hv : v = c
    · subst hv
      omega
    · rw [hother v hv]
  · exact ⟨c, (mem_gridCoords c).2 hc, by omega⟩

theorem RelaxStep.refl (cur : Coord) (g : Grid) (q : List Entry) : RelaxStep cur g q g q where
  type_eq := fun _ => rfl
  weight_eq := fun _ => rfl
  cell := fun _ => Or.inl rfl
  queue_sub := fun _ h => h
  queue_new := fun _ h => Or.inl h
  measure_le := le_refl _

theorem RelaxStep.cur_eq {cur : Coord} {g g' : Grid} {q q' : List Entry}
    (h : RelaxStep cur g q g' q') : g' cur = g cur := by
  rcases h.cell cur with h1 | h1
  · exact h1
  · exact absurd h1.1.1 (not_adjacent_self cur)

theorem RelaxStep.dist_le {cur : Coord} {g g' : Grid} {q q' : List Entry}
    (h : RelaxStep cur g q g' q') (v : Coord) : (g' v).distance ≤ (g v).distance := by
  rcases h.cell v with h1 | h1
  · rw [h1]
  · exact le_of_lt h1.2.2.1

theorem canEnter_congr {g g' : Grid} (h : ∀ v, (g' v).type = (g v).type) (u v : Coord) :
    canEnter g' u v ↔ canEnter g u v := by
  unfold canEnter
  rw [h v]

theorem RelaxStep.trans {cur : Coord} {g g1 g2 : Grid} {q q1 q2 : List Entry}
    (h1 : RelaxStep cur g q g1 q1) (h2 : RelaxStep cur g1 q1 g2 q2) :
    RelaxStep cur g q g2 q2 where
  type_eq := fun v => (h2.type_eq v).trans (h1.type_eq v)
  weight_eq := fun v => (h2.weight_eq v).trans (h1.weight_eq v)
  cell := by
    intro v
    have hc := h1.cur_eq
    rcases h2.cell v with e2 | ⟨c2, d2, l2, p2, m2⟩
    · rcases h1.cell v with e1 | ⟨c1, d1, l1, p1, m1⟩
      · exact Or.inl (e2.trans e1)
      · right
        rw [e2]
        exact ⟨c1, d1, l1, p1, h2.queue_sub _ m1⟩
    · right
      refine ⟨(canEnter_congr h1.type_eq cur v).1 c2, ?_, ?_, p2, m2⟩
      · rw [d2, hc, h1.weight_eq v]
      · exact lt_of_lt_of_le l2 (h1.dist_le v)
  queue_sub := fun e he => h2.queue_sub e (h1.queue_sub e he)
  queue_new := by
    intro e he
    have hc := h1.cur_eq
    rcases h2.queue_new e he with e2 | ⟨c2, d2, l2⟩
    · rcases h1.queue_new e e2 with e1 | ⟨c1, d1, l1⟩
      · exact Or.inl e1
      · exact Or.inr ⟨c1, d1, le_trans (h2.dist_le e.2) l1⟩
    · right
      refine ⟨(canEnter_congr h1.type_eq cur e.2).1 c2, ?_, l2⟩
      rw [d2, hc, h1.weight_eq e.2]
  measure_le := le_trans h2.measure_le h1.measure_le

theorem relax_update_spec (cur : Coord) (g : Grid) (q : List Entry) (v : Coord) (nd : Int)
    (hce : canEnter g cur v) (hnd : nd = wrapInt ((g cur).distance + (g v).weight))
    (hl : nd < (g v).distance) (g' : Grid)
    (hg' : g' = setCell g v { g v with distance := nd, parent := cur }) :
    RelaxStep cur g q g' ((nd, v) :: q) ∧ (g' v).distance ≤ nd := by
  have hd : (g' v).distance = nd := by rw [hg']; simp [setCell]
  have hp : (g' v).parent = cur := by rw [hg']; simp [setCell]
  have ht : ∀ x, (g' x).type = (g x).type := by
    intro x
    rw [hg']
    by_cases hx : x = v
    · subst hx
      simp [setCell]
    · simp [setCell, hx]
  have hw : ∀ x, (g' x).weight = (g x).weight := by
    intro x
    rw [hg']
    by_cases hx : x = v
    · subst hx
      simp [setCell]
    · simp [setCell, hx]
  have ho : ∀ x, x ≠ v → g' x = g x := by
    intro x hx
    rw [hg']
    simp [setCell, hx]
  refine ⟨⟨ht, hw, ?_, ?_, ?_, ?_⟩, le_of_eq hd⟩
  · intro x
    by_cases hx : x = v
    · subst hx
      right
      refine ⟨hce, ?_, ?_, hp, ?_⟩
      · rw [hd, hnd]
      · rw [hd]
        exact hl
      · rw [hd]
        exact List.mem_cons_self _ _
    · exact Or.inl (ho x hx)
  · intro e he
    exact List.mem_cons_of_mem _ he
  · intro e he
    rcases List.mem_cons.1 he with rfl | he
    · right
      exact ⟨hce, hnd, le_of_eq hd⟩
    · exact Or.inl he
  · have h1 : distSum g' < distSum g := by
      apply distSum_lt g g' v hce.2.1
      · intro x hx
        rw [ho x hx]
      · rw [hd, hnd]
        exact wrapInt_ge _
      · rw [hd]
        exact hl
    simp only [List.length_cons]
    omega

theorem relax_spec (cur : Coord) (g : Grid) (q : List Entry) (d : Int × Int)
    (hd : d ∈ directions) :
    RelaxStep cur g q (relax cur (g, q) d).1 (relax cur (g, q) d).2 ∧
      (canEnter g cur (cur.1 + d.1, cur.2 + d.2) →
        ((relax cur (g, q) d).1 (cur.1 + d.1, cur.2 + d.2)).distance ≤
          wrapInt ((g cur).distance + (g (cur.1 + d.1, cur.2 + d.2)).weight)) := by
  have hadj : adjacent cur (cur.1 + d.1, cur.2 + d.2) :=
    (adjacent_iff_direction cur _).2 ⟨d, hd, rfl⟩
  generalize hv : (cur.1 + d.1, cur.2 + d.2) = v at hadj ⊢
  have hrelax : relax cur (g, q) d =
      if inGrid v ∧ (g v).type ≠ CellType.Wall then
        if wrapInt ((g cur).distance + (g v).weight) < (g v).distance then
          (setCell g v { g v with distance := wrapInt ((g cur).distance + (g v).weight),
                                  parent := cur },
            (wrapInt ((g cur).distance + (g v).weight), v) :: q)
        else (g, q)
      else (g, q) := by
    subst hv
    unfold relax inGrid
    simp only [and_assoc]
  rw [hrelax]
  by_cases hg : inGrid v ∧ (g v).type ≠ CellType.Wall
  · rw [if_pos hg]
    by_cases hl : wrapInt ((g cur).distance + (g v).weight) < (g v).distance
    · rw [if_pos hl]
      have hce : canEnter g cur v := ⟨hadj, hg.1, hg.2⟩
      obtain ⟨h1, h2⟩ := relax_update_spec cur g q v _ hce rfl hl _ rfl
      exact ⟨h1, fun _ => h2⟩
    · rw [if_neg hl]
      exact ⟨RelaxStep.refl cur g q, fun _ => not_lt.1 hl⟩
  · rw [if_neg hg]
    exact ⟨RelaxStep.refl cur g q, fun h => absurd ⟨h.2.1, h.2.2⟩ hg⟩

theorem foldl_relax_spec (cur : Coord) (ds : List (Int × Int)) :
    ∀ (g : Grid) (q : List Entry), (∀ d ∈ ds, d ∈ directions) →
      RelaxStep cur g q (ds.foldl (relax cur) (g, q)).1 (ds.foldl (relax cur) (g, q)).2 ∧
        ∀ d ∈ ds, canEnter g cur (cur.1 + d.1, cur.2 + d.2) →
          ((ds.foldl (relax cur) (g, q)).1 (cur.1 + d.1, cur.2 + d.2)).distance ≤
            wrapInt ((g cur).distance + (g (cur.1 + d.1, cur.2 + d.2)).weight) := by
  induction ds with
  | nil =>
    intro g q _
    exact ⟨RelaxStep.refl cur g q, fun d hd => absurd hd (List.not_mem_nil d)⟩
  | cons d0 rest ih =>
    intro g q hds
    simp only [List.foldl_cons]
    obtain ⟨s1, r1⟩ := relax_spec cur g q d0 (hds d0 (List.mem_cons_self _ _))
    obtain ⟨s2, r2⟩ := ih (relax cur (g, q) d0).1 (relax cur (g, q) d0).2
      (fun d hd => hds d (List.mem_cons_of_mem _ hd))
    refine ⟨s1.trans s2, ?_⟩
    intro d hd hce
    rcases List.mem_cons.1 hd with rfl | hd
    · exact le_trans (s2.dist_le _) (r1 hce)
    · have := r2 d hd ((canEnter_congr s1.type_eq cur _).2 hce)
      rw [s1.cur_eq, s1.weight_eq] at this
      exact this

theorem relaxAll_spec (cur : Coord) (g : Grid) (q : List Entry) :
    RelaxStep cur g q (relaxAll cur g q).1 (relaxAll cur g q).2 ∧
      ∀ v, canEnter g cur v →
        ((relaxAll cur g q).1 v).distance ≤ wrapInt ((g cur).distance + (g v).weight) := by
  obtain ⟨s1, r1⟩ := foldl_relax_spec cur directions g q (fun _ h => h)
  refine ⟨s1, ?_⟩
  intro v hv
  obtain ⟨d, hd, rfl⟩ := (adjacent_iff_direction cur v).1 hv.1
  exact r1 d hd hv

/-! ## Paths as lists -/

theorem pathCost_iff_walk (g : Grid) (a v : Coord) (c : Int) :
    PathCost g a v c ↔ ∃ w, isWalkBack g a w ∧ w.head? = some v ∧ walkCost g w = c := by
  constructor
  · intro h
    induction h with
    | here => exact ⟨[a], rfl, rfl, rfl⟩
    | @step u v c _ huv ih =>
      obtain ⟨w, w1, w2, w3⟩ := ih
      cases w with
      | nil => simp at w2
      | cons x rest =>
        simp only [List.head?_cons, Option.some.injEq] at w2
        subst w2
        refine ⟨v :: x :: rest, ⟨huv, w1⟩, rfl, ?_⟩
        simp only [walkCost]
        rw [w3]
        ring
  · rintro ⟨w, w1, w2, w3⟩
    induction w generalizing v c with
    | nil => exact absurd w1 id
    | cons x rest ih =>
      simp only [List.head?_cons, Option.some.injEq] at w2
      subst w2
      cases rest with
      | nil =>
        simp only [isWalkBack] at w1
        simp only [walkCost] at w3
        rw [w1, ← w3]
        exact PathCost.here
      | cons y rest' =>
        simp only [isWalkBack] at w1
        simp only [walkCost] at w3
        have := ih y (walkCost g (y :: rest')) w1.2 rfl rfl
        rw [← w3, add_comm]
        exact PathCost.step this w1.1

/-! ## The invariant of the search -/

theorem finCount_pos (g : Grid) (v : Coord) (hv : inGrid v) (hf : (g v).distance < INT_MAX) :
    1 ≤ finCount g := by
  unfold finCount
  exact Finset.card_pos.2 ⟨v, Finset.mem_filter.2 ⟨(mem_gridCoords v).2 hv, hf⟩⟩

theorem SearchInv.start (g0 : Grid) (a endp : Coord) (ha : inGrid a)
    (hd : ∀ c, inGrid c → (g0 c).distance = INT_MAX) :
    SearchInv g0 a endp (fun _ => False)
      (setCell g0 a { g0 a with distance := 0 }) [((0 : Int), a)] := by
  have hsame : ∀ g' : Grid, g' = setCell g0 a { g0 a with distance := 0 } →
      SearchInv g0 a endp (fun _ => False) g' [((0 : Int), a)] := by
    intro g' hg'
    have h0 : (g' a).distance = 0 := by rw [hg']; simp [setCell]
    have ho : ∀ x, x ≠ a → g' x = g0 x := by
      intro x hx
      rw [hg']
      simp [setCell, hx]
    have ht : ∀ x, (g' x).type = (g0 x).type := by
      intro x
      by_cases hx : x = a
      · subst hx
        rw [hg']
        simp [setCell]
      · rw [ho x hx]
    have hw : ∀ x, (g' x).weight = (g0 x).weight := by
      intro x
      by_cases hx : x = a
      · subst hx
        rw [hg']
        simp [setCell]
      · rw [ho x hx]
    have hfin : ∀ v, inGrid v → (g' v).distance < INT_MAX → v = a := by
      intro v hv hf
      by_contra hne
      rw [ho v hne, hd v hv] at hf
      exact lt_irrefl _ hf
    have hfa : (g' a).distance < INT_MAX := by
      rw [h0]
      unfold INT_MAX
      omega
    refine ⟨ht, hw, h0, ?_, ?_, ?_, ?_, ?_, ?_, ?_, ?_, ?_, ?_⟩
    · intro v hv
      by_cases hx : v = a
      · subst hx
        exact le_of_lt hfa
      · rw [ho v hx, hd v hv]
    · intro v hv hf
      have := hfin v hv hf
      subst this
      have h1 := finCount_pos g' v hv hf
      rw [h0]
      omega
    · intro v hv hf
      have := hfin v hv hf
      subst this
      rw [h0]
      exact PathCost.here
    · intro u v hu
      exact absurd hu id
    · intro v hv hf _
      have := hfin v hv hf
      subst this
      rw [h0]
      exact List.mem_singleton.2 rfl
    · intro e he
      rw [List.mem_singleton.1 he]
      exact ⟨ha, le_of_eq h0, hfa⟩
    · intro u hu
      exact absurd hu id
    · intro u hu
      exact absurd hu id
    · intro v hv hf hne
      exact absurd (hfin v hv hf) hne
    · intro v hv hf
      by_cases hx : v = a
      · subst hx
        exact absurd hfa hf
      · exact ho v hx
  exact hsame _ rfl

theorem SearchInv.stale {g0 : Grid} {a endp : Coord} {S : Coord → Prop} {g : Grid}
    {q : List Entry} (h : SearchInv g0 a endp S g q) (top : Entry)
    (hst : top.1 > (g top.2).distance) : SearchInv g0 a endp S g (q.erase top) where
  type_eq := h.type_eq
  weight_eq := h.weight_eq
  start_dist := h.start_dist
  le_max := h.le_max
  bound := h.bound
  path := h.path
  settled_edge := h.settled_edge
  frontier := by
    intro v hv hf hs
    have hm := h.frontier v hv hf hs
    refine (List.mem_erase_of_ne ?_).2 hm
    intro he
    rw [← he] at hst
    exact lt_irrefl _ hst
  queue_ok := fun e he => h.queue_ok e (List.mem_of_mem_erase he)
  settled_le := fun u hu e he => h.settled_le u hu e (List.mem_of_mem_erase he)
  settled_ok := h.settled_ok
  parent_ok := h.parent_ok
  unset := h.unset

theorem finCount_mono (g g' : Grid) (h : ∀ v, (g' v).distance ≤ (g v).distance) :
    finCount g ≤ finCount g' := by
  unfold finCount
  apply Finset.card_le_card
  intro x hx
  rw [Finset.mem_filter] at hx ⊢
  exact ⟨hx.1, lt_of_le_of_lt (h x) hx.2⟩

theorem finCount_lt (g g' : Grid) (h : ∀ v, (g' v).distance ≤ (g v).distance) (v : Coord)
    (hv : inGrid v) (h1 : ¬ (g v).distance < INT_MAX) (h2 : (g' v).distance < INT_MAX) :
    finCount g + 1 ≤ finCount g' := by
  unfold finCount
  have hnot : v ∉ gridCoords.filter fun c => (g c).distance < INT_MAX := by
    intro hm
    exact h1 (Finset.mem_filter.1 hm).2
  rw [← Finset.card_insert_of_not_mem hnot]
  apply Finset.card_le_card
  intro x hx
  rw [Finset.mem_insert] at hx
  rw [Finset.mem_filter]
  rcases hx with rfl | hx
  · exact ⟨(mem_gridCoords _).2 hv, h2⟩
  · rw [Finset.mem_filter] at hx
    exact ⟨hx.1, lt_of_le_of_lt (h x) hx.2⟩

theorem SearchInv.expand {g0 : Grid} {a endp : Coord} {S : Coord → Prop} {g : Grid}
    {q : List Entry} (h : SearchInv g0 a endp S g q)
    (hw : ∀ c, inGrid c → 1 ≤ (g0 c).weight ∧ (g0 c).weight ≤ 9)
    (top : Entry) (htop : pqTop q = some top) (hne : top.2 ≠ endp)
    (hst : ¬ top.1 > (g top.2).distance) :
    SearchInv g0 a endp (fun x => S x ∨ x = top.2)
      (relaxAll top.2 g (q.erase top)).1 (relaxAll top.2 g (q.erase top)).2 := by
  obtain ⟨rs, r3⟩ := relaxAll_spec top.2 g (q.erase top)
  generalize (relaxAll top.2 g (q.erase top)).1 = g' at rs r3
  generalize (relaxAll top.2 g (q.erase top)).2 = q' at rs
  obtain ⟨d, u⟩ := top
  simp only at hne hst rs r3 ⊢
  have hmem : (d, u) ∈ q := pqTop_mem htop
  have hmin : ∀ e ∈ q, d ≤ e.1 := pqTop_le htop
  obtain ⟨hu, hle, hfu⟩ := h.queue_ok _ hmem
  simp only at hu hle hfu
  have hd : d = (g u).distance := le_antisymm (not_lt.1 hst) hle
  obtain ⟨hu0, hub⟩ := h.bound u hu hfu
  have hcnt := finCount_le g
  have hcnt' := finCount_le g'
  have hdle : ∀ v, (g' v).distance ≤ (g v).distance := rs.dist_le
  have hgu : g' u = g u := rs.cur_eq
  have hwrap : ∀ v, canEnter g u v →
      wrapInt ((g u).distance + (g v).weight) = (g u).distance + (g0 v).weight := by
    intro v hv
    have := hw v hv.2.1
    rw [h.weight_eq v]
    apply wrapInt_eq <;> omega
  have hce : ∀ v, canEnter g u v ↔ canEnter g0 u v := canEnter_congr h.type_eq u
  have hcell : ∀ v, g' v = g v ∨
      (canEnter g0 u v ∧ (g' v).distance = (g u).distance + (g0 v).weight ∧
        (g' v).distance < (g v).distance ∧ (g' v).parent = u ∧ ((g' v).distance, v) ∈ q') := by
    intro v
    rcases rs.cell v with e | ⟨c1, c2, c3, c4, c5⟩
    · exact Or.inl e
    · exact Or.inr ⟨(hce v).1 c1, by rw [c2, hwrap v c1], c3, c4, c5⟩
  have hstable : ∀ x, S x → g' x = g x := by
    intro x hx
    rcases hcell x with e | ⟨c1, c2, c3, _, _⟩
    · exact e
    · have h1 := h.settled_le x hx _ hmem
      have h2 := hw x c1.2.1
      simp only at h1
      omega
  have hstable' : ∀ x, S x ∨ x = u → g' x = g x := by
    intro x hx
    rcases hx with hx | rfl
    · exact hstable x hx
    · exact hgu
  have hsub : ∀ e ∈ q, e ≠ (d, u) → e ∈ q' := by
    intro e he hne'
    exact rs.queue_sub e ((List.mem_erase_of_ne hne').2 he)
  have hnew : ∀ e ∈ q', e ∈ q ∨
      (canEnter g0 u e.2 ∧ e.1 = (g u).distance + (g0 e.2).weight ∧ (g' e.2).distance ≤ e.1) := by
    intro e he
    rcases rs.queue_new e he with e1 | ⟨c1, c2, c3⟩
    · exact Or.inl (List.mem_of_mem_erase e1)
    · exact Or.inr ⟨(hce _).1 c1, by rw [c2, hwrap _ c1], c3⟩
  refine ⟨?_, ?_, ?_, ?_, ?_, ?_, ?_, ?_, ?_, ?_, ?_, ?_, ?_⟩
  · exact fun v => (rs.type_eq v).trans (h.type_eq v)
  · exact fun v => (rs.weight_eq v).trans (h.weight_eq v)
  · rcases hcell a with e | ⟨c1, c2, c3, _, _⟩
    · rw [e]
      exact h.start_dist
    · have := hw a c1.2.1
      have := h.start_dist
      omega
  · exact fun v hv => le_trans (hdle v) (h.le_max v hv)
  · intro v hv hf
    have hmono := finCount_mono g g' hdle
    by_cases hfv : (g v).distance < INT_MAX
    · obtain ⟨b1, b2⟩ := h.bound v hv hfv
      rcases hcell v with e | ⟨c1, c2, c3, _, _⟩
      · rw [e]
        constructor
        · exact b1
        · omega
      · have := hw v hv
        constructor
        · omega
        · omega
    · have hlt := finCount_lt g g' hdle v hv hfv hf
      rcases hcell v with e | ⟨c1, c2, c3, _, _⟩
      · rw [e] at hf
        exact absurd hf hfv
      · have := hw v hv
        constructor
        · omega
        · omega
  · intro v hv hf
    rcases hcell v with e | ⟨c1, c2, c3, _, _⟩
    · rw [e] at hf ⊢
      exact h.path v hv hf
    · rw [c2]
      exact PathCost.step (h.path u hu hfu) c1
  · intro x v hx hxv
    rw [hstable' x hx]
    rcases hx with hx | rfl
    · exact le_trans (hdle v) (h.settled_edge x v hx hxv)
    · have := r3 v ((hce v).2 hxv)
      rw [hwrap v ((hce v).2 hxv)] at this
      exact this
  · intro v hv hf hns
    rw [not_or] at hns
    rcases hcell v with e | ⟨_, _, _, _, c5⟩
    · rw [e] at hf ⊢
      have hm := h.frontier v hv hf hns.1
      apply hsub _ hm
      intro heq
      exact hns.2 (Prod.mk.inj heq).2
    · exact c5
  · intro e he
    rcases hnew e he with e1 | ⟨c1, c2, c3⟩
    · obtain ⟨q1, q2, q3⟩ := h.queue_ok e e1
      exact ⟨q1, le_trans (hdle _) q2, lt_of_le_of_lt (hdle _) q3⟩
    · refine ⟨c1.2.1, c3, ?_⟩
      have := hw e.2 c1.2.1
      unfold INT_MAX
      omega
  · intro x hx e he
    rw [hstable' x hx]
    rcases hnew e he with e1 | ⟨c1, c2, c3⟩
    · rcases hx with hx | rfl
      · exact h.settled_le x hx e e1
      · rw [← hd]
        exact hmin e e1
    · have := hw e.2 c1.2.1
      rcases hx with hx | rfl
      · have h1 := h.settled_le x hx _ hmem
        simp only at h1
        omega
      · omega
  · intro x hx
    rw [hstable' x hx]
    rcases hx with hx | rfl
    · exact h.settled_ok x hx
    · exact ⟨hu, hfu, hne⟩
  · intro v hv hf hva
    rcases hcell v with e | ⟨c1, c2, c3, c4, _⟩
    · rw [e] at hf ⊢
      obtain ⟨p1, p2, p3⟩ := h.parent_ok v hv hf hva
      refine ⟨Or.inl p1, p2, ?_⟩
      rw [hstable _ p1]
      exact p3
    · rw [c4, hgu]
      exact ⟨Or.inr rfl, c1, c2⟩
  · intro v hv hf
    rcases hcell v with e | ⟨c1, c2, c3, _, _⟩
    · rw [e] at hf ⊢
      exact h.unset v hv hf
    · have := h.le_max v hv
      exact absurd (lt_of_lt_of_le c3 this) hf

/-! ## Consequences of the invariant -/

theorem PathCost.inGrid_of {g : Grid} {a v : Coord} {c : Int} (h : PathCost g a v c)
    (ha : inGrid a) : inGrid v := by
  cases h with
  | here => exact ha
  | step _ h2 => exact h2.2.1

theorem PathCost.nonneg {g : Grid} {a v : Coord} {c : Int} (h : PathCost g a v c)
    (hw : ∀ x, inGrid x → 1 ≤ (g x).weight ∧ (g x).weight ≤ 9) : 0 ≤ c := by
  induction h with
  | here => exact le_refl _
  | step _ h2 ih =>
    have := hw _ h2.2.1
    omega

theorem SearchInv.lower {g0 : Grid} {a endp : Coord} {S : Coord → Prop} {g : Grid}
    {q : List Entry} (h : SearchInv g0 a endp S g q) (ha : inGrid a)
    (hw : ∀ c, inGrid c → 1 ≤ (g0 c).weight ∧ (g0 c).weight ≤ 9)
    {v : Coord} {c : Int} (hp : PathCost g0 a v c) :
    (g v).distance ≤ c ∨ ∃ e ∈ q, e.1 ≤ c := by
  induction hp with
  | here => exact Or.inl (le_of_eq h.start_dist)
  | @step u v c hu huv ih =>
    have hwv := hw v huv.2.1
    rcases ih with ih | ⟨e, he, hec⟩
    · by_cases hs : S u
      · left
        have := h.settled_edge u v hs huv
        omega
      · by_cases hf : (g u).distance < INT_MAX
        · right
          exact ⟨_, h.frontier u (hu.inGrid_of ha) hf hs, by simp only; omega⟩
        · left
          have := h.le_max v huv.2.1
          omega
    · right
      exact ⟨e, he, by omega⟩

theorem SearchInv.dist_min {g0 : Grid} {a endp : Coord} {S : Coord → Prop} {g : Grid}
    {q : List Entry} (h : SearchInv g0 a endp S g q) (ha : inGrid a)
    (hw : ∀ c, inGrid c → 1 ≤ (g0 c).weight ∧ (g0 c).weight ≤ 9)
    {v : Coord} (hf : (g v).distance < INT_MAX) {c : Int} (hp : PathCost g0 a v c) :
    (g v).distance ≤ c := by
  have hnn := hp.nonneg hw
  by_cases hva : v = a
  · rw [hva, h.start_dist]
    exact hnn
  · cases hp with
    | here => exact absurd rfl hva
    | @step u _ cu hu huv =>
      have hwv := hw v huv.2.1
      obtain ⟨p1, p2, p3⟩ := h.parent_ok v huv.2.1 hf hva
      rcases h.lower ha hw hu with hl | ⟨e, he, hec⟩
      · by_cases hs : S u
        · have := h.settled_edge u v hs huv
          omega
        · by_cases hfu : (g u).distance < INT_MAX
          · have h1 := h.frontier u (hu.inGrid_of ha) hfu hs
            have h2 := h.settled_le _ p1 _ h1
            simp only at h2
            omega
          · omega
      · have h2 := h.settled_le _ p1 _ he
        omega

theorem SearchInv.near_finite {g0 : Grid} {a endp : Coord} {S : Coord → Prop} {g : Grid}
    {q : List Entry} (h : SearchInv g0 a endp S g q) (ha : inGrid a)
    (hw : ∀ c, inGrid c → 1 ≤ (g0 c).weight ∧ (g0 c).weight ≤ 9)
    {top : Entry} (htop : pqTop q = some top)
    {v : Coord} {c : Int} (hp : PathCost g0 a v c) (hc : c ≤ (g top.2).distance) :
    (g v).distance < INT_MAX := by
  obtain ⟨_, t2, t3⟩ := h.queue_ok top (pqTop_mem htop)
  have hmin := pqTop_le htop
  cases hp with
  | here =>
    rw [h.start_dist]
    unfold INT_MAX
    omega
  | @step u _ cu hu huv =>
    have hwv := hw v huv.2.1
    rcases h.lower ha hw hu with hl | ⟨e, he, hec⟩
    · have hfu : (g u).distance < INT_MAX := by omega
      by_cases hs : S u
      · have := h.settled_edge u v hs huv
        omega
      · have h1 := hmin _ (h.frontier u (hu.inGrid_of ha) hfu hs)
        simp only at h1
        omega
    · have := hmin e he
      omega

theorem SearchInv.exhausted_closed {g0 : Grid} {a endp : Coord} {S : Coord → Prop} {g : Grid}
    (h : SearchInv g0 a endp S g []) (ha : inGrid a)
    (hw : ∀ c, inGrid c → 1 ≤ (g0 c).weight ∧ (g0 c).weight ≤ 9)
    {v : Coord} {c : Int} (hp : PathCost g0 a v c) : S v := by
  have hfin : ∀ x, inGrid x → (g x).distance < INT_MAX → S x := by
    intro x hx hf
    by_contra hs
    exact absurd (h.frontier x hx hf hs) (List.not_mem_nil _)
  induction hp with
  | here =>
    apply hfin a ha
    rw [h.start_dist]
    unfold INT_MAX
    omega
  | @step u v c hu huv ih =>
    apply hfin v huv.2.1
    obtain ⟨_, s2, _⟩ := h.settled_ok u ih
    obtain ⟨_, b2⟩ := h.bound u (hu.inGrid_of ha) s2
    have := h.settled_edge u v ih huv
    have := hw v huv.2.1
    have := finCount_le g
    unfold INT_MAX
    omega

/-! ## The loop of the search -/

theorem dijkstraLoop_exit (g0 : Grid) (a endp : Coord)
    (hw : ∀ c, inGrid c → 1 ≤ (g0 c).weight ∧ (g0 c).weight ≤ 9) :
    ∀ (fuel : Nat) (S : Coord → Prop) (g : Grid) (q : List Entry) (r : SearchResult),
      SearchInv g0 a endp S g q → dijkstraLoop endp fuel g q = some r →
        SearchExit g0 a endp r := by
  intro fuel
  induction fuel with
  | zero =>
    intro S g q r _ hr
    simp [dijkstraLoop] at hr
  | succ n ih =>
    intro S g q r hinv hr
    unfold dijkstraLoop at hr
    cases htop : pqTop q with
    | none =>
      rw [htop] at hr
      simp only [Option.some.injEq] at hr
      rw [← hr]
      have hq := pqTop_eq_none htop
      subst hq
      exact ⟨S, hinv⟩
    | some top =>
      rw [htop] at hr
      simp only at hr
      by_cases he : top.2 = endp
      · rw [if_pos he] at hr
        simp only [Option.some.injEq] at hr
        rw [← hr]
        exact ⟨S, q, top, hinv, htop, he⟩
      · rw [if_neg he] at hr
        by_cases hg : inGrid top.2
        · rw [if_neg (not_not.2 hg)] at hr
          by_cases hst : top.1 > (g top.2).distance
          · rw [if_pos hst] at hr
            exact ih S g _ r (hinv.stale top hst) hr
          · rw [if_neg hst] at hr
            exact ih _ _ _ r (hinv.expand hw top htop he hst) hr
        · rw [if_pos hg] at hr
          simp at hr

theorem dijkstraLoop_mono (endp : Coord) :
    ∀ (n : Nat) (g : Grid) (q : List Entry) (r : SearchResult),
      dijkstraLoop endp n g q = some r → ∀ k, n ≤ k → dijkstraLoop endp k g q = some r := by
  intro n
  induction n with
  | zero =>
    intro g q r hr
    simp [dijkstraLoop] at hr
  | succ n ih =>
    intro g q r hr k hk
    obtain ⟨k', rfl⟩ : ∃ k', k = k' + 1 := ⟨k - 1, by omega⟩
    have hk' : n ≤ k' := by omega
    unfold dijkstraLoop at hr ⊢
    cases htop : pqTop q with
    | none =>
      rw [htop] at hr
      exact hr
    | some top =>
      rw [htop] at hr
      simp only at hr ⊢
      by_cases he : top.2 = endp
      · rw [if_pos he] at hr ⊢
        exact hr
      · rw [if_neg he] at hr ⊢
        by_cases hg : inGrid top.2
        · rw [if_neg (not_not.2 hg)] at hr ⊢
          by_cases hst : top.1 > (g top.2).distance
          · rw [if_pos hst] at hr ⊢
            exact ih _ _ r hr k' hk'
          · rw [if_neg hst] at hr ⊢
            exact ih _ _ r hr k' hk'
        · rw [if_pos hg] at hr
          simp at hr

theorem dijkstraLoop_terminates (endp : Coord) :
    ∀ (fuel : Nat) (g : Grid) (q : List Entry), (∀ e ∈ q, inGrid e.2) →
      q.length + distSum g < fuel → ∃ r, dijkstraLoop endp fuel g q = some r := by
  intro fuel
  induction fuel with
  | zero =>
    intro g q _ hm
    exact absurd hm (Nat.not_lt_zero _)
  | succ n ih =>
    intro g q hq hm
    unfold dijkstraLoop
    cases htop : pqTop q with
    | none => exact ⟨_, rfl⟩
    | some top =>
      simp only
      have hmem := pqTop_mem htop
      have hlen : (q.erase top).length + 1 = q.length := by
        rw [List.length_erase_of_mem hmem]
        have := List.length_pos_of_mem hmem
        omega
      have hq1 : ∀ e ∈ q.erase top, inGrid e.2 := fun e he => hq e (List.mem_of_mem_erase he)
      by_cases he : top.2 = endp
      · rw [if_pos he]
        exact ⟨_, rfl⟩
      · rw [if_neg he, if_neg (not_not.2 (hq top hmem))]
        by_cases hst : top.1 > (g top.2).distance
        · rw [if_pos hst]
          exact ih g _ hq1 (by omega)
        · rw [if_neg hst]
          obtain ⟨rs, _⟩ := relaxAll_spec top.2 g (q.erase top)
          apply ih
          · intro e he'
            rcases rs.queue_new e he' with h1 | h1
            · exact hq1 e h1
            · exact h1.1.2.1
          · have := rs.measure_le
            omega

/-! ## The walk of the path reconstruction -/

theorem parentWalk_congr (a : Coord) (g g' : Grid) (h : ∀ c, (g' c).parent = (g c).parent) :
    ∀ (n : Nat) (v : Coord), parentWalk a g' n v = parentWalk a g n v := by
  intro n
  induction n with
  | zero => intro v; rfl
  | succ n ih =>
    intro v
    simp only [parentWalk]
    rw [h v, ih]

theorem parentWalk_mono (a : Coord) (g : Grid) :
    ∀ (n : Nat) (v : Coord) (w : List Coord), parentWalk a g n v = some w →
      ∀ k, n ≤ k → parentWalk a g k v = some w := by
  intro n
  induction n with
  | zero =>
    intro v w hw
    simp [parentWalk] at hw
  | succ n ih =>
    intro v w hw k hk
    obtain ⟨k', rfl⟩ : ∃ k', k = k' + 1 := ⟨k - 1, by omega⟩
    have hk' : n ≤ k' := by omega
    simp only [parentWalk] at hw ⊢
    by_cases hv : v = a
    · rw [if_pos hv] at hw ⊢
      exact hw
    · rw [if_neg hv] at hw ⊢
      by_cases hg : inGrid v
      · rw [if_neg (not_not.2 hg)] at hw ⊢
        cases hrec : parentWalk a g n (g v).parent with
        | none =>
          rw [hrec] at hw
          simp at hw
        | some w' =>
          rw [hrec] at hw
          rw [ih _ _ hrec k' hk']
          exact hw
      · rw [if_pos hg] at hw
        simp at hw

theorem markWalk_singleton (a : Coord) (g : Grid) : markWalk a g [a] = g := by
  funext c
  unfold markWalk
  by_cases hc : c = a
  · simp [hc]
  · simp [hc]

theorem markWalk_cons (a : Coord) (g : Grid) (cur : Coord) (hne : cur ≠ a) (w : List Coord)
    (g1 : Grid)
    (hg1 : g1 = if (g cur).type ≠ CellType.End then
        setCell g cur { g cur with type := CellType.Path } else g) :
    markWalk a g1 w = markWalk a g (cur :: w) := by
  funext c
  unfold markWalk
  by_cases hc : c = cur
  · subst hc
    by_cases ht : (g c).type = CellType.End
    · have : g1 = g := by rw [hg1]; simp [ht]
      rw [this]
      simp [ht]
    · have : g1 c = { g c with type := CellType.Path } := by
        rw [hg1]
        simp [ht, setCell]
      rw [this]
      simp [ht, hne]
  · have : g1 c = g c := by
      rw [hg1]
      by_cases ht : (g cur).type = CellType.End
      · simp [ht]
      · simp [ht, setCell, hc]
    rw [this]
    simp [hc]

theorem reconstructLoop_eq (a : Coord) :
    ∀ (n : Nat) (g : Grid) (cur : Coord),
      reconstructLoop a n g cur = (parentWalk a g n cur).map (markWalk a g) := by
  intro n
  induction n with
  | zero => intro g cur; rfl
  | succ n ih =>
    intro g cur
    simp only [reconstructLoop, parentWalk]
    by_cases hc : cur = a
    · rw [if_pos hc, if_pos hc]
      simp only [Option.map_some']
      rw [hc, markWalk_singleton]
    · rw [if_neg hc, if_neg hc]
      by_cases hg : inGrid cur
      · rw [if_neg (not_not.2 hg), if_neg (not_not.2 hg)]
        generalize hg1 : (if (g cur).type ≠ CellType.End then
          setCell g cur { g cur with type := CellType.Path } else g) = g1
        have hpar : ∀ c, (g1 c).parent = (g c).parent := by
          intro c
          rw [← hg1]
          by_cases ht : (g cur).type = CellType.End
          · simp [ht]
          · by_cases hcc : c = cur
            · subst hcc
              simp [ht, setCell]
            · simp [ht, setCell, hcc]
        rw [ih, parentWalk_congr a g g1 hpar, hpar cur, Option.map_map]
        congr 1
        funext w
        exact markWalk_cons a g cur hc w g1 hg1.symm
      · rw [if_pos hg, if_pos hg]
        rfl

theorem isWalkBack_getLast {g : Grid} {a : Coord} :
    ∀ {w : List Coord}, isWalkBack g a w → w.getLast? = some a
  | [], h => absurd h id
  | [c], h => by
    simp only [isWalkBack] at h
    simp [h]
  | v :: u :: rest, h => by
    simp only [isWalkBack] at h
    rw [List.getLast?_cons_cons]
    exact isWalkBack_getLast h.2

theorem SearchInv.walk_exists {g0 : Grid} {a endp : Coord} {S : Coord → Prop} {g : Grid}
    {q : List Entry} (h : SearchInv g0 a endp S g q)
    (hw : ∀ c, inGrid c → 1 ≤ (g0 c).weight ∧ (g0 c).weight ≤ 9) :
    ∀ (n : Nat) (v : Coord), inGrid v → (g v).distance < INT_MAX → (g v).distance ≤ n →
      ∃ w, parentWalk a g (n + 1) v = some w ∧ isWalkBack g0 a w ∧ w.head? = some v ∧
        (∀ c ∈ w, inGrid c ∧ (g c).distance < INT_MAX) ∧ walkCost g0 w = (g v).distance := by
  intro n
  induction n with
  | zero =>
    intro v hv hf hn
    by_cases hva : v = a
    · subst hva
      refine ⟨[v], by simp [parentWalk], rfl, rfl, ?_, ?_⟩
      · intro c hc
        rw [List.mem_singleton.1 hc]
        exact ⟨hv, hf⟩
      · rw [h.start_dist]
        rfl
    · obtain ⟨p1, p2, p3⟩ := h.parent_ok v hv hf hva
      obtain ⟨s1, s2, _⟩ := h.settled_ok _ p1
      obtain ⟨b1, _⟩ := h.bound _ s1 s2
      have := hw v hv
      simp only [Nat.cast_zero] at hn
      omega
  | succ n ih =>
    intro v hv hf hn
    by_cases hva : v = a
    · subst hva
      refine ⟨[v], by simp [parentWalk], rfl, rfl, ?_, ?_⟩
      · intro c hc
        rw [List.mem_singleton.1 hc]
        exact ⟨hv, hf⟩
      · rw [h.start_dist]
        rfl
    · obtain ⟨p1, p2, p3⟩ := h.parent_ok v hv hf hva
      obtain ⟨s1, s2, _⟩ := h.settled_ok _ p1
      have hwv := hw v hv
      have hn' : (g (g v).parent).distance ≤ n := by
        push_cast at hn
        omega
      obtain ⟨w, w1, w2, w3, w4, w5⟩ := ih _ s1 s2 hn'
      refine ⟨v :: w, ?_, ?_, rfl, ?_, ?_⟩
      · rw [parentWalk, if_neg hva, if_neg (not_not.2 hv), w1]
        rfl
      · cases w with
        | nil => simp at w3
        | cons u rest =>
          simp only [List.head?_cons, Option.some.injEq] at w3
          subst w3
          exact ⟨p2, w2⟩
      · intro c hc
        rcases List.mem_cons.1 hc with rfl | hc
        · exact ⟨hv, hf⟩
        · exact w4 c hc
      · cases w with
        | nil => simp at w3
        | cons u rest =>
          simp only [walkCost]
          rw [w5, p3]
          ring

/-! ## A whole run on a grid with default distances -/

theorem search_exit (s : State) (fuel : Nat) (r : SearchResult)
    (hd : ∀ c, inGrid c → (s.grid c).distance = INT_MAX)
    (hw : ∀ c, inGrid c → 1 ≤ (s.grid c).weight ∧ (s.grid c).weight ≤ 9)
    (hr : search fuel s = some r) :
    inGrid s.startPos ∧ SearchExit s.grid s.startPos s.endPos r := by
  unfold search at hr
  by_cases hs : inGrid s.startPos
  · rw [if_neg (not_not.2 hs)] at hr
    exact ⟨hs, dijkstraLoop_exit s.grid s.startPos s.endPos hw fuel _ _ _ r
      (SearchInv.start s.grid s.startPos s.endPos hs hd) hr⟩
  · rw [if_pos hs] at hr
    simp at hr

theorem search_mono (s : State) (n : Nat) (r : SearchResult) (hr : search n s = some r)
    (k : Nat) (hk : n ≤ k) : search k s = some r := by
  unfold search at hr ⊢
  by_cases hs : inGrid s.startPos
  · rw [if_neg (not_not.2 hs)] at hr ⊢
    exact dijkstraLoop_mono s.endPos n _ _ r hr k hk
  · rw [if_pos hs] at hr
    simp at hr

theorem search_terminates (s : State) (hs : inGrid s.startPos) :
    ∃ N r, ∀ fuel, N ≤ fuel → search fuel s = some r := by
  obtain ⟨r, hr⟩ := dijkstraLoop_terminates s.endPos
    ([((0 : Int), s.startPos)].length +
      distSum (setCell s.grid s.startPos { s.grid s.startPos with distance := 0 }) + 1)
    (setCell s.grid s.startPos { s.grid s.startPos with distance := 0 })
    [((0 : Int), s.startPos)]
    (fun e he => by rw [List.mem_singleton.1 he]; exact hs) (Nat.lt_succ_self _)
  have hsr : search ([((0 : Int), s.startPos)].length +
      distSum (setCell s.grid s.startPos { s.grid s.startPos with distance := 0 }) + 1) s =
      some r := by
    unfold search
    rw [if_neg (not_not.2 hs)]
    exact hr
  exact ⟨_, r, fun fuel hf => search_mono s _ r hsr fuel hf⟩

theorem reconstructPath_eq (fuel : Nat) (s : State) :
    reconstructPath fuel s =
      (parentWalk s.startPos s.grid fuel s.endPos).map
        fun w => { s with grid := markWalk s.startPos s.grid w } := by
  unfold reconstructPath
  rw [reconstructLoop_eq, Option.map_map]
  rfl

theorem runDijkstra_of_reached (s : State) (fuel : Nat) (gf : Grid) (w : List Coord)
    (h1 : search fuel s = some (SearchResult.reachedEnd gf))
    (h2 : parentWalk s.startPos gf fuel s.endPos = some w) :
    runDijkstra fuel s = some { s with grid := markWalk s.startPos gf w } := by
  unfold runDijkstra
  rw [h1]
  simp only
  rw [reconstructPath_eq]
  simp only
  rw [h2]
  rfl

theorem runDijkstra_of_exhausted (s : State) (fuel : Nat) (gf : Grid)
    (h1 : search fuel s = some (SearchResult.exhausted gf)) :
    runDijkstra fuel s = some { s with grid := gf } := by
  unfold runDijkstra
  rw [h1]

theorem markWalk_distance (a : Coord) (g : Grid) (w : List Coord) (c : Coord) :
    (markWalk a g w c).distance = (g c).distance := by
  unfold markWalk
  split <;> rfl

theorem markWalk_parent (a : Coord) (g : Grid) (w : List Coord) (c : Coord) :
    (markWalk a g w c).parent = (g c).parent := by
  unfold markWalk
  split <;> rfl

theorem markWalk_weight (a : Coord) (g : Grid) (w : List Coord) (c : Coord) :
    (markWalk a g w c).weight = (g c).weight := by
  unfold markWalk
  split <;> rfl

theorem markWalk_type (a : Coord) (g : Grid) (w : List Coord) (c : Coord) :
    (markWalk a g w c).type =
      if c ∈ w ∧ c ≠ a ∧ (g c).type ≠ CellType.End then CellType.Path else (g c).type := by
  unfold markWalk
  split <;> rfl

theorem walk_of_reached (s : State) (gf : Grid)
    (hw : ∀ c, inGrid c → 1 ≤ (s.grid c).weight ∧ (s.grid c).weight ≤ 9)
    (hex : SearchExit s.grid s.startPos s.endPos (SearchResult.reachedEnd gf)) :
    ∃ n w, (∀ k, n ≤ k → parentWalk s.startPos gf k s.endPos = some w) ∧
      isWalkBack s.grid s.startPos w ∧ w.head? = some s.endPos ∧
      (∀ c ∈ w, inGrid c ∧ (gf c).distance < INT_MAX) ∧
      walkCost s.grid w = (gf s.endPos).distance := by
  obtain ⟨S, q, top, hinv, htop, he⟩ := hex
  obtain ⟨t1, _, t3⟩ := hinv.queue_ok top (pqTop_mem htop)
  rw [he] at t1 t3
  obtain ⟨b1, _⟩ := hinv.bound _ t1 t3
  obtain ⟨w, w1, w2, w3, w4, w5⟩ := hinv.walk_exists hw (gf s.endPos).distance.toNat
    s.endPos t1 t3 (by rw [Int.toNat_of_nonneg b1])
  exact ⟨_, w, fun k hk => parentWalk_mono _ _ _ _ _ w1 k hk, w2, w3, w4, w5⟩

theorem run_reaches (s : State)
    (hd : ∀ c, inGrid c → (s.grid c).distance = INT_MAX)
    (hw : ∀ c, inGrid c → 1 ≤ (s.grid c).weight ∧ (s.grid c).weight ≤ 9)
    (hs : inGrid s.startPos) (hr : Connected s.grid s.startPos s.endPos) :
    ∃ N gf w, SearchExit s.grid s.startPos s.endPos (SearchResult.reachedEnd gf) ∧
      ∀ fuel, N ≤ fuel → search fuel s = some (SearchResult.reachedEnd gf) ∧
        parentWalk s.startPos gf fuel s.endPos = some w ∧
        runDijkstra fuel s = some { s with grid := markWalk s.startPos gf w } := by
  obtain ⟨N, r, hN⟩ := search_terminates s hs
  obtain ⟨_, hex⟩ := search_exit s N r hd hw (hN N (le_refl _))
  cases r with
  | exhausted gf =>
    obtain ⟨S, hinv⟩ := hex
    obtain ⟨c, hc⟩ := hr
    exact absurd rfl (hinv.settled_ok _ (hinv.exhausted_closed hs hw hc)).2.2
  | reachedEnd gf =>
    obtain ⟨n, w, w1, _⟩ := walk_of_reached s gf hw hex
    refine ⟨max N n, gf, w, hex, fun fuel hf => ?_⟩
    have h1 := hN fuel (le_trans (le_max_left _ _) hf)
    have h2 := w1 fuel (le_trans (le_max_right _ _) hf)
    exact ⟨h1, h2, runDijkstra_of_reached s fuel gf w h1 h2⟩

/-! ## The search on an arbitrary grid -/

theorem FrameInv.relaxAll_frame {g0 : Grid} {a : Coord} {g : Grid} {q : List Entry}
    (h : FrameInv g0 a g q) (top : Entry) (hmem : top ∈ q) :
    FrameInv g0 a (relaxAll top.2 g (q.erase top)).1 (relaxAll top.2 g (q.erase top)).2 := by
  obtain ⟨rs, _⟩ := relaxAll_spec top.2 g (q.erase top)
  refine ⟨fun v => (rs.type_eq v).trans (h.type_eq v),
    fun v => (rs.weight_eq v).trans (h.weight_eq v), ?_⟩
  intro e he
  rcases rs.queue_new e he with h1 | ⟨h1, _, _⟩
  · exact h.queue_conn e (List.mem_of_mem_erase h1)
  · obtain ⟨c, hc⟩ := (h.queue_conn top hmem).2
    exact ⟨h1.2.1, _, PathCost.step hc ((canEnter_congr h.type_eq _ _).1 h1)⟩

theorem dijkstraLoop_frame (g0 : Grid) (a endp : Coord) :
    ∀ (fuel : Nat) (g : Grid) (q : List Entry) (r : SearchResult),
      FrameInv g0 a g q → dijkstraLoop endp fuel g q = some r → FrameExit g0 a endp r := by
  intro fuel
  induction fuel with
  | zero =>
    intro g q r _ hr
    simp [dijkstraLoop] at hr
  | succ n ih =>
    intro g q r hinv hr
    unfold dijkstraLoop at hr
    cases htop : pqTop q with
    | none =>
      rw [htop] at hr
      simp only [Option.some.injEq] at hr
      rw [← hr]
      exact ⟨hinv.type_eq, hinv.weight_eq⟩
    | some top =>
      rw [htop] at hr
      simp only at hr
      have hmem := pqTop_mem htop
      by_cases he : top.2 = endp
      · rw [if_pos he] at hr
        simp only [Option.some.injEq] at hr
        rw [← hr, ← he]
        exact ⟨(hinv.queue_conn top hmem).2, hinv.type_eq, hinv.weight_eq⟩
      · rw [if_neg he] at hr
        by_cases hg : inGrid top.2
        · rw [if_neg (not_not.2 hg)] at hr
          by_cases hst : top.1 > (g top.2).distance
          · rw [if_pos hst] at hr
            exact ih g _ r ⟨hinv.type_eq, hinv.weight_eq,
              fun e he' => hinv.queue_conn e (List.mem_of_mem_erase he')⟩ hr
          · rw [if_neg hst] at hr
            exact ih _ _ r (hinv.relaxAll_frame top hmem) hr
        · rw [if_pos hg] at hr
          simp at hr

theorem search_frame (s : State) (fuel : Nat) (r : SearchResult)
    (hr : search fuel s = some r) : FrameExit s.grid s.startPos s.endPos r := by
  unfold search at hr
  by_cases hs : inGrid s.startPos
  · rw [if_neg (not_not.2 hs)] at hr
    refine dijkstraLoop_frame s.grid s.startPos s.endPos fuel _ _ r ⟨?_, ?_, ?_⟩ hr
    · intro v
      by_cases hv : v = s.startPos
      · subst hv
        simp [setCell]
      · simp [setCell, hv]
    · intro v
      by_cases hv : v = s.startPos
      · subst hv
        simp [setCell]
      · simp [setCell, hv]
    · intro e he
      rw [List.mem_singleton.1 he]
      exact ⟨hs, 0, PathCost.here⟩
  · rw [if_pos hs] at hr
    simp at hr

/-! ## Input handling -/

theorem handleMouseClick_eq (s : State) (x y : Int) (b : Button) :
    handleMouseClick s x y b = if inGrid (cellOf x y) then clickCell s (cellOf x y) b else s := by
  by_cases h : inGrid (cellOf x y)
  · rw [if_pos h]
    unfold handleMouseClick
    simp only
    rw [if_pos (show 0 ≤ Int.tdiv x CELL_SIZE ∧ Int.tdiv x CELL_SIZE < GRID_SIZE ∧
      0 ≤ Int.tdiv y CELL_SIZE ∧ Int.tdiv y CELL_SIZE < GRID_SIZE from h)]
    cases b with
    | Left => rfl
    | Right =>
      simp only [clickCell]
      by_cases h1 : (s.grid (Int.tdiv x CELL_SIZE, Int.tdiv y CELL_SIZE)).type = CellType.Start
      · simp only [cellOf, if_pos h1]
      · by_cases h2 : (s.grid (Int.tdiv x CELL_SIZE, Int.tdiv y CELL_SIZE)).type = CellType.End
        · simp only [cellOf, if_neg h1, if_pos h2]
        · simp only [cellOf, if_neg h1, if_neg h2]
    | Middle => rfl
    | Other => rfl
  · rw [if_neg h]
    unfold handleMouseClick
    simp only
    rw [if_neg (show ¬ (0 ≤ Int.tdiv x CELL_SIZE ∧ Int.tdiv x CELL_SIZE < GRID_SIZE ∧
      0 ≤ Int.tdiv y CELL_SIZE ∧ Int.tdiv y CELL_SIZE < GRID_SIZE) from h)]

theorem cycleWeight_type (s : State) (p c : Coord) :
    ((cycleWeight s p).grid c).type = (s.grid c).type := by
  unfold cycleWeight
  split_ifs with h
  · by_cases hc : c = p
    · subst hc
      simp [setCell]
    · simp [setCell, hc]
  · rfl

theorem cycleWeight_startPos (s : State) (p : Coord) :
    (cycleWeight s p).startPos = s.startPos := by
  unfold cycleWeight
  split_ifs <;> rfl

theorem cycleWeight_endPos (s : State) (p : Coord) : (cycleWeight s p).endPos = s.endPos := by
  unfold cycleWeight
  split_ifs <;> rfl

theorem cycleWeight_mode (s : State) (p : Coord) :
    (cycleWeight s p).isSettingWeight = s.isSettingWeight := by
  unfold cycleWeight
  split_ifs <;> rfl

theorem MarkerInv.of_cycleWeight {s : State} (h : MarkerInv s) (p : Coord) :
    MarkerInv (cycleWeight s p) where
  start_at := by
    intro c hc
    rw [cycleWeight_type] at hc
    rw [cycleWeight_startPos]
    exact h.start_at c hc
  end_at := by
    intro c hc
    rw [cycleWeight_type] at hc
    rw [cycleWeight_endPos]
    exact h.end_at c hc

theorem not_inGrid_of_fst {c : Coord} (h : c.1 = -1) : ¬ inGrid c := by
  unfold inGrid
  omega

theorem MarkerInv.of_clickCell {s : State} (h : MarkerInv s) (p : Coord) (hp : inGrid p)
    (b : Button) : MarkerInv (clickCell s p b) := by
  cases b with
  | Left =>
    unfold clickCell
    by_cases hm : s.isSettingWeight = true
    · rw [if_pos hm]
      exact h.of_cycleWeight p
    · rw [if_neg hm]
      by_cases h1 : s.startPos.1 = -1
      · rw [if_pos h1]
        constructor
        · intro c hc
          by_cases hcp : c = p
          · exact ⟨hcp, hcp ▸ hp⟩
          · simp only [setCell, if_neg hcp] at hc
            obtain ⟨e1, e2⟩ := h.start_at c hc
            rw [e1] at e2
            exact absurd e2 (not_inGrid_of_fst h1)
        · intro c hc
          by_cases hcp : c = p
          · subst hcp
            simp [setCell] at hc
          · simp only [setCell, if_neg hcp] at hc
            exact h.end_at c hc
      · rw [if_neg h1]
        by_cases h2 : s.endPos.1 = -1
        · rw [if_pos h2]
          constructor
          · intro c hc
            by_cases hcp : c = p
            · subst hcp
              simp [setCell] at hc
            · simp only [setCell, if_neg hcp] at hc
              exact h.start_at c hc
          · intro c hc
            by_cases hcp : c = p
            · exact ⟨hcp, hcp ▸ hp⟩
            · simp only [setCell, if_neg hcp] at hc
              obtain ⟨e1, e2⟩ := h.end_at c hc
              rw [e1] at e2
              exact absurd e2 (not_inGrid_of_fst h2)
        · rw [if_neg h2]
          constructor
          · intro c hc
            by_cases hcp : c = p
            · subst hcp
              simp [setCell] at hc
            · simp only [setCell, if_neg hcp] at hc
              exact h.start_at c hc
          · intro c hc
            by_cases hcp : c = p
            · subst hcp
              simp [setCell] at hc
            · simp only [setCell, if_neg hcp] at hc
              exact h.end_at c hc
  | Right =>
    unfold clickCell
    constructor
    · intro c hc
      by_cases hcp : c = p
      · subst hcp
        simp [setCell] at hc
      · simp only [setCell, if_neg hcp] at hc
        obtain ⟨e1, e2⟩ := h.start_at c hc
        refine ⟨?_, e2⟩
        simp only
        rw [if_neg]
        · exact e1
        · intro hps
          exact hcp (e1.trans (h.start_at p hps).1.symm)
    · intro c hc
      by_cases hcp : c = p
      · subst hcp
        simp [setCell] at hc
      · simp only [setCell, if_neg hcp] at hc
        obtain ⟨e1, e2⟩ := h.end_at c hc
        refine ⟨?_, e2⟩
        simp only
        split_ifs with h3 h4
        · exact e1
        · exact absurd (e1.trans (h.end_at p h4).1.symm) hcp
        · exact e1
  | Middle => exact h.of_cycleWeight p
  | Other => exact h

theorem runDijkstra_cases (fuel : Nat) (s s' : State) (h : runDijkstra fuel s = some s') :
    (∃ gf, search fuel s = some (SearchResult.exhausted gf) ∧ s' = { s with grid := gf }) ∨
      ∃ gf w, search fuel s = some (SearchResult.reachedEnd gf) ∧
        parentWalk s.startPos gf fuel s.endPos = some w ∧
        s' = { s with grid := markWalk s.startPos gf w } := by
  unfold runDijkstra at h
  cases hsr : search fuel s with
  | none =>
    rw [hsr] at h
    simp at h
  | some r =>
    rw [hsr] at h
    cases r with
    | exhausted gf =>
      simp only [Option.some.injEq] at h
      exact Or.inl ⟨gf, rfl, h.symm⟩
    | reachedEnd gf =>
      simp only at h
      rw [reconstructPath_eq] at h
      simp only at h
      cases hw : parentWalk s.startPos gf fuel s.endPos with
      | none =>
        rw [hw] at h
        simp at h
      | some w =>
        rw [hw] at h
        simp only [Option.map_some', Option.some.injEq] at h
        exact Or.inr ⟨gf, w, rfl, hw, h.symm⟩

theorem runDijkstra_type (fuel : Nat) (s s' : State) (h : runDijkstra fuel s = some s') :
    s'.startPos = s.startPos ∧ s'.endPos = s.endPos ∧
      s'.isSettingWeight = s.isSettingWeight ∧
      ∀ c, (s'.grid c).type = (s.grid c).type ∨
        ((s'.grid c).type = CellType.Path ∧ c ≠ s.startPos ∧
          (s.grid c).type ≠ CellType.End) := by
  rcases runDijkstra_cases fuel s s' h with ⟨gf, h1, rfl⟩ | ⟨gf, w, h1, _, rfl⟩
  · have hf := search_frame s fuel _ h1
    exact ⟨rfl, rfl, rfl, fun c => Or.inl (hf.1 c)⟩
  · have hf := search_frame s fuel _ h1
    refine ⟨rfl, rfl, rfl, fun c => ?_⟩
    simp only [markWalk_type, hf.2.1 c]
    split_ifs with hc
    · exact Or.inr ⟨rfl, hc.2.1, hc.2.2⟩
    · exact Or.inl rfl

theorem MarkerInv.of_runDijkstra {s : State} (h : MarkerInv s) (fuel : Nat) (s' : State)
    (hr : runDijkstra fuel s = some s') : MarkerInv s' := by
  obtain ⟨e1, e2, _, ht⟩ := runDijkstra_type fuel s s' hr
  constructor
  · intro c hc
    rw [e1]
    rcases ht c with h1 | ⟨h1, _, _⟩
    · exact h.start_at c (h1 ▸ hc)
    · rw [h1] at hc
      exact absurd hc (by decide)
  · intro c hc
    rw [e2]
    rcases ht c with h1 | ⟨h1, _, _⟩
    · exact h.end_at c (h1 ▸ hc)
    · rw [h1] at hc
      exact absurd hc (by decide)

theorem MarkerInv.of_handleEvent {s : State} (h : MarkerInv s) (fuel : Nat) (e : Event)
    (s' : State) (hs : handleEvent fuel s e = some s') : MarkerInv s' := by
  cases e with
  | MouseButtonPressed x y b =>
    simp only [handleEvent, Option.some.injEq] at hs
    rw [← hs, handleMouseClick_eq]
    split_ifs with hin
    · exact h.of_clickCell _ hin b
    · exact h
  | KeyPressed k =>
    simp only [handleEvent, handleKeyPress] at hs
    cases k with
    | Space =>
      simp only at hs
      split_ifs at hs
      · exact h.of_runDijkstra fuel s' hs
      · simp only [Option.some.injEq] at hs
        exact hs ▸ h
    | R =>
      simp only [Option.some.injEq] at hs
      rw [← hs]
      constructor <;> intro c hc <;> simp [resetGrid] at hc
    | W =>
      simp only [Option.some.injEq] at hs
      rw [← hs]
      exact ⟨h.start_at, h.end_at⟩
    | Other =>
      simp only [Option.some.injEq] at hs
      exact hs ▸ h

theorem Reachable.markers {s : State} (h : Reachable s) : MarkerInv s := by
  induction h with
  | init => constructor <;> intro c hc <;> simp [initialState] at hc
  | step fuel e _ hs ih => exact ih.of_handleEvent fuel e _ hs

theorem Reachable.of_clicks {s : State} (h : Reachable s) (evs : List (Int × Int × Button)) :
    Reachable (clicks s evs) := by
  induction evs generalizing s with
  | nil => exact h
  | cons e rest ih =>
    exact ih (Reachable.step 0 (Event.MouseButtonPressed e.1 e.2.1 e.2.2) h rfl)

theorem clicks_cons (s : State) (e : Int × Int × Button) (rest : List (Int × Int × Button)) :
    clicks s (e :: rest) = clicks (handleMouseClick s e.1 e.2.1 e.2.2) rest := rfl

theorem handleMouseClick_weightSet (s : State) (c : Coord) (hc : inGrid c)
    (e : Int × Int × Button) (he : isWeightSet s c e) :
    handleMouseClick s e.1 e.2.1 e.2.2 = cycleWeight s c := by
  obtain ⟨h1, h2⟩ := he
  rw [handleMouseClick_eq, h1, if_pos hc]
  rcases h2 with h2 | ⟨h2, h3⟩
  · rw [h2]
    rfl
  · rw [h2]
    simp only [clickCell]
    rw [if_pos h3]

theorem nextWeight_eq (w : Int) (h1 : 1 ≤ w) (h2 : w ≤ 9) : nextWeight w = w % 9 + 1 := by
  unfold nextWeight
  rw [Int.tmod_eq_emod (by omega) (by omega)]

theorem clicks_weight (c : Coord) (hc : inGrid c) :
    ∀ (evs : List (Int × Int × Button)) (s : State) (w : Int),
      (s.grid c).type = CellType.Empty → (s.grid c).weight = w → 1 ≤ w → w ≤ 9 →
      (∀ e ∈ evs, isWeightSet s c e) →
      ((clicks s evs).grid c).weight = (w - 1 + (evs.length : Int)) % 9 + 1 := by
  intro evs
  induction evs with
  | nil =>
    intro s w _ hw h1 h2 _
    simp only [clicks, List.foldl_nil, List.length_nil, Nat.cast_zero]
    omega
  | cons e rest ih =>
    intro s w ht hw h1 h2 hall
    rw [clicks_cons, handleMouseClick_weightSet s c hc e (hall e (List.mem_cons_self _ _))]
    have hcw : ((cycleWeight s c).grid c).weight = w % 9 + 1 := by
      unfold cycleWeight
      rw [if_pos ht]
      simp only [setCell, if_true]
      rw [hw, nextWeight_eq w h1 h2]
    have hall' : ∀ e' ∈ rest, isWeightSet (cycleWeight s c) c e' := by
      intro e' he'
      obtain ⟨a1, a2⟩ := hall e' (List.mem_cons_of_mem _ he')
      exact ⟨a1, by rw [cycleWeight_mode]; exact a2⟩
    rw [ih (cycleWeight s c) (w % 9 + 1) (by rw [cycleWeight_type]; exact ht) hcw
      (by omega) (by omega) hall']
    simp only [List.length_cons, Nat.cast_add, Nat.cast_one]
    omega

/-! ## Facts about the example states -/

theorem walledState_paths {v : Coord} {c : Int}
    (h : PathCost walledState.grid walledState.startPos v c) : v = (0, 0) := by
  induction h with
  | here => rfl
  | @step u v c _ huv ih =>
    obtain ⟨hadj, hin, hty⟩ := huv
    subst ih
    exfalso
    unfold adjacent at hadj
    rcases hadj with rfl | rfl | rfl | rfl
    · exact absurd hin (by decide)
    · exact hty (by decide)
    · exact absurd hin (by decide)
    · exact hty (by decide)

theorem walledState_start : inGrid walledState.startPos := by decide

theorem walledState_not_connected :
    ¬ Connected walledState.grid walledState.startPos walledState.endPos := by
  rintro ⟨c, hc⟩
  exact absurd (walledState_paths hc) (by decide)

theorem openState_distance : ∀ c, inGrid c → (openState.grid c).distance = INT_MAX := by
  intro c _
  simp only [openState]
  split_ifs <;> rfl

theorem openState_weight :
    ∀ c, inGrid c → 1 ≤ (openState.grid c).weight ∧ (openState.grid c).weight ≤ 9 := by
  intro c _
  simp only [openState]
  split_ifs <;> decide

theorem openState_start : inGrid openState.startPos := by decide

theorem openState_connected : Connected openState.grid openState.startPos openState.endPos :=
  ⟨_, PathCost.step (PathCost.step (v := (1, 0)) PathCost.here (by decide)) (by decide)⟩

/-! ## Claims on the search -/

/-- C1: on a grid whose cells all carry the default distance, with every weight in
[1,9], Start in the grid and End reachable from Start through in-grid non-Wall
cells, `runDijkstra` finishes, for every large enough step budget in the same
state, and the distance it leaves at End is the least cost of a path from Start
to End, the cost of a path being the sum of the weights of the cells entered. -/
theorem runDijkstra_end_distance_minimal (s : State)
    (hd : ∀ c, inGrid c → (s.grid c).distance = INT_MAX)
    (hw : ∀ c, inGrid c → 1 ≤ (s.grid c).weight ∧ (s.grid c).weight ≤ 9)
    (hs : inGrid s.startPos) (hr : Connected s.grid s.startPos s.endPos) :
    ∃ s' N, (∀ fuel, N ≤ fuel → runDijkstra fuel s = some s') ∧
      IsMinCost s.grid s.startPos s.endPos (s'.grid s.endPos).distance := by
  obtain ⟨N, gf, w, ⟨S, q, top, hinv, htop, he⟩, hrun⟩ := run_reaches s hd hw hs hr
  refine ⟨{ s with grid := markWalk s.startPos gf w }, N, fun fuel hf => (hrun fuel hf).2.2, ?_⟩
  obtain ⟨t1, _, t3⟩ := hinv.queue_ok top (pqTop_mem htop)
  rw [he] at t1 t3
  simp only [markWalk_distance]
  exact ⟨hinv.path _ t1 t3, fun c hc => hinv.dist_min hs hw t3 hc⟩

/-- Witness of C1: the open grid with Start at `(0, 0)` and End at `(2, 0)`. -/
theorem runDijkstra_end_distance_minimal_witness :
    (∀ c, inGrid c → (openState.grid c).distance = INT_MAX) ∧
      (∀ c, inGrid c → 1 ≤ (openState.grid c).weight ∧ (openState.grid c).weight ≤ 9) ∧
      inGrid openState.startPos ∧ Connected openState.grid openState.startPos openState.endPos ∧
      (∃ s' N, (∀ fuel, N ≤ fuel → runDijkstra fuel openState = some s') ∧
        IsMinCost openState.grid openState.startPos openState.endPos
          (s'.grid openState.endPos).distance) ∧
      (runDijkstra 4 openState).map (fun t => (t.grid openState.endPos).distance) = some 2 :=
  ⟨openState_distance, openState_weight, openState_start, openState_connected,
    runDijkstra_end_distance_minimal openState openState_distance openState_weight
      openState_start openState_connected, by decide⟩

/-- C2: on every grid, whatever distances and parents its cells hold, with Start in
the grid, if End cannot be reached from Start through in-grid non-Wall cells then
`runDijkstra` terminates through the exit `pq.empty()` of its loop, so that
`reconstructPath` is not entered, and every cell has the kind it had before. -/
theorem runDijkstra_unreachable (s : State) (hs : inGrid s.startPos)
    (hu : ¬ Connected s.grid s.startPos s.endPos) :
    ∃ gf N,
      (∀ fuel, N ≤ fuel → search fuel s = some (SearchResult.exhausted gf) ∧
        runDijkstra fuel s = some { s with grid := gf }) ∧
      ∀ c, (gf c).type = (s.grid c).type := by
  obtain ⟨N, r, hN⟩ := search_terminates s hs
  have hf := search_frame s N r (hN N (le_refl _))
  cases r with
  | reachedEnd gf => exact absurd hf.1 hu
  | exhausted gf =>
    exact ⟨gf, N, fun fuel hfuel =>
      ⟨hN fuel hfuel, runDijkstra_of_exhausted s fuel gf (hN fuel hfuel)⟩, hf.1⟩

/-- Witness of C2: Start in a corner closed off by two Walls; the queue is empty
after Start has been popped. -/
theorem runDijkstra_unreachable_witness :
    inGrid walledState.startPos ∧
      ¬ Connected walledState.grid walledState.startPos walledState.endPos ∧
      (∃ gf N,
        (∀ fuel, N ≤ fuel → search fuel walledState = some (SearchResult.exhausted gf) ∧
          runDijkstra fuel walledState = some { walledState with grid := gf }) ∧
        ∀ c, (gf c).type = (walledState.grid c).type) ∧
      queueEmptied (search 2 walledState) = true :=
  ⟨walledState_start, walledState_not_connected,
    runDijkstra_unreachable walledState walledState_start walledState_not_connected,
    by decide⟩

/-- C3: on a grid with default distances and weights in [1,9], when the search pops
End the walk of `reconstructPath` from End along the parent pointers ends at Start
within a finite number of steps; every cell it reads lies in the grid (so none is
the unset parent `(-1, -1)`), every cell of the walk but Start is entered from the
next one by a 4-directional step and is not a Wall, and the weights of the cells
of the walk other than Start add up to the distance of End. -/
theorem reconstructPath_walk (s : State)
    (hd : ∀ c, inGrid c → (s.grid c).distance = INT_MAX)
    (hw : ∀ c, inGrid c → 1 ≤ (s.grid c).weight ∧ (s.grid c).weight ≤ 9)
    (fuel : Nat) (hpop : endPopped (search fuel s) = true) :
    ∃ gf n w, search fuel s = some (SearchResult.reachedEnd gf) ∧
      (∀ k, n ≤ k → parentWalk s.startPos gf k s.endPos = some w ∧
        reconstructPath k { s with grid := gf } =
          some { s with grid := markWalk s.startPos gf w }) ∧
      w.head? = some s.endPos ∧ w.getLast? = some s.startPos ∧
      (∀ c ∈ w, inGrid c ∧ c ≠ (-1, -1)) ∧ isWalkBack s.grid s.startPos w ∧
      walkCost s.grid w = (gf s.endPos).distance := by
  cases hsr : search fuel s with
  | none =>
    rw [hsr] at hpop
    simp [endPopped] at hpop
  | some r =>
    cases r with
    | exhausted gf =>
      rw [hsr] at hpop
      simp [endPopped] at hpop
    | reachedEnd gf =>
      obtain ⟨_, hex⟩ := search_exit s fuel _ hd hw hsr
      obtain ⟨n, w, w1, w2, w3, w4, w5⟩ := walk_of_reached s gf hw hex
      refine ⟨gf, n, w, rfl, fun k hk => ⟨w1 k hk, ?_⟩, w3, isWalkBack_getLast w2, ?_, w2, w5⟩
      · rw [reconstructPath_eq]
        simp only
        rw [w1 k hk]
        rfl
      · intro c hc
        refine ⟨(w4 c hc).1, ?_⟩
        rintro rfl
        exact absurd (w4 _ hc).1 (by decide)

/-- Witness of C3: the open grid with Start at `(0, 0)` and End at `(2, 0)`, where
End is the fourth entry popped. -/
theorem reconstructPath_walk_witness :
    (∀ c, inGrid c → (openState.grid c).distance = INT_MAX) ∧
      (∀ c, inGrid c → 1 ≤ (openState.grid c).weight ∧ (openState.grid c).weight ≤ 9) ∧
      endPopped (search 4 openState) = true ∧
      (∃ gf n w, search 4 openState = some (SearchResult.reachedEnd gf) ∧
        (∀ k, n ≤ k → parentWalk openState.startPos gf k openState.endPos = some w ∧
          reconstructPath k { openState with grid := gf } =
            some { openState with grid := markWalk openState.startPos gf w }) ∧
        w.head? = some openState.endPos ∧ w.getLast? = some openState.startPos ∧
        (∀ c ∈ w, inGrid c ∧ c ≠ (-1, -1)) ∧ isWalkBack openState.grid openState.startPos w ∧
        walkCost openState.grid w = (gf openState.endPos).distance) ∧
      (runDijkstra 4 openState).map
          (fun t => parentWalk openState.startPos t.grid 3 openState.endPos) =
        some (some [(2, 0), (1, 0), (0, 0)]) :=
  ⟨openState_distance, openState_weight, by decide,
    reconstructPath_walk openState openState_distance openState_weight 4 (by decide),
    by decide⟩

/-- C6, as the code has it: after `runDijkstra` on a grid with default distances,
weights in [1,9], Start in the grid and End reachable, every cell of the grid whose
distance is no longer the sentinel holds its least path cost from Start and, unless
it is Start, a parent pointer to a 4-adjacent cell of the grid whose distance is
smaller by exactly the weight of the cell; every cell that some path reaches at a
cost of at most the distance of End is such a cell. -/
theorem runDijkstra_finite_distances (s : State)
    (hd : ∀ c, inGrid c → (s.grid c).distance = INT_MAX)
    (hw : ∀ c, inGrid c → 1 ≤ (s.grid c).weight ∧ (s.grid c).weight ≤ 9)
    (hs : inGrid s.startPos) (hr : Connected s.grid s.startPos s.endPos) :
    ∃ s' N, (∀ fuel, N ≤ fuel → runDijkstra fuel s = some s') ∧
      (∀ v, inGrid v → (s'.grid v).distance ≠ INT_MAX →
        IsMinCost s.grid s.startPos v (s'.grid v).distance ∧
          (v ≠ s.startPos →
            adjacent (s'.grid v).parent v ∧ inGrid (s'.grid v).parent ∧
              (s'.grid (s'.grid v).parent).distance =
                (s'.grid v).distance - (s'.grid v).weight)) ∧
      ∀ v c, PathCost s.grid s.startPos v c → c ≤ (s'.grid s.endPos).distance →
        (s'.grid v).distance ≠ INT_MAX := by
  obtain ⟨N, gf, w, ⟨S, q, top, hinv, htop, he⟩, hrun⟩ := run_reaches s hd hw hs hr
  refine ⟨{ s with grid := markWalk s.startPos gf w }, N,
    fun fuel hf => (hrun fuel hf).2.2, ?_, ?_⟩
  · intro v hv hne
    simp only [markWalk_distance, markWalk_parent, markWalk_weight] at hne ⊢
    have hf : (gf v).distance < INT_MAX := lt_of_le_of_ne (hinv.le_max v hv) hne
    refine ⟨⟨hinv.path v hv hf, fun c hc => hinv.dist_min hs hw hf hc⟩, fun hva => ?_⟩
    obtain ⟨p1, p2, p3⟩ := hinv.parent_ok v hv hf hva
    refine ⟨p2.1, (hinv.settled_ok _ p1).1, ?_⟩
    rw [p3, hinv.weight_eq v]
    ring
  · intro v c hc hle
    simp only [markWalk_distance] at hle ⊢
    rw [← he] at hle
    exact ne_of_lt (hinv.near_finite hs hw htop hc hle)

/-- Witness of the amended C6: the open grid with Start at `(0, 0)` and End at
`(2, 0)`. -/
theorem runDijkstra_finite_distances_witness :
    (∀ c, inGrid c → (openState.grid c).distance = INT_MAX) ∧
      (∀ c, inGrid c → 1 ≤ (openState.grid c).weight ∧ (openState.grid c).weight ≤ 9) ∧
      inGrid openState.startPos ∧ Connected openState.grid openState.startPos openState.endPos ∧
      ∃ s' N, (∀ fuel, N ≤ fuel → runDijkstra fuel openState = some s') ∧
        (∀ v, inGrid v → (s'.grid v).distance ≠ INT_MAX →
          IsMinCost openState.grid openState.startPos v (s'.grid v).distance ∧
            (v ≠ openState.startPos →
              adjacent (s'.grid v).parent v ∧ inGrid (s'.grid v).parent ∧
                (s'.grid (s'.grid v).parent).distance =
                  (s'.grid v).distance - (s'.grid v).weight)) ∧
        ∀ v c, PathCost openState.grid openState.startPos v c →
          c ≤ (s'.grid openState.endPos).distance → (s'.grid v).distance ≠ INT_MAX :=
  ⟨openState_distance, openState_weight, openState_start, openState_connected,
    runDijkstra_finite_distances openState openState_distance openState_weight
      openState_start openState_connected⟩

/-- Counterexample to C6 as stated: on the open grid with Start at `(0, 0)` and End
at `(2, 0)` the cell `(3, 0)` can be reached from Start at cost 3, yet the run
leaves its distance at the sentinel, which is not its least path cost. -/
theorem runDijkstra_all_reachable_counterexample :
    (∀ c, inGrid c → (openState.grid c).distance = INT_MAX ∧
        (openState.grid c).parent = (-1, -1)) ∧
      inGrid openState.startPos ∧ inGrid openState.endPos ∧
      Connected openState.grid openState.startPos openState.endPos ∧
      Connected openState.grid openState.startPos (3, 0) ∧
      ∃ s', runDijkstra 4 openState = some s' ∧ (s'.grid (3, 0)).distance = INT_MAX ∧
        ¬ IsMinCost openState.grid openState.startPos (3, 0) (s'.grid (3, 0)).distance := by
  have hpath : PathCost openState.grid openState.startPos (3, 0) 3 :=
    PathCost.step (c := 2) (v := (3, 0))
      (PathCost.step (c := 1) (v := (2, 0))
        (PathCost.step (c := 0) (v := (1, 0)) PathCost.here (by decide)) (by decide))
      (by decide)
  refine ⟨?_, by decide, by decide, openState_connected, ⟨_, hpath⟩, ?_⟩
  · intro c _
    simp only [openState]
    split_ifs <;> exact ⟨rfl, rfl⟩
  · have hrun : (runDijkstra 4 openState).map (fun s' => (s'.grid (3, 0)).distance) =
        some INT_MAX := by decide
    cases hs' : runDijkstra 4 openState with
    | none => rw [hs'] at hrun; exact absurd hrun (by simp)
    | some s' =>
      rw [hs'] at hrun
      simp only [Option.map_some', Option.some.injEq] at hrun
      refine ⟨s', rfl, hrun, fun hmin => ?_⟩
      have := hmin.2 3 hpath
      rw [hrun] at this
      exact absurd this (by decide)

/-- C5 fails on the code: `runDijkstra` only sets the distance of Start and keeps
every other distance and parent of the grid.  After a first search from `(0, 0)`
to `(2, 0)`, a second search on the same layout empties the queue without popping
End, whereas from cleared distances it pops End; and once a Wall is put on the path
cell `(1, 0)` the second search again empties the queue, leaves `(1, 1)` Empty and
the distance of End at 2, whereas from cleared distances it pops End, marks
`(1, 1)` as Path and finds the distance 4. -/
theorem runDijkstra_keeps_stale_distances :
    runDijkstra 4 placedState = some searchedState ∧
      queueEmptied (search 20 searchedState) = true ∧
      endPopped (search 20 (clearSearchData searchedState)) = true ∧
      queueEmptied (search 20 blockedState) = true ∧
      endPopped (search 20 (clearSearchData blockedState)) = true ∧
      (runDijkstra 20 blockedState).map (fun t => ((t.grid (1, 1)).type, (t.grid (2, 0)).distance))
        = some (CellType.Empty, 2) ∧
      (runDijkstra 20 (clearSearchData blockedState)).map
          (fun t => ((t.grid (1, 1)).type, (t.grid (2, 0)).distance))
        = some (CellType.Path, 4) := by
  refine ⟨rfl, ?_, ?_, ?_, ?_, ?_, ?_⟩ <;> decide

/-! ## Claims on the grid model -/

/-- The events that change the kind of a cell of kind Start or End in a reachable
state, and the kind that each leaves: a right click on the cell and the reset key
leave Empty; a left click on the cell outside weight-setting mode writes Start,
End or Wall according to the markers that are set.  No other event changes it. -/
theorem marker_kind_change (s : State) (hs : Reachable s) (fuel : Nat) (e : Event)
    (s' : State) (hstep : handleEvent fuel s e = some s') (c : Coord)
    (hk : (s.grid c).type = CellType.Start ∨ (s.grid c).type = CellType.End)
    (hne : (s'.grid c).type ≠ (s.grid c).type) :
    (∃ x y, e = Event.MouseButtonPressed x y Button.Right ∧ c = cellOf x y ∧
        (s'.grid c).type = CellType.Empty) ∨
      (e = Event.KeyPressed Key.R ∧ (s'.grid c).type = CellType.Empty) ∨
      (∃ x y, e = Event.MouseButtonPressed x y Button.Left ∧ c = cellOf x y ∧
        s.isSettingWeight = false ∧
        (s'.grid c).type =
          if s.startPos.1 = -1 then CellType.Start
          else if s.endPos.1 = -1 then CellType.End else CellType.Wall) := by
  cases e with
  | MouseButtonPressed x y b =>
    simp only [handleEvent, Option.some.injEq] at hstep
    rw [handleMouseClick_eq] at hstep
    by_cases hin : inGrid (cellOf x y)
    · rw [if_pos hin] at hstep
      subst hstep
      cases b with
      | Left =>
        by_cases hm : s.isSettingWeight = true
        · simp only [clickCell, if_pos hm, cycleWeight_type] at hne
          exact absurd rfl hne
        · right
          right
          simp only [clickCell, if_neg hm] at hne ⊢
          by_cases hcp : c = cellOf x y
          · refine ⟨x, y, rfl, hcp, by simpa using hm, ?_⟩
            subst hcp
            split_ifs <;> simp [setCell]
          · exfalso
            apply hne
            split_ifs <;> simp [setCell, hcp]
      | Right =>
        left
        by_cases hcp : c = cellOf x y
        · refine ⟨x, y, rfl, hcp, ?_⟩
          subst hcp
          simp [clickCell, setCell]
        · exfalso
          apply hne
          simp [clickCell, setCell, hcp]
      | Middle =>
        simp only [clickCell, cycleWeight_type] at hne
        exact absurd rfl hne
      | Other => exact absurd rfl hne
    · rw [if_neg hin] at hstep
      subst hstep
      exact absurd rfl hne
  | KeyPressed k =>
    cases k with
    | Space =>
      simp only [handleEvent, handleKeyPress] at hstep
      split_ifs at hstep
      · obtain ⟨_, _, _, ht⟩ := runDijkstra_type fuel s s' hstep
        rcases ht c with h1 | ⟨_, h2, h3⟩
        · exact absurd h1 hne
        · rcases hk with hk | hk
          · exact absurd (hs.markers.start_at c hk).1 h2
          · exact absurd hk h3
      · simp only [Option.some.injEq] at hstep
        subst hstep
        exact absurd rfl hne
    | R =>
      simp only [handleEvent, handleKeyPress, Option.some.injEq] at hstep
      subst hstep
      exact Or.inr (Or.inl ⟨rfl, rfl⟩)
    | W =>
      simp only [handleEvent, handleKeyPress, Option.some.injEq] at hstep
      subst hstep
      exact absurd rfl hne
    | Other =>
      simp only [handleEvent, handleKeyPress, Option.some.injEq] at hstep
      subst hstep
      exact absurd rfl hne

/-- C9: on a cell of the grid that is Empty with weight 1, `n` weight-set actions in
a row (middle clicks, or left clicks in weight-setting mode) leave the weight
`(n mod 9) + 1`; and a weight-set action on a cell whose kind is Wall, Start or End
leaves the whole state as it is. -/
theorem weight_cycle (s : State) (c : Coord) (hc : inGrid c) :
    (∀ evs : List (Int × Int × Button),
        (s.grid c).type = CellType.Empty → (s.grid c).weight = 1 →
        (∀ e ∈ evs, isWeightSet s c e) →
        ((clicks s evs).grid c).weight = ((evs.length % 9 : Nat) : Int) + 1) ∧
      ∀ e : Int × Int × Button, isWeightSet s c e →
        (s.grid c).type = CellType.Wall ∨ (s.grid c).type = CellType.Start ∨
          (s.grid c).type = CellType.End →
        handleMouseClick s e.1 e.2.1 e.2.2 = s := by
  constructor
  · intro evs ht hw hall
    rw [clicks_weight c hc evs s 1 ht hw (le_refl _) (by omega) hall]
    push_cast
    omega
  · intro e he hk
    rw [handleMouseClick_weightSet s c hc e he]
    unfold cycleWeight
    rw [if_neg]
    rcases hk with hk | hk | hk <;> rw [hk] <;> decide

/-- Witness of C9: on the cell `(1, 1)` of the initial state, three middle clicks
leave the weight 4 and nine middle clicks leave the weight 1. -/
theorem weight_cycle_witness :
    inGrid (1, 1) ∧
      ((clicks initialState
          [(45, 45, Button.Middle), (31, 59, Button.Middle), (45, 45, Button.Middle)]).grid
        (1, 1)).weight = 4 ∧
      ((clicks initialState (List.replicate 9 (45, 45, Button.Middle))).grid (1, 1)).weight = 1 :=
  ⟨by decide,
    (weight_cycle initialState (1, 1) (by decide)).1
      [(45, 45, Button.Middle), (31, 59, Button.Middle), (45, 45, Button.Middle)]
      rfl rfl (by decide),
    (weight_cycle initialState (1, 1) (by decide)).1
      (List.replicate 9 (45, 45, Button.Middle)) rfl rfl (by decide)⟩

/-- C10: `resetGrid` is idempotent, and after it every cell is Empty with weight 1,
the sentinel distance and the unset parent, and both markers are `(-1, -1)`. -/
theorem resetGrid_idempotent (s : State) :
    resetGrid (resetGrid s) = resetGrid s ∧
      (∀ c, (resetGrid s).grid c =
        { type := CellType.Empty, distance := INT_MAX, parent := (-1, -1), weight := 1 }) ∧
      (resetGrid s).startPos = (-1, -1) ∧ (resetGrid s).endPos = (-1, -1) :=
  ⟨rfl, fun _ => rfl, rfl, rfl⟩

/-! ## Weights and markers of the reachable states -/

theorem nextWeight_range (w : Int) (h1 : 1 ≤ w) (h2 : w ≤ 9) :
    1 ≤ nextWeight w ∧ nextWeight w ≤ 9 := by
  rw [nextWeight_eq w h1 h2]
  omega

theorem WeightInv.weights_cycleWeight {s : State} (h : WeightInv s) (p : Coord) :
    WeightInv (cycleWeight s p) := by
  intro c
  unfold cycleWeight
  split_ifs with ht
  · by_cases hc : c = p
    · subst hc
      simp only [setCell, if_true]
      exact nextWeight_range _ (h c).1 (h c).2
    · simp only [setCell, if_neg hc]
      exact h c
  · exact h c

theorem WeightInv.weights_clickCell {s : State} (h : WeightInv s) (p : Coord) (b : Button) :
    WeightInv (clickCell s p b) := by
  have hset : ∀ t : CellType, ∀ c,
      1 ≤ (setCell s.grid p { s.grid p with type := t } c).weight ∧
        (setCell s.grid p { s.grid p with type := t } c).weight ≤ 9 := by
    intro t c
    by_cases hc : c = p
    · subst hc
      simp only [setCell, if_true]
      exact h c
    · simp only [setCell, if_neg hc]
      exact h c
  cases b with
  | Left =>
    simp only [clickCell]
    by_cases hm : s.isSettingWeight = true
    · rw [if_pos hm]
      exact h.weights_cycleWeight p
    · rw [if_neg hm]
      by_cases h1 : s.startPos.1 = -1
      · rw [if_pos h1]
        exact hset _
      · rw [if_neg h1]
        by_cases h2 : s.endPos.1 = -1
        · rw [if_pos h2]
          exact hset _
        · rw [if_neg h2]
          exact hset _
  | Right =>
    simp only [clickCell]
    intro c
    by_cases hc : c = p
    · subst hc
      simp [setCell]
    · simp only [setCell, if_neg hc]
      exact h c
  | Middle => exact h.weights_cycleWeight p
  | Other => exact h

theorem runDijkstra_weight (fuel : Nat) (s s' : State) (h : runDijkstra fuel s = some s')
    (c : Coord) : (s'.grid c).weight = (s.grid c).weight := by
  rcases runDijkstra_cases fuel s s' h with ⟨gf, h1, rfl⟩ | ⟨gf, w, h1, _, rfl⟩
  · exact (search_frame s fuel _ h1).2 c
  · simp only [markWalk_weight]
    exact (search_frame s fuel _ h1).2.2 c

theorem WeightInv.weights_handleEvent {s : State} (h : WeightInv s) (fuel : Nat) (e : Event)
    (s' : State) (hs : handleEvent fuel s e = some s') : WeightInv s' := by
  cases e with
  | MouseButtonPressed x y b =>
    simp only [handleEvent, Option.some.injEq] at hs
    rw [← hs, handleMouseClick_eq]
    split_ifs
    · exact h.weights_clickCell _ b
    · exact h
  | KeyPressed k =>
    simp only [handleEvent, handleKeyPress] at hs
    cases k with
    | Space =>
      simp only at hs
      split_ifs at hs
      · intro c
        rw [runDijkstra_weight fuel s s' hs c]
        exact h c
      · simp only [Option.some.injEq] at hs
        exact hs ▸ h
    | R =>
      simp only [Option.some.injEq] at hs
      rw [← hs]
      intro c
      simp [resetGrid]
    | W =>
      simp only [Option.some.injEq] at hs
      rw [← hs]
      exact h
    | Other =>
      simp only [Option.some.injEq] at hs
      exact hs ▸ h

theorem Reachable.weights {s : State} (h : Reachable s) : WeightInv s := by
  induction h with
  | init =>
    intro c
    simp [initialState]
  | step fuel e _ hs ih => exact ih.weights_handleEvent fuel e _ hs

theorem RangeInv.ranges_clickCell {s : State} (h : RangeInv s) (p : Coord) (hp : inGrid p)
    (b : Button) : RangeInv (clickCell s p b) := by
  cases b with
  | Left =>
    simp only [clickCell]
    by_cases hm : s.isSettingWeight = true
    · rw [if_pos hm]
      exact ⟨by rw [cycleWeight_startPos]; exact h.start_ok,
        by rw [cycleWeight_endPos]; exact h.end_ok⟩
    · rw [if_neg hm]
      by_cases h1 : s.startPos.1 = -1
      · rw [if_pos h1]
        exact ⟨Or.inr hp, h.end_ok⟩
      · rw [if_neg h1]
        by_cases h2 : s.endPos.1 = -1
        · rw [if_pos h2]
          exact ⟨h.start_ok, Or.inr hp⟩
        · rw [if_neg h2]
          exact ⟨h.start_ok, h.end_ok⟩
  | Right =>
    simp only [clickCell]
    constructor
    · simp only
      split_ifs
      · exact Or.inl rfl
      · exact h.start_ok
    · simp only
      split_ifs
      · exact h.end_ok
      · exact Or.inl rfl
      · exact h.end_ok
  | Middle =>
    exact ⟨by simp only [clickCell, cycleWeight_startPos]; exact h.start_ok,
      by simp only [clickCell, cycleWeight_endPos]; exact h.end_ok⟩
  | Other => exact h

theorem RangeInv.ranges_handleEvent {s : State} (h : RangeInv s) (fuel : Nat) (e : Event)
    (s' : State) (hs : handleEvent fuel s e = some s') : RangeInv s' := by
  cases e with
  | MouseButtonPressed x y b =>
    simp only [handleEvent, Option.some.injEq] at hs
    rw [← hs, handleMouseClick_eq]
    split_ifs with hin
    · exact h.ranges_clickCell _ hin b
    · exact h
  | KeyPressed k =>
    simp only [handleEvent, handleKeyPress] at hs
    cases k with
    | Space =>
      simp only at hs
      split_ifs at hs
      · obtain ⟨e1, e2, _, _⟩ := runDijkstra_type fuel s s' hs
        exact ⟨e1 ▸ h.start_ok, e2 ▸ h.end_ok⟩
      · simp only [Option.some.injEq] at hs
        exact hs ▸ h
    | R =>
      simp only [Option.some.injEq] at hs
      rw [← hs]
      exact ⟨Or.inl rfl, Or.inl rfl⟩
    | W =>
      simp only [Option.some.injEq] at hs
      rw [← hs]
      exact ⟨h.start_ok, h.end_ok⟩
    | Other =>
      simp only [Option.some.injEq] at hs
      exact hs ▸ h

theorem Reachable.ranges {s : State} (h : Reachable s) : RangeInv s := by
  induction h with
  | init => exact ⟨Or.inl rfl, Or.inl rfl⟩
  | step fuel e _ hs ih => exact ih.ranges_handleEvent fuel e _ hs

theorem inGrid_of_set {c : Coord} (h : c = (-1, -1) ∨ inGrid c) (hc : c.1 ≠ -1) : inGrid c := by
  rcases h with h | h
  · rw [h] at hc
    exact absurd rfl hc
  · exact h

theorem placedState_reachable : Reachable placedState :=
  Reachable.init.of_clicks _

theorem searchedState_reachable : Reachable searchedState := by
  have h : handleEvent 4 placedState (Event.KeyPressed Key.Space) = some searchedState := rfl
  exact Reachable.step 4 (Event.KeyPressed Key.Space) placedState_reachable h

theorem blockedState_reachable : Reachable blockedState :=
  searchedState_reachable.of_clicks _

/-! ## The order of the pops -/

theorem cmp_true {a b : Entry} (h : cmp a b = true) :
    b.1 < a.1 ∨ (b.1 = a.1 ∧ lexLe a.2 b.2) := by
  unfold cmp VectorCompare at h
  simp only [gt_iff_lt, Bool.or_eq_true, decide_eq_true_eq, Bool.and_eq_true] at h
  unfold lexLe
  omega

theorem cmp_false {a b : Entry} (h : ¬ cmp a b = true) :
    a.1 < b.1 ∨ (a.1 = b.1 ∧ lexLe b.2 a.2) := by
  unfold cmp VectorCompare at h
  simp only [gt_iff_lt, Bool.or_eq_true, decide_eq_true_eq, Bool.and_eq_true, not_or,
    not_and, not_lt] at h
  unfold lexLe
  omega

theorem pqTopFrom_greatest (best : Entry) (l : List Entry) :
    ∀ e ∈ best :: l,
      (pqTopFrom best l).1 < e.1 ∨
        ((pqTopFrom best l).1 = e.1 ∧ lexLe e.2 (pqTopFrom best l).2) := by
  induction l generalizing best with
  | nil =>
    intro e he
    rw [List.mem_singleton.1 he]
    right
    exact ⟨rfl, Or.inr ⟨rfl, le_refl _⟩⟩
  | cons x rest ih =>
    intro e he
    simp only [pqTopFrom]
    have h := ih (if cmp best x then x else best)
    by_cases hc : cmp best x = true
    · rw [if_pos hc] at h ⊢
      have hbx := cmp_true hc
      have hx := h x (List.mem_cons_self _ _)
      simp only [List.mem_cons] at he
      rcases he with rfl | rfl | he
      · unfold lexLe at hbx hx ⊢
        omega
      · exact hx
      · exact h e (List.mem_cons_of_mem _ he)
    · rw [if_neg hc] at h ⊢
      have hbx := cmp_false hc
      have hb := h best (List.mem_cons_self _ _)
      simp only [List.mem_cons] at he
      rcases he with rfl | rfl | he
      · exact hb
      · unfold lexLe at hbx hb ⊢
        omega
      · exact h e (List.mem_cons_of_mem _ he)

theorem loopEvents_head (endp : Coord) (fuel : Nat) (g : Grid) (q : List Entry) (top : Entry)
    (h : pqTop q = some top) :
    (loopEvents endp (fuel + 1) g q).head? = some (SearchEvent.popped top) := by
  simp only [loopEvents, h, List.head?_cons]

/-! ## Further claims on the grid model -/

/-- C11 fails on the code: `handleMouseClick` tests the cell coordinates after a
division that truncates toward zero, so the pixels `-29 .. -1` fall on row or
column 0.  A left click at the pixel `(-1, 0)`, which is outside the pixel square
of the grid, places Start on the cell `(0, 0)` of the initial state.  Clicks at a
pixel coordinate of at most `-CELL_SIZE` or at least `GRID_SIZE * CELL_SIZE` are
ignored. -/
theorem handleMouseClick_negative_pixel :
    ¬ (0 ≤ (-1 : Int) ∧ (-1 : Int) < GRID_SIZE * CELL_SIZE ∧
        0 ≤ (0 : Int) ∧ (0 : Int) < GRID_SIZE * CELL_SIZE) ∧
      initialState.startPos = (-1, -1) ∧
      (initialState.grid (0, 0)).type = CellType.Empty ∧
      (handleMouseClick initialState (-1) 0 Button.Left).startPos = (0, 0) ∧
      ((handleMouseClick initialState (-1) 0 Button.Left).grid (0, 0)).type = CellType.Start ∧
      ∀ (s : State) (x y : Int) (b : Button),
        x ≤ -CELL_SIZE ∨ GRID_SIZE * CELL_SIZE ≤ x ∨ y ≤ -CELL_SIZE ∨
          GRID_SIZE * CELL_SIZE ≤ y →
        handleMouseClick s x y b = s := by
  refine ⟨by decide, rfl, rfl, by decide, by decide, ?_⟩
  intro s x y b h
  rw [handleMouseClick_eq, if_neg]
  unfold inGrid cellOf
  simp only [GRID_SIZE, CELL_SIZE] at h ⊢
  have hpos : ∀ z : Int, 600 ≤ z → 20 ≤ Int.tdiv z 30 := by
    intro z hz
    rw [Int.tdiv_eq_ediv (by omega) (by omega)]
    omega
  have hneg : ∀ z : Int, z ≤ -30 → Int.tdiv z 30 < 0 := by
    intro z hz
    have hzz : z = -(-z) := by omega
    rw [hzz, Int.neg_tdiv, Int.tdiv_eq_ediv (by omega) (by omega)]
    omega
  rcases h with h | h | h | h
  · have := hneg x h
    omega
  · have := hpos x h
    omega
  · have := hneg y h
    omega
  · have := hpos y h
    omega

/-- C13: when Start and End are the same cell of the grid, `runDijkstra` (with a
budget of one step or more) sets the distance of that cell to 0 and changes nothing
else: the only steps are the seed and the pop of `(0, startPos)`, so nothing is
relaxed, the walk of `reconstructPath` is the single cell and leaves the grid as it
is, and every cell keeps its kind, its parent and its weight. -/
theorem runDijkstra_same_cell (s : State) (hs : inGrid s.startPos)
    (he : s.endPos = s.startPos) (fuel : Nat) (hf : 1 ≤ fuel) :
    ∃ s', runDijkstra fuel s = some s' ∧
      searchEvents fuel s =
        [SearchEvent.seeded s.startPos (s.grid s.startPos).distance,
          SearchEvent.popped (0, s.startPos)] ∧
      parentWalk s'.startPos s'.grid fuel s'.endPos = some [s.startPos] ∧
      reconstructPath fuel s' = some s' ∧
      (s'.grid s.startPos).distance = 0 ∧
      (∀ c, c ≠ s.startPos → s'.grid c = s.grid c) ∧
      (∀ c, (s'.grid c).type = (s.grid c).type ∧ (s'.grid c).parent = (s.grid c).parent ∧
        (s'.grid c).weight = (s.grid c).weight) ∧
      s'.startPos = s.startPos ∧ s'.endPos = s.endPos := by
  obtain ⟨n, rfl⟩ : ∃ n, fuel = n + 1 := ⟨fuel - 1, by omega⟩
  have hsearch : search (n + 1) s = some (SearchResult.reachedEnd
      (setCell s.grid s.startPos { s.grid s.startPos with distance := 0 })) := by
    simp [search, hs, dijkstraLoop, pqTop, pqTopFrom, he]
  have hwalk : ∀ g : Grid, parentWalk s.startPos g (n + 1) s.endPos = some [s.startPos] := by
    intro g
    simp [parentWalk, he]
  have hrun := runDijkstra_of_reached s (n + 1) _ [s.startPos] hsearch (hwalk _)
  rw [markWalk_singleton] at hrun
  refine ⟨_, hrun, ?_, hwalk _, ?_, ?_, ?_, ?_, rfl, rfl⟩
  · simp [searchEvents, hs, loopEvents, pqTop, pqTopFrom, he]
  · rw [reconstructPath_eq]
    simp only
    rw [hwalk, Option.map_some', markWalk_singleton]
  · simp [setCell]
  · intro c hc
    simp [setCell, hc]
  · intro c
    by_cases hc : c = s.startPos
    · subst hc
      simp [setCell]
    · simp [setCell, hc]

/-- Witness of C13: the state after two left clicks on the cell `(0, 0)`, in which
Start and End are both `(0, 0)`. -/
theorem runDijkstra_same_cell_witness :
    Reachable sameCellState ∧ sameCellState.startPos = (0, 0) ∧
      inGrid sameCellState.startPos ∧ sameCellState.endPos = sameCellState.startPos ∧
      (1 : Nat) ≤ 1 ∧
      ∃ s', runDijkstra 1 sameCellState = some s' ∧
        searchEvents 1 sameCellState =
          [SearchEvent.seeded sameCellState.startPos
              (sameCellState.grid sameCellState.startPos).distance,
            SearchEvent.popped (0, sameCellState.startPos)] ∧
        parentWalk s'.startPos s'.grid 1 s'.endPos = some [sameCellState.startPos] ∧
        reconstructPath 1 s' = some s' ∧
        (s'.grid sameCellState.startPos).distance = 0 ∧
        (∀ c, c ≠ sameCellState.startPos → s'.grid c = sameCellState.grid c) ∧
        (∀ c, (s'.grid c).type = (sameCellState.grid c).type ∧
          (s'.grid c).parent = (sameCellState.grid c).parent ∧
          (s'.grid c).weight = (sameCellState.grid c).weight) ∧
        s'.startPos = sameCellState.startPos ∧ s'.endPos = sameCellState.endPos :=
  ⟨Reachable.init.of_clicks _, by decide, by decide, by decide, le_refl _,
    runDijkstra_same_cell sameCellState (by decide) (by decide) 1 (le_refl _)⟩

/-- C14, as the code has it: the entry that `runDijkstra` pops has the smallest
distance of the queue, and among the entries with that distance it is the one
whose coordinate is lexicographically the largest (`x` first, then `y`). -/
theorem pqTop_tie_break (q : List Entry) (top : Entry) (h : pqTop q = some top) :
    top ∈ q ∧
      (∀ e ∈ q, top.1 ≤ e.1 ∧ (e.1 = top.1 → lexLe e.2 top.2)) ∧
      ∀ (endp : Coord) (fuel : Nat) (g : Grid),
        (loopEvents endp (fuel + 1) g q).head? = some (SearchEvent.popped top) := by
  refine ⟨pqTop_mem h, ?_, fun endp fuel g => loopEvents_head endp fuel g q top h⟩
  intro e he
  cases q with
  | nil => simp [pqTop] at h
  | cons x rest =>
    simp only [pqTop, Option.some.injEq] at h
    rw [← h]
    rcases pqTopFrom_greatest x rest e he with h1 | ⟨h1, h2⟩
    · exact ⟨le_of_lt h1, fun h3 => absurd h3 (ne_of_gt h1)⟩
    · exact ⟨le_of_eq h1, fun _ => h2⟩

/-- Witness of the amended C14: of the two entries for `(0, 1)` and `(1, 0)` at
distance 1 the one for `(1, 0)` is popped. -/
theorem pqTop_tie_break_witness :
    pqTop [((1 : Int), ((0, 1) : Coord)), (1, (1, 0))] = some (1, (1, 0)) ∧
      (((1 : Int), ((1, 0) : Coord)) ∈ [((1 : Int), ((0, 1) : Coord)), (1, (1, 0))] ∧
        (∀ e ∈ [((1 : Int), ((0, 1) : Coord)), (1, (1, 0))],
          (1 : Int) ≤ e.1 ∧ (e.1 = 1 → lexLe e.2 (1, 0))) ∧
        ∀ (endp : Coord) (fuel : Nat) (g : Grid),
          (loopEvents endp (fuel + 1) g [((1 : Int), ((0, 1) : Coord)), (1, (1, 0))]).head? =
            some (SearchEvent.popped (1, (1, 0)))) :=
  ⟨by decide, pqTop_tie_break [((1 : Int), ((0, 1) : Coord)), (1, (1, 0))] (1, (1, 0)) (by decide)⟩

/-- Counterexample to C14 as stated: in the search on `placedState` the queue holds
`(1, (1, 0))` and `(1, (0, 1))` after Start has been expanded, and the second of
the first two pops takes `(1, (1, 0))`, not `(1, (0, 1))`, although `(0, 1)` is
lexicographically smaller than `(1, 0)`. -/
theorem pqTop_smallest_counterexample :
    (relaxAll (0, 0) (setCell placedState.grid (0, 0)
        { placedState.grid (0, 0) with distance := 0 }) []).2 =
        [((1 : Int), ((0, 1) : Coord)), (1, (1, 0))] ∧
      pqTop [((1 : Int), ((0, 1) : Coord)), (1, (1, 0))] = some (1, (1, 0)) ∧
      lexLe (0, 1) (1, 0) ∧ ¬ lexLe (1, 0) (0, 1) ∧
      SearchEvent.popped (1, (1, 0)) ∈ searchEvents 2 placedState ∧
      SearchEvent.popped (1, (0, 1)) ∉ searchEvents 2 placedState := by
  refine ⟨?_, ?_, ?_, ?_, ?_, ?_⟩ <;> decide

/-- C16: in every state reachable through mouse clicks and key presses, searches
and resets among them, the weight of every cell lies in [1,9]. -/
theorem reachable_weight_range (s : State) (h : Reachable s) :
    ∀ c, 1 ≤ (s.grid c).weight ∧ (s.grid c).weight ≤ 9 :=
  h.weights

/-- Witness of C16: the state after a search and a further click. -/
theorem reachable_weight_range_witness :
    Reachable blockedState ∧
      ∀ c, 1 ≤ (blockedState.grid c).weight ∧ (blockedState.grid c).weight ≤ 9 :=
  ⟨blockedState_reachable, reachable_weight_range blockedState blockedState_reachable⟩

/-- C19: in every reachable state at most one cell has kind Start and such a cell
lies at `startPos`, at most one cell has kind End and such a cell lies at `endPos`,
each marker is `(-1, -1)` or a coordinate of the grid, and when the run key starts
a search both markers are coordinates of the grid. -/
theorem reachable_marker_invariant (s : State) (h : Reachable s) :
    (∀ c c', (s.grid c).type = CellType.Start → (s.grid c').type = CellType.Start → c = c') ∧
      (∀ c, (s.grid c).type = CellType.Start → c = s.startPos) ∧
      (∀ c c', (s.grid c).type = CellType.End → (s.grid c').type = CellType.End → c = c') ∧
      (∀ c, (s.grid c).type = CellType.End → c = s.endPos) ∧
      (s.startPos = (-1, -1) ∨ inGrid s.startPos) ∧
      (s.endPos = (-1, -1) ∨ inGrid s.endPos) ∧
      (s.startPos.1 ≠ -1 ∧ s.endPos.1 ≠ -1 → inGrid s.startPos ∧ inGrid s.endPos) := by
  have hm := h.markers
  have hr := h.ranges
  refine ⟨?_, fun c hc => (hm.start_at c hc).1, ?_, fun c hc => (hm.end_at c hc).1,
    hr.start_ok, hr.end_ok, ?_⟩
  · intro c c' hc hc'
    rw [(hm.start_at c hc).1, (hm.start_at c' hc').1]
  · intro c c' hc hc'
    rw [(hm.end_at c hc).1, (hm.end_at c' hc').1]
  · rintro ⟨h1, h2⟩
    exact ⟨inGrid_of_set hr.start_ok h1, inGrid_of_set hr.end_ok h2⟩

/-- Witness of C19: the state after a search and a further click. -/
theorem reachable_marker_invariant_witness :
    Reachable blockedState ∧
      ((∀ c c', (blockedState.grid c).type = CellType.Start →
          (blockedState.grid c').type = CellType.Start → c = c') ∧
        (∀ c, (blockedState.grid c).type = CellType.Start → c = blockedState.startPos) ∧
        (∀ c c', (blockedState.grid c).type = CellType.End →
          (blockedState.grid c').type = CellType.End → c = c') ∧
        (∀ c, (blockedState.grid c).type = CellType.End → c = blockedState.endPos) ∧
        (blockedState.startPos = (-1, -1) ∨ inGrid blockedState.startPos) ∧
        (blockedState.endPos = (-1, -1) ∨ inGrid blockedState.endPos) ∧
        (blockedState.startPos.1 ≠ -1 ∧ blockedState.endPos.1 ≠ -1 →
          inGrid blockedState.startPos ∧ inGrid blockedState.endPos)) :=
  ⟨blockedState_reachable, reachable_marker_invariant blockedState blockedState_reachable⟩

/-! ## The scenario of the open grid -/

theorem relaxEvents_eq (cur : Coord) (g : Grid) (q : List Entry) (d : Int × Int) :
    relaxEvents cur (g, q) d =
      if inGrid (cur.1 + d.1, cur.2 + d.2) ∧
          (g (cur.1 + d.1, cur.2 + d.2)).type ≠ CellType.Wall then
        SearchEvent.candidate (cur.1 + d.1, cur.2 + d.2) (g cur).distance
            (g (cur.1 + d.1, cur.2 + d.2)).weight ::
          (if wrapInt ((g cur).distance + (g (cur.1 + d.1, cur.2 + d.2)).weight) <
              (g (cur.1 + d.1, cur.2 + d.2)).distance then
            [SearchEvent.written (cur.1 + d.1, cur.2 + d.2)
              (g (cur.1 + d.1, cur.2 + d.2)).distance
              (wrapInt ((g cur).distance + (g (cur.1 + d.1, cur.2 + d.2)).weight))]
          else [])
      else [] := by
  unfold relaxEvents inGrid
  simp only [and_assoc]

theorem relax_eq (cur : Coord) (g : Grid) (q : List Entry) (d : Int × Int) :
    relax cur (g, q) d =
      if inGrid (cur.1 + d.1, cur.2 + d.2) ∧
          (g (cur.1 + d.1, cur.2 + d.2)).type ≠ CellType.Wall then
        if wrapInt ((g cur).distance + (g (cur.1 + d.1, cur.2 + d.2)).weight) <
            (g (cur.1 + d.1, cur.2 + d.2)).distance then
          (setCell g (cur.1 + d.1, cur.2 + d.2)
              { g (cur.1 + d.1, cur.2 + d.2) with
                distance := wrapInt ((g cur).distance + (g (cur.1 + d.1, cur.2 + d.2)).weight),
                parent := cur },
            (wrapInt ((g cur).distance + (g (cur.1 + d.1, cur.2 + d.2)).weight),
              (cur.1 + d.1, cur.2 + d.2)) :: q)
        else (g, q)
      else (g, q) := by
  unfold relax inGrid
  simp only [and_assoc]

theorem pushedCoords_append (a b : List SearchEvent) :
    pushedCoords (a ++ b) = pushedCoords a ++ pushedCoords b := by
  induction a with
  | nil => rfl
  | cons e rest ih =>
    cases e <;> simp [pushedCoords, ih]

theorem writtenEntries_append (a b : List SearchEvent) :
    writtenEntries (a ++ b) = writtenEntries a ++ writtenEntries b := by
  induction a with
  | nil => rfl
  | cons e rest ih =>
    cases e <;> simp [writtenEntries, ih]

theorem mem_pushedCoords (evs : List SearchEvent) (v : Coord) :
    v ∈ pushedCoords evs ↔
      (∃ old, SearchEvent.seeded v old ∈ evs) ∨ ∃ old new, SearchEvent.written v old new ∈ evs := by
  induction evs with
  | nil => simp [pushedCoords]
  | cons e rest ih =>
    cases e with
    | seeded u o =>
      simp only [pushedCoords, List.mem_cons, ih, SearchEvent.seeded.injEq, reduceCtorEq,
        false_or]
      constructor
      · rintro (rfl | ⟨o', h⟩ | h)
        · exact Or.inl ⟨o, Or.inl ⟨rfl, rfl⟩⟩
        · exact Or.inl ⟨o', Or.inr h⟩
        · exact Or.inr h
      · rintro (⟨o', ⟨h, _⟩ | h⟩ | h)
        · exact Or.inl h
        · exact Or.inr (Or.inl ⟨o', h⟩)
        · exact Or.inr (Or.inr h)
    | written u o n =>
      simp only [pushedCoords, List.mem_cons, ih, SearchEvent.written.injEq, reduceCtorEq,
        false_or]
      constructor
      · rintro (rfl | h | ⟨o', n', h⟩)
        · exact Or.inr ⟨o, n, Or.inl ⟨rfl, rfl, rfl⟩⟩
        · exact Or.inl h
        · exact Or.inr ⟨o', n', Or.inr h⟩
      · rintro (h | ⟨o', n', ⟨h, _, _⟩ | h⟩)
        · exact Or.inr (Or.inl h)
        · exact Or.inl h
        · exact Or.inr (Or.inr ⟨o', n', h⟩)
    | popped _ => simp only [pushedCoords, List.mem_cons, ih, reduceCtorEq, false_or]
    | skipped _ => simp only [pushedCoords, List.mem_cons, ih, reduceCtorEq, false_or]
    | expanded _ _ => simp only [pushedCoords, List.mem_cons, ih, reduceCtorEq, false_or]
    | candidate _ _ _ => simp only [pushedCoords, List.mem_cons, ih, reduceCtorEq, false_or]

theorem mem_writtenEntries (evs : List SearchEvent) (e : Entry) :
    e ∈ writtenEntries evs ↔ ∃ old, SearchEvent.written e.2 old e.1 ∈ evs := by
  obtain ⟨d, v⟩ := e
  induction evs with
  | nil => simp [writtenEntries]
  | cons x rest ih =>
    cases x with
    | written u o n =>
      simp only [writtenEntries, List.mem_cons, ih, SearchEvent.written.injEq, Prod.mk.injEq]
      constructor
      · rintro (⟨rfl, rfl⟩ | ⟨o', h⟩)
        · exact ⟨o, Or.inl ⟨rfl, rfl, rfl⟩⟩
        · exact ⟨o', Or.inr h⟩
      · rintro ⟨o', ⟨h1, _, h3⟩ | h⟩
        · exact Or.inl ⟨h3, h1⟩
        · exact Or.inr ⟨o', h⟩
    | seeded _ _ => simp only [writtenEntries, List.mem_cons, ih, reduceCtorEq, false_or]
    | popped _ => simp only [writtenEntries, List.mem_cons, ih, reduceCtorEq, false_or]
    | skipped _ => simp only [writtenEntries, List.mem_cons, ih, reduceCtorEq, false_or]
    | expanded _ _ => simp only [writtenEntries, List.mem_cons, ih, reduceCtorEq, false_or]
    | candidate _ _ _ => simp only [writtenEntries, List.mem_cons, ih, reduceCtorEq, false_or]

theorem relaxEvents_spec (cur : Coord) (g gi : Grid) (q qi : List Entry) (d : Int × Int)
    (hd : d ∈ directions) (hs : RelaxStep cur g q gi qi) :
    ∀ ev ∈ relaxEvents cur (gi, qi) d,
      (∃ v, canEnter g cur v ∧ ev = SearchEvent.candidate v (g cur).distance (g v).weight) ∨
        ∃ v, canEnter g cur v ∧ (gi v).distance = (g v).distance ∧
          wrapInt ((g cur).distance + (g v).weight) < (g v).distance ∧
          ev = SearchEvent.written v (g v).distance
            (wrapInt ((g cur).distance + (g v).weight)) := by
  intro ev hev
  rw [relaxEvents_eq] at hev
  have hadj : adjacent cur (cur.1 + d.1, cur.2 + d.2) :=
    (adjacent_iff_direction cur _).2 ⟨d, hd, rfl⟩
  generalize (cur.1 + d.1, cur.2 + d.2) = v at hadj hev
  by_cases hg : inGrid v ∧ (gi v).type ≠ CellType.Wall
  · rw [if_pos hg, hs.cur_eq, hs.weight_eq] at hev
    have hce : canEnter g cur v := ⟨hadj, hg.1, by rw [← hs.type_eq]; exact hg.2⟩
    rcases List.mem_cons.1 hev with rfl | hev
    · exact Or.inl ⟨v, hce, rfl⟩
    · by_cases hl : wrapInt ((g cur).distance + (g v).weight) < (gi v).distance
      · rw [if_pos hl] at hev
        rw [List.mem_singleton.1 hev]
        rcases hs.cell v with e1 | ⟨_, e2, _, _, _⟩
        · rw [e1] at hl
          exact Or.inr ⟨v, hce, by rw [e1], hl, by rw [e1]⟩
        · rw [e2] at hl
          exact absurd hl (lt_irrefl _)
      · rw [if_neg hl] at hev
        exact absurd hev (List.not_mem_nil _)
  · rw [if_neg hg] at hev
    exact absurd hev (List.not_mem_nil _)

theorem relaxEventsFrom_spec (cur : Coord) (g : Grid) (q : List Entry) (ds : List (Int × Int)) :
    ∀ (gi : Grid) (qi : List Entry), (∀ d ∈ ds, d ∈ directions) → RelaxStep cur g q gi qi →
      ∀ ev ∈ relaxEventsFrom cur ds (gi, qi),
        (∃ v, canEnter g cur v ∧ ev = SearchEvent.candidate v (g cur).distance (g v).weight) ∨
          ∃ v, canEnter g cur v ∧
            wrapInt ((g cur).distance + (g v).weight) < (g v).distance ∧
            ev = SearchEvent.written v (g v).distance
              (wrapInt ((g cur).distance + (g v).weight)) := by
  induction ds with
  | nil =>
    intro gi qi _ _ ev hev
    exact absurd hev (List.not_mem_nil _)
  | cons d rest ih =>
    intro gi qi hds hs ev hev
    simp only [relaxEventsFrom, List.mem_append] at hev
    rcases hev with hev | hev
    · rcases relaxEvents_spec cur g gi q qi d (hds d (List.mem_cons_self _ _)) hs ev hev with
        h | ⟨v, h1, _, h3, h4⟩
      · exact Or.inl h
      · exact Or.inr ⟨v, h1, h3, h4⟩
    · exact ih _ _ (fun x hx => hds x (List.mem_cons_of_mem _ hx))
        (hs.trans (relax_spec cur gi qi d (hds d (List.mem_cons_self _ _))).1) ev hev

theorem relaxEvents_pushed (cur : Coord) (g gi : Grid) (q qi : List Entry) (d : Int × Int)
    (hd : d ∈ directions) (hs : RelaxStep cur g q gi qi) :
    (pushedCoords (relaxEvents cur (gi, qi) d) = [] ∧
        writtenEntries (relaxEvents cur (gi, qi) d) = [] ∧
        (relax cur (gi, qi) d).2 = qi) ∨
      ∃ v, pushedCoords (relaxEvents cur (gi, qi) d) = [v] ∧
        writtenEntries (relaxEvents cur (gi, qi) d) =
          [(wrapInt ((g cur).distance + (g v).weight), v)] ∧
        (relax cur (gi, qi) d).2 = (wrapInt ((g cur).distance + (g v).weight), v) :: qi ∧
        canEnter g cur v ∧ (gi v).distance = (g v).distance ∧
        ((relax cur (gi, qi) d).1 v).distance = wrapInt ((g cur).distance + (g v).weight) ∧
        wrapInt ((g cur).distance + (g v).weight) < (g v).distance := by
  rw [relaxEvents_eq, relax_eq]
  have hadj : adjacent cur (cur.1 + d.1, cur.2 + d.2) :=
    (adjacent_iff_direction cur _).2 ⟨d, hd, rfl⟩
  generalize (cur.1 + d.1, cur.2 + d.2) = v at hadj
  by_cases hg : inGrid v ∧ (gi v).type ≠ CellType.Wall
  · rw [if_pos hg, if_pos hg, hs.cur_eq, hs.weight_eq]
    have hce : canEnter g cur v := ⟨hadj, hg.1, by rw [← hs.type_eq]; exact hg.2⟩
    by_cases hl : wrapInt ((g cur).distance + (g v).weight) < (gi v).distance
    · rw [if_pos hl, if_pos hl]
      right
      rcases hs.cell v with e1 | ⟨_, e2, _, _, _⟩
      · refine ⟨v, rfl, ?_, rfl, hce, by rw [e1], by simp [setCell],
          by rw [e1] at hl; exact hl⟩
        rfl
      · rw [e2] at hl
        exact absurd hl (lt_irrefl _)
    · rw [if_neg hl, if_neg hl]
      exact Or.inl ⟨rfl, rfl, rfl⟩
  · rw [if_neg hg, if_neg hg]
    exact Or.inl ⟨rfl, rfl, rfl⟩

theorem relaxEventsFrom_pushed (cur : Coord) (g : Grid) (q : List Entry)
    (ds : List (Int × Int)) :
    ∀ (gi : Grid) (qi : List Entry), (∀ d ∈ ds, d ∈ directions) → RelaxStep cur g q gi qi →
      (pushedCoords (relaxEventsFrom cur ds (gi, qi))).Nodup ∧
        (∀ v ∈ pushedCoords (relaxEventsFrom cur ds (gi, qi)),
          (gi v).distance = (g v).distance ∧
            ((ds.foldl (relax cur) (gi, qi)).1 v).distance < (g v).distance) ∧
        (ds.foldl (relax cur) (gi, qi)).2 =
          (writtenEntries (relaxEventsFrom cur ds (gi, qi))).reverse ++ qi := by
  induction ds with
  | nil =>
    intro gi qi _ _
    simp [relaxEventsFrom, pushedCoords, writtenEntries]
  | cons d rest ih =>
    intro gi qi hds hs
    have hd := hds d (List.mem_cons_self _ _)
    have hstep := (relax_spec cur gi qi d hd).1
    have hs1 := hs.trans hstep
    obtain ⟨i1, i2, i3⟩ := ih (relax cur (gi, qi) d).1 (relax cur (gi, qi) d).2
      (fun x hx => hds x (List.mem_cons_of_mem _ hx)) hs1
    have hrest := (foldl_relax_spec cur rest (relax cur (gi, qi) d).1 (relax cur (gi, qi) d).2
      (fun x hx => hds x (List.mem_cons_of_mem _ hx))).1
    simp only [Prod.mk.eta] at i1 i2 i3 hrest
    simp only [relaxEventsFrom, pushedCoords_append, writtenEntries_append, List.foldl_cons]
    have hback : ∀ v, ((relax cur (gi, qi) d).1 v).distance = (g v).distance →
        (gi v).distance = (g v).distance := by
      intro v hv
      have h1 := hstep.dist_le v
      have h2 := hs.dist_le v
      omega
    rcases relaxEvents_pushed cur g gi q qi d hd hs with ⟨p1, p2, p3⟩ | ⟨v, p1, p2, p3, p4, p5, p6, p7⟩
    · rw [p1, p2]
      simp only [List.nil_append]
      refine ⟨i1, fun v hv => ⟨hback v (i2 v hv).1, (i2 v hv).2⟩, ?_⟩
      rw [i3, p3]
    · rw [p1, p2]
      simp only [List.singleton_append, List.nodup_cons, List.mem_cons, List.reverse_cons,
        List.append_assoc]
      refine ⟨⟨?_, i1⟩, ?_, ?_⟩
      · intro hmem
        have := (i2 v hmem).1
        omega
      · rintro x (rfl | hx)
        · refine ⟨p5, ?_⟩
          have := hrest.dist_le x
          omega
        · exact ⟨hback x (i2 x hx).1, (i2 x hx).2⟩
      · rw [i3, p3]

/-! ## Invariants and steps of the loop -/

theorem loopEvents_forall (endp : Coord) (I : Grid → List Entry → Prop)
    (P : SearchEvent → Prop)
    (hpop : ∀ g q top, I g q → pqTop q = some top → P (SearchEvent.popped top))
    (hstale : ∀ g q top, I g q → pqTop q = some top → top.2 ≠ endp → inGrid top.2 →
      top.1 > (g top.2).distance → I g (q.erase top) ∧ P (SearchEvent.skipped top))
    (hexp : ∀ g q top, I g q → pqTop q = some top → top.2 ≠ endp → inGrid top.2 →
      ¬ top.1 > (g top.2).distance →
      I (relaxAll top.2 g (q.erase top)).1 (relaxAll top.2 g (q.erase top)).2 ∧
        P (SearchEvent.expanded top.2 (g top.2).distance) ∧
        ∀ ev ∈ relaxEventsFrom top.2 directions (g, q.erase top), P ev) :
    ∀ (fuel : Nat) (g : Grid) (q : List Entry), I g q →
      ∀ ev ∈ loopEvents endp fuel g q, P ev := by
  intro fuel
  induction fuel with
  | zero =>
    intro g q _ ev hev
    simp [loopEvents] at hev
  | succ n ih =>
    intro g q hI ev hev
    unfold loopEvents at hev
    cases htop : pqTop q with
    | none =>
      rw [htop] at hev
      simp at hev
    | some top =>
      rw [htop] at hev
      simp only [List.mem_cons] at hev
      rcases hev with rfl | hev
      · exact hpop g q top hI htop
      · by_cases he : top.2 = endp
        · rw [if_pos he] at hev
          exact absurd hev (List.not_mem_nil _)
        · rw [if_neg he] at hev
          by_cases hg : inGrid top.2
          · rw [if_neg (not_not.2 hg)] at hev
            by_cases hst : top.1 > (g top.2).distance
            · rw [if_pos hst] at hev
              obtain ⟨h1, h2⟩ := hstale g q top hI htop he hg hst
              rcases List.mem_cons.1 hev with rfl | hev
              · exact h2
              · exact ih g _ h1 ev hev
            · rw [if_neg hst] at hev
              obtain ⟨h1, h2, h3⟩ := hexp g q top hI htop he hg hst
              rcases List.mem_cons.1 hev with rfl | hev
              · exact h2
              · rcases List.mem_append.1 hev with hev | hev
                · exact h3 ev hev
                · exact ih _ _ h1 ev hev
          · rw [if_pos hg] at hev
            exact absurd hev (List.not_mem_nil _)

theorem dijkstraLoop_invariant (endp : Coord) (I : Grid → List Entry → Prop)
    (hstale : ∀ g q top, I g q → pqTop q = some top → top.2 ≠ endp → inGrid top.2 →
      top.1 > (g top.2).distance → I g (q.erase top))
    (hexp : ∀ g q top, I g q → pqTop q = some top → top.2 ≠ endp → inGrid top.2 →
      ¬ top.1 > (g top.2).distance →
      I (relaxAll top.2 g (q.erase top)).1 (relaxAll top.2 g (q.erase top)).2) :
    ∀ (fuel : Nat) (g : Grid) (q : List Entry) (r : SearchResult), I g q →
      dijkstraLoop endp fuel g q = some r → ∃ q', I r.grid q' := by
  intro fuel
  induction fuel with
  | zero =>
    intro g q r _ hr
    simp [dijkstraLoop] at hr
  | succ n ih =>
    intro g q r hI hr
    unfold dijkstraLoop at hr
    cases htop : pqTop q with
    | none =>
      rw [htop] at hr
      simp only [Option.some.injEq] at hr
      rw [← hr]
      exact ⟨q, hI⟩
    | some top =>
      rw [htop] at hr
      simp only at hr
      by_cases he : top.2 = endp
      · rw [if_pos he] at hr
        simp only [Option.some.injEq] at hr
        rw [← hr]
        exact ⟨q, hI⟩
      · rw [if_neg he] at hr
        by_cases hg : inGrid top.2
        · rw [if_neg (not_not.2 hg)] at hr
          by_cases hst : top.1 > (g top.2).distance
          · rw [if_pos hst] at hr
            exact ih g _ r (hstale g q top hI htop he hg hst) hr
          · rw [if_neg hst] at hr
            exact ih _ _ r (hexp g q top hI htop he hg hst) hr
        · rw [if_pos hg] at hr
          simp at hr

/-! ## Walls -/

theorem loopEvents_written_not_wall (g0 : Grid) (endp : Coord) (fuel : Nat) (g : Grid)
    (q : List Entry) (hg : ∀ v, (g v).type = (g0 v).type) :
    ∀ ev ∈ loopEvents endp fuel g q, ∀ v old new, ev = SearchEvent.written v old new →
      inGrid v ∧ (g0 v).type ≠ CellType.Wall := by
  refine loopEvents_forall endp (fun g _ => ∀ v, (g v).type = (g0 v).type)
    (fun ev => ∀ v old new, ev = SearchEvent.written v old new →
      inGrid v ∧ (g0 v).type ≠ CellType.Wall) ?_ ?_ ?_ fuel g q hg
  · intro g q top _ _ v old new h
    exact absurd h (by simp)
  · intro g q top hI _ _ _ _
    exact ⟨hI, fun v old new h => absurd h (by simp)⟩
  · intro g q top hI _ _ _ _
    refine ⟨fun v => ((relaxAll_spec top.2 g (q.erase top)).1.type_eq v).trans (hI v),
      fun v old new h => absurd h (by simp), ?_⟩
    intro ev hev v old new h
    rcases relaxEventsFrom_spec top.2 g (q.erase top) directions g (q.erase top)
      (fun _ hd => hd) (RelaxStep.refl _ _ _) ev hev with ⟨u, _, h2⟩ | ⟨u, h1, _, h3⟩
    · rw [h2] at h
      exact absurd h (by simp)
    · rw [h3] at h
      simp only [SearchEvent.written.injEq] at h
      rw [← h.1, ← hI u]
      exact ⟨h1.2.1, h1.2.2⟩

theorem dijkstraLoop_walls (g0 : Grid) (endp : Coord) (fuel : Nat) (g : Grid)
    (q : List Entry) (r : SearchResult) (hg : ∀ v, (g v).type = (g0 v).type)
    (hr : dijkstraLoop endp fuel g q = some r) :
    ∀ v, (g0 v).type = CellType.Wall → r.grid v = g v := by
  have key := dijkstraLoop_invariant endp
    (fun g' _ => (∀ v, (g' v).type = (g0 v).type) ∧
      ∀ v, (g0 v).type = CellType.Wall → g' v = g v)
    (fun g' q' top hI _ _ _ _ => hI)
    (fun g' q' top hI _ _ _ _ => by
      obtain ⟨rs, _⟩ := relaxAll_spec top.2 g' (q'.erase top)
      refine ⟨fun v => (rs.type_eq v).trans (hI.1 v), ?_⟩
      intro v hv
      rcases rs.cell v with e | ⟨c1, _⟩
      · rw [e]
        exact hI.2 v hv
      · have hne := c1.2.2
        rw [hI.1 v] at hne
        exact absurd hv hne)
    fuel g q r ⟨hg, fun _ _ => rfl⟩ hr
  obtain ⟨_, _, h⟩ := key
  exact h

theorem setCell_distance_type (g : Grid) (a : Coord) (d : Int) (v : Coord) :
    (setCell g a { g a with distance := d } v).type = (g v).type ∧
      (setCell g a { g a with distance := d } v).parent = (g v).parent ∧
      (setCell g a { g a with distance := d } v).weight = (g v).weight ∧
      (v ≠ a → (setCell g a { g a with distance := d } v).distance = (g v).distance) ∧
      (v = a → (setCell g a { g a with distance := d } v).distance = d) := by
  by_cases hv : v = a
  · subst hv
    simp [setCell]
  · simp [setCell, hv]

/-- What a search does to Wall cells, in any state: a relaxation never writes or
pushes a cell of kind Wall, a pushed coordinate is the seed `startPos` or a cell
that is not a Wall, and `runDijkstra` keeps the parent of every Wall cell and the
distance of every Wall cell other than the one at `startPos`, which the seed sets
to 0. -/
theorem walls_not_relaxed (s : State) (fuel : Nat) :
    (∀ v old new, SearchEvent.written v old new ∈ searchEvents fuel s →
        inGrid v ∧ (s.grid v).type ≠ CellType.Wall) ∧
      (∀ v ∈ pushedCoords (searchEvents fuel s),
        v = s.startPos ∨ (inGrid v ∧ (s.grid v).type ≠ CellType.Wall)) ∧
      ∀ s', runDijkstra fuel s = some s' → ∀ c, (s.grid c).type = CellType.Wall →
        (s'.grid c).parent = (s.grid c).parent ∧
          (c ≠ s.startPos → (s'.grid c).distance = (s.grid c).distance) ∧
          (c = s.startPos → (s'.grid c).distance = 0) := by
  have hseed := setCell_distance_type s.grid s.startPos 0
  have hwritten : ∀ v old new, SearchEvent.written v old new ∈ searchEvents fuel s →
      inGrid v ∧ (s.grid v).type ≠ CellType.Wall := by
    intro v old new hmem
    unfold searchEvents at hmem
    by_cases hs : inGrid s.startPos
    · rw [if_neg (not_not.2 hs)] at hmem
      rcases List.mem_cons.1 hmem with h | h
      · exact absurd h (by simp)
      · exact loopEvents_written_not_wall s.grid s.endPos fuel _ _ (fun x => (hseed x).1)
          _ h v old new rfl
    · rw [if_pos hs] at hmem
      exact absurd hmem (List.not_mem_nil _)
  refine ⟨hwritten, ?_, ?_⟩
  · intro v hv
    rcases (mem_pushedCoords _ v).1 hv with ⟨old, h⟩ | ⟨old, new, h⟩
    · left
      unfold searchEvents at h
      by_cases hs : inGrid s.startPos
      swap
      · rw [if_pos hs] at h
        exact absurd h (List.not_mem_nil _)
      · rw [if_neg (not_not.2 hs)] at h
        rcases List.mem_cons.1 h with h | h
        · simp only [SearchEvent.seeded.injEq] at h
          exact h.1
        · exfalso
          have hP := loopEvents_forall s.endPos (fun _ _ => True)
            (fun ev => ∀ u o, ev ≠ SearchEvent.seeded u o)
            (fun _ _ _ _ _ u o => by simp)
            (fun _ _ _ _ _ _ _ _ => ⟨trivial, fun u o => by simp⟩)
            (fun g q top _ _ _ _ _ => ⟨trivial, fun u o => by simp, fun ev hev u o => by
              rcases relaxEventsFrom_spec top.2 g (q.erase top) directions g (q.erase top)
                (fun _ hd => hd) (RelaxStep.refl _ _ _) ev hev with ⟨x, _, h2⟩ | ⟨x, _, _, h3⟩
              · rw [h2]
                simp
              · rw [h3]
                simp⟩)
            fuel _ _ trivial _ h
          exact hP v old rfl
    · exact Or.inr (hwritten v old new h)
  · intro s' hrun c hc
    have hgrid : ∀ gf, search fuel s = some gf → gf.grid c =
        setCell s.grid s.startPos { s.grid s.startPos with distance := 0 } c := by
      intro gf hsr
      unfold search at hsr
      by_cases hs : inGrid s.startPos
      · rw [if_neg (not_not.2 hs)] at hsr
        exact dijkstraLoop_walls s.grid s.endPos fuel _ _ gf (fun x => (hseed x).1) hsr c hc
      · rw [if_pos hs] at hsr
        simp at hsr
    have hfinal : (s'.grid c).parent = (setCell s.grid s.startPos
          { s.grid s.startPos with distance := 0 } c).parent ∧
        (s'.grid c).distance = (setCell s.grid s.startPos
          { s.grid s.startPos with distance := 0 } c).distance := by
      rcases runDijkstra_cases fuel s s' hrun with ⟨gf, h1, rfl⟩ | ⟨gf, w, h1, _, rfl⟩
      · have := hgrid _ h1
        simp only [SearchResult.grid] at this
        simp only [this]
        exact ⟨trivial, trivial⟩
      · have := hgrid _ h1
        simp only [SearchResult.grid] at this
        simp only [markWalk_parent, markWalk_distance, this]
        exact ⟨trivial, trivial⟩
    obtain ⟨hp, hd⟩ := hfinal
    rw [hp, hd]
    exact ⟨(hseed c).2.1, (hseed c).2.2.2.1, (hseed c).2.2.2.2⟩

/-! ## Single writes on a grid with default distances -/

theorem SearchInv.top_exact {g0 : Grid} {a endp : Coord} {S : Coord → Prop} {g : Grid}
    {q : List Entry} (h : SearchInv g0 a endp S g q) {top : Entry} (htop : pqTop q = some top)
    (hst : ¬ top.1 > (g top.2).distance) : top.1 = (g top.2).distance :=
  le_antisymm (not_lt.1 hst) (h.queue_ok top (pqTop_mem htop)).2.1

theorem SearchInv.finite_not_relaxed {g0 : Grid} {a endp : Coord} {S : Coord → Prop}
    {g : Grid} {q : List Entry} (h : SearchInv g0 a endp S g q)
    (hw : ∀ c, inGrid c → 1 ≤ (g0 c).weight ∧ (g0 c).weight ≤ 9)
    {top : Entry} (htop : pqTop q = some top) (hst : ¬ top.1 > (g top.2).distance)
    {v : Coord} (hv : canEnter g top.2 v) :
    wrapInt ((g top.2).distance + (g v).weight) = (g top.2).distance + (g0 v).weight ∧
      ((g v).distance < INT_MAX → (g v).distance ≤ (g top.2).distance + (g0 v).weight) := by
  have hmem := pqTop_mem htop
  obtain ⟨hu, _, hfu⟩ := h.queue_ok top hmem
  obtain ⟨hu0, hub⟩ := h.bound _ hu hfu
  have hcnt := finCount_le g
  have hwv := hw v hv.2.1
  have hexact := h.top_exact htop hst
  constructor
  · rw [h.weight_eq v]
    apply wrapInt_eq <;> omega
  · intro hf
    by_cases hva : v = a
    · rw [hva, h.start_dist]
      have := hw a (hva ▸ hv.2.1)
      omega
    · obtain ⟨p1, _, p3⟩ := h.parent_ok v hv.2.1 hf hva
      have := h.settled_le _ p1 top hmem
      omega

theorem ExactInv.start_exact (g0 : Grid) (a endp : Coord) (ha : inGrid a)
    (hd : ∀ c, inGrid c → (g0 c).distance = INT_MAX) :
    ExactInv g0 a endp (setCell g0 a { g0 a with distance := 0 }) [((0 : Int), a)] := by
  refine ⟨_, SearchInv.start g0 a endp ha hd, ?_⟩
  intro e he
  rw [List.mem_singleton.1 he]
  simp [setCell]

theorem ExactInv.not_stale {g0 : Grid} {a endp : Coord} {g : Grid} {q : List Entry}
    (h : ExactInv g0 a endp g q) {top : Entry} (htop : pqTop q = some top) :
    ¬ top.1 > (g top.2).distance := by
  obtain ⟨S, _, hex⟩ := h
  rw [hex top (pqTop_mem htop)]
  exact lt_irrefl _

theorem ExactInv.written {g0 : Grid} {a endp : Coord} {g : Grid} {q : List Entry}
    (h : ExactInv g0 a endp g q)
    (hw : ∀ c, inGrid c → 1 ≤ (g0 c).weight ∧ (g0 c).weight ≤ 9)
    {top : Entry} (htop : pqTop q = some top) :
    ∀ ev ∈ relaxEventsFrom top.2 directions (g, q.erase top),
      ∀ v old new, ev = SearchEvent.written v old new →
        inGrid v ∧ old = INT_MAX ∧ (g v).distance = INT_MAX ∧
          new = (g top.2).distance + (g0 v).weight ∧ canEnter g top.2 v := by
  have hst := h.not_stale htop
  obtain ⟨S, hinv, _⟩ := h
  intro ev hev v old new hvn
  rcases relaxEventsFrom_spec top.2 g (q.erase top) directions g (q.erase top)
    (fun _ hd => hd) (RelaxStep.refl _ _ _) ev hev with ⟨u, _, h2⟩ | ⟨u, h1, h2, h3⟩
  · rw [h2] at hvn
    exact absurd hvn (by simp)
  · rw [h3] at hvn
    simp only [SearchEvent.written.injEq] at hvn
    obtain ⟨rfl, rfl, rfl⟩ := hvn
    obtain ⟨k1, k2⟩ := hinv.finite_not_relaxed hw htop hst h1
    have hmax := hinv.le_max u h1.2.1
    have hnf : ¬ (g u).distance < INT_MAX := by
      intro hf
      have := k2 hf
      omega
    have heq : (g u).distance = INT_MAX := by omega
    exact ⟨h1.2.1, heq, heq, k1, h1⟩

theorem ExactInv.expand_exact {g0 : Grid} {a endp : Coord} {g : Grid} {q : List Entry}
    (h : ExactInv g0 a endp g q)
    (hw : ∀ c, inGrid c → 1 ≤ (g0 c).weight ∧ (g0 c).weight ≤ 9)
    {top : Entry} (htop : pqTop q = some top) (hne : top.2 ≠ endp) :
    ExactInv g0 a endp (relaxAll top.2 g (q.erase top)).1 (relaxAll top.2 g (q.erase top)).2 := by
  have hst := h.not_stale htop
  have hwr := h.written hw htop
  obtain ⟨S, hinv, hex⟩ := h
  refine ⟨_, hinv.expand hw top htop hne hst, ?_⟩
  obtain ⟨rs, _⟩ := relaxAll_spec top.2 g (q.erase top)
  obtain ⟨_, p2, p3⟩ := relaxEventsFrom_pushed top.2 g (q.erase top) directions g (q.erase top)
    (fun _ hd => hd) (RelaxStep.refl _ _ _)
  have hq : (relaxAll top.2 g (q.erase top)).2 =
      (writtenEntries (relaxEventsFrom top.2 directions (g, q.erase top))).reverse ++
        q.erase top := p3
  have hg : ∀ v, ((directions.foldl (relax top.2) (g, q.erase top)).1 v) =
      (relaxAll top.2 g (q.erase top)).1 v := fun _ => rfl
  intro e he
  rw [hq, List.mem_append, List.mem_reverse] at he
  rcases he with he | he
  · obtain ⟨old, hmem⟩ := (mem_writtenEntries _ e).1 he
    obtain ⟨_, _, _, k4, k5⟩ := hwr _ hmem e.2 old e.1 rfl
    have hpush : e.2 ∈ pushedCoords (relaxEventsFrom top.2 directions (g, q.erase top)) :=
      (mem_pushedCoords _ _).2 (Or.inr ⟨old, e.1, hmem⟩)
    have hlt := (p2 e.2 hpush).2
    rw [hg] at hlt
    rcases rs.cell e.2 with e1 | ⟨c1, c2, _, _, _⟩
    · rw [e1] at hlt
      exact absurd hlt (lt_irrefl _)
    · rw [c2, (hinv.finite_not_relaxed hw htop hst c1).1, k4]
  · have hmem := List.mem_of_mem_erase he
    obtain ⟨_, _, q3⟩ := hinv.queue_ok e hmem
    rcases rs.cell e.2 with e1 | ⟨c1, c2, c3, _, _⟩
    · rw [e1]
      exact hex e hmem
    · obtain ⟨k1, k2⟩ := hinv.finite_not_relaxed hw htop hst c1
      have := k2 q3
      omega

theorem loopEvents_single_write (g0 : Grid) (a endp : Coord)
    (hw : ∀ c, inGrid c → 1 ≤ (g0 c).weight ∧ (g0 c).weight ≤ 9) :
    ∀ fuel g q, ExactInv g0 a endp g q → ∀ ev ∈ loopEvents endp fuel g q,
      (∀ v old new, ev = SearchEvent.written v old new → old = INT_MAX) ∧
        ∀ e, ev ≠ SearchEvent.skipped e := by
  refine loopEvents_forall endp (ExactInv g0 a endp)
    (fun ev => (∀ v old new, ev = SearchEvent.written v old new → old = INT_MAX) ∧
        ∀ e, ev ≠ SearchEvent.skipped e) ?_ ?_ ?_
  · intro g q top _ _
    exact ⟨fun v old new h => absurd h (by simp), fun e => by simp⟩
  · intro g q top hI htop _ _ hst
    exact absurd hst (hI.not_stale htop)
  · intro g q top hI htop hne _ _
    refine ⟨hI.expand_exact hw htop hne,
      ⟨fun v old new h => absurd h (by simp), fun e => by simp⟩, ?_⟩
    intro ev hev
    refine ⟨fun v old new h => (hI.written hw htop ev hev v old new h).2.1, ?_⟩
    intro e he
    rcases relaxEventsFrom_spec top.2 g (q.erase top) directions g (q.erase top)
      (fun _ hd => hd) (RelaxStep.refl _ _ _) ev hev with ⟨u, _, h2⟩ | ⟨u, _, _, h3⟩
    · rw [h2] at he
      exact absurd he (by simp)
    · rw [h3] at he
      exact absurd he (by simp)

theorem loopEvents_pushed_nodup (g0 : Grid) (a endp : Coord)
    (hw : ∀ c, inGrid c → 1 ≤ (g0 c).weight ∧ (g0 c).weight ≤ 9) :
    ∀ fuel g q, ExactInv g0 a endp g q →
      (pushedCoords (loopEvents endp fuel g q)).Nodup ∧
        ∀ v ∈ pushedCoords (loopEvents endp fuel g q), ¬ (g v).distance < INT_MAX := by
  intro fuel
  induction fuel with
  | zero =>
    intro g q _
    simp [loopEvents, pushedCoords]
  | succ n ih =>
    intro g q hI
    unfold loopEvents
    cases htop : pqTop q with
    | none => simp [pushedCoords]
    | some top =>
      simp only []
      by_cases he : top.2 = endp
      · rw [if_pos he]
        simp [pushedCoords]
      rw [if_neg he]
      by_cases hin : inGrid top.2
      · rw [if_neg (not_not.2 hin), if_neg (hI.not_stale htop)]
        have hshape : pushedCoords (SearchEvent.popped top ::
            SearchEvent.expanded top.2 (g top.2).distance ::
              (relaxEventsFrom top.2 directions (g, q.erase top) ++
                loopEvents endp n (relaxAll top.2 g (q.erase top)).1
                  (relaxAll top.2 g (q.erase top)).2)) =
            pushedCoords (relaxEventsFrom top.2 directions (g, q.erase top)) ++
              pushedCoords (loopEvents endp n (relaxAll top.2 g (q.erase top)).1
                  (relaxAll top.2 g (q.erase top)).2) := by
          simp only [pushedCoords, pushedCoords_append]
        rw [hshape]
        obtain ⟨p1, p2, _⟩ := relaxEventsFrom_pushed top.2 g (q.erase top) directions g
          (q.erase top) (fun _ hd => hd) (RelaxStep.refl _ _ _)
        have hg : ∀ v, ((directions.foldl (relax top.2) (g, q.erase top)).1 v) =
            (relaxAll top.2 g (q.erase top)).1 v := fun _ => rfl
        obtain ⟨i1, i2⟩ := ih _ _ (hI.expand_exact hw htop he)
        obtain ⟨rs, _⟩ := relaxAll_spec top.2 g (q.erase top)
        have hA : ∀ v ∈ pushedCoords (relaxEventsFrom top.2 directions (g, q.erase top)),
            (g v).distance = INT_MAX ∧
              ((relaxAll top.2 g (q.erase top)).1 v).distance < INT_MAX := by
          intro v hv
          have hlt := (p2 v hv).2
          rw [hg] at hlt
          rcases (mem_pushedCoords _ _).1 hv with ⟨old, hm⟩ | ⟨old, new, hm⟩
          · rcases relaxEventsFrom_spec top.2 g (q.erase top) directions g (q.erase top)
              (fun _ hd => hd) (RelaxStep.refl _ _ _) _ hm with ⟨u, _, h2⟩ | ⟨u, _, _, h3⟩
            · exact absurd h2 (by simp)
            · exact absurd h3 (by simp)
          · have hk := (hI.written hw htop _ hm v old new rfl).2.2.1
            exact ⟨hk, by omega⟩
        refine ⟨List.nodup_append.2 ⟨p1, i1, ?_⟩, ?_⟩
        · intro v hv1 hv2
          exact i2 v hv2 (hA v hv1).2
        · intro v hv
          rcases List.mem_append.1 hv with hv | hv
          · have := (hA v hv).1
            omega
          · have h1 := i2 v hv
            have h2 := rs.dist_le v
            omega
      · rw [if_pos hin]
        simp [pushedCoords]

/-- C17: in a search on a grid whose cells all hold the default distance and a
weight in [1,9], the test `newDist < distance` succeeds only on a neighbour that
still holds the sentinel distance, the stale-entry test never succeeds, and no
coordinate is pushed (equivalently, no distance is written) twice, the seed
included. This holds for every prefix of the run, hence for the whole run. -/
theorem search_writes_once (s : State) (fuel : Nat)
    (hd : ∀ c, inGrid c → (s.grid c).distance = INT_MAX)
    (hw : ∀ c, inGrid c → 1 ≤ (s.grid c).weight ∧ (s.grid c).weight ≤ 9) :
    (∀ v old new, SearchEvent.written v old new ∈ searchEvents fuel s → old = INT_MAX) ∧
      (∀ e, SearchEvent.skipped e ∉ searchEvents fuel s) ∧
      (pushedCoords (searchEvents fuel s)).Nodup := by
  unfold searchEvents
  by_cases hs : inGrid s.startPos
  · rw [if_neg (not_not.2 hs)]
    have hI := ExactInv.start_exact s.grid s.startPos s.endPos hs hd
    have h1 := loopEvents_single_write s.grid s.startPos s.endPos hw fuel _ _ hI
    obtain ⟨n1, n2⟩ := loopEvents_pushed_nodup s.grid s.startPos s.endPos hw fuel _ _ hI
    refine ⟨?_, ?_, ?_⟩
    · intro v old new hm
      rcases List.mem_cons.1 hm with hm | hm
      · exact absurd hm (by simp)
      · exact (h1 _ hm).1 v old new rfl
    · intro e hm
      rcases List.mem_cons.1 hm with hm | hm
      · exact absurd hm (by simp)
      · exact (h1 _ hm).2 e rfl
    · simp only [pushedCoords]
      refine List.nodup_cons.2 ⟨?_, n1⟩
      intro hm
      apply n2 _ hm
      simp only [setCell_same]
      decide
  · rw [if_pos hs]
    simp [pushedCoords]

/-- Witness of C17: the open grid with Start at `(0, 0)` and End at `(2, 0)`; the
first four pops push six distinct coordinates and skip no entry. -/
theorem search_writes_once_witness :
    (∀ c, inGrid c → (openState.grid c).distance = INT_MAX) ∧
      (∀ c, inGrid c → 1 ≤ (openState.grid c).weight ∧ (openState.grid c).weight ≤ 9) ∧
      ((∀ v old new, SearchEvent.written v old new ∈ searchEvents 4 openState →
          old = INT_MAX) ∧
        (∀ e, SearchEvent.skipped e ∉ searchEvents 4 openState) ∧
        (pushedCoords (searchEvents 4 openState)).Nodup) ∧
      pushedCoords (searchEvents 4 openState) =
        [(0, 0), (1, 0), (0, 1), (2, 0), (1, 1), (0, 2)] ∧
      writtenEntries (searchEvents 4 openState) =
        [(1, (1, 0)), (1, (0, 1)), (2, (2, 0)), (2, (1, 1)), (2, (0, 2))] :=
  ⟨openState_distance, openState_weight,
    search_writes_once openState 4 openState_distance openState_weight, by decide, by decide⟩

/-! ## Bounds on the distances in reachable states -/

theorem DistInv.congr {g g' : Grid} (h : DistInv g)
    (he : ∀ c, (g' c).distance = (g c).distance) : DistInv g' := by
  have hc : finCount g ≤ finCount g' := finCount_mono g g' (fun v => le_of_eq (he v))
  intro c hin
  obtain ⟨h1, h2⟩ := h c hin
  rw [he c]
  refine ⟨h1, fun hf => ?_⟩
  obtain ⟨h3, h4⟩ := h2 hf
  exact ⟨h3, by omega⟩

theorem DistInv.default (g : Grid) (h : ∀ c, (g c).distance = INT_MAX) : DistInv g := by
  intro c _
  rw [h c]
  exact ⟨le_refl _, fun hf => absurd hf (lt_irrefl _)⟩

theorem DistInv.le {g : Grid} (h : DistInv g) (c : Coord) (hc : inGrid c) :
    (g c).distance = INT_MAX ∨
      (0 ≤ (g c).distance ∧ (g c).distance ≤ 9 * (GRID_SIZE * GRID_SIZE - 1)) := by
  obtain ⟨h1, h2⟩ := h c hc
  by_cases hf : (g c).distance < INT_MAX
  · obtain ⟨h3, h4⟩ := h2 hf
    have := finCount_le g
    right
    refine ⟨h3, ?_⟩
    simp only [GRID_SIZE]
    omega
  · left
    omega

theorem DistInv.seed_dist {g : Grid} (h : DistInv g) (a : Coord) (ha : inGrid a) :
    DistInv (setCell g a { g a with distance := 0 }) := by
  have hle : ∀ v, (setCell g a { g a with distance := 0 } v).distance ≤ (g v).distance := by
    intro v
    by_cases hv : v = a
    · rw [hv, setCell_same]
      obtain ⟨h1, h2⟩ := h a ha
      by_cases hf : (g a).distance < INT_MAX
      · exact (h2 hf).1
      · have : (0 : Int) ≤ INT_MAX := by decide
        show (0 : Int) ≤ (g a).distance
        omega
    · rw [setCell_other _ _ _ _ hv]
  have hmono := finCount_mono g _ hle
  have hpos : 1 ≤ finCount (setCell g a { g a with distance := 0 }) :=
    finCount_pos _ a ha (by rw [setCell_same]; exact (by decide : (0 : Int) < INT_MAX))
  intro c hc
  by_cases hv : c = a
  · rw [hv, setCell_same]
    refine ⟨(by decide : (0 : Int) ≤ INT_MAX), fun _ => ⟨le_refl _, ?_⟩⟩
    show (0 : Int) + 9 ≤ _
    omega
  · rw [setCell_other _ _ _ _ hv]
    obtain ⟨h1, h2⟩ := h c hc
    refine ⟨h1, fun hf => ?_⟩
    obtain ⟨h3, h4⟩ := h2 hf
    exact ⟨h3, by omega⟩

theorem BoundInv.stale_bound {g : Grid} {q : List Entry} (h : BoundInv g q) (top : Entry) :
    BoundInv g (q.erase top) :=
  ⟨h.1, h.2.1, fun e he => h.2.2 e (List.mem_of_mem_erase he)⟩

theorem BoundInv.top {g : Grid} {q : List Entry} (h : BoundInv g q) {top : Entry}
    (htop : pqTop q = some top) :
    (0 ≤ (g top.2).distance ∧ (g top.2).distance + 9 ≤ 9 * (finCount g : Int)) ∧
      ∀ v, canEnter g top.2 v →
        (1 ≤ (g v).weight ∧ (g v).weight ≤ 9) ∧
          wrapInt ((g top.2).distance + (g v).weight) = (g top.2).distance + (g v).weight := by
  obtain ⟨hw, hd, hq⟩ := h
  obtain ⟨q1, q2⟩ := hq top (pqTop_mem htop)
  have hb := (hd top.2 q1).2 q2
  have hcnt := finCount_le g
  refine ⟨hb, fun v hv => ⟨hw v hv.2.1, ?_⟩⟩
  have := hw v hv.2.1
  apply wrapInt_eq <;> omega

theorem BoundInv.expand_bound {g : Grid} {q : List Entry} (h : BoundInv g q) {top : Entry}
    (htop : pqTop q = some top) :
    BoundInv (relaxAll top.2 g (q.erase top)).1 (relaxAll top.2 g (q.erase top)).2 := by
  obtain ⟨⟨t1, t2⟩, t3⟩ := h.top htop
  obtain ⟨hw, hd, hq⟩ := h
  obtain ⟨rs, _⟩ := relaxAll_spec top.2 g (q.erase top)
  have hmono := finCount_mono g _ rs.dist_le
  have hcnt := finCount_le (relaxAll top.2 g (q.erase top)).1
  have hdist : DistInv (relaxAll top.2 g (q.erase top)).1 := by
    intro c hc
    obtain ⟨h1, h2⟩ := hd c hc
    have hle := rs.dist_le c
    refine ⟨by omega, fun hf => ?_⟩
    rcases rs.cell c with e | ⟨c1, c2, c3, _, _⟩
    · rw [e] at hf ⊢
      obtain ⟨h3, h4⟩ := h2 hf
      exact ⟨h3, by omega⟩
    · obtain ⟨w1, w2⟩ := t3 c c1
      rw [w2] at c2
      by_cases hfc : (g c).distance < INT_MAX
      · obtain ⟨h3, h4⟩ := h2 hfc
        exact ⟨by omega, by omega⟩
      · have := finCount_lt g _ rs.dist_le c hc hfc hf
        exact ⟨by omega, by omega⟩
  refine ⟨fun c hc => ?_, hdist, ?_⟩
  · rw [rs.weight_eq c]
    exact hw c hc
  · intro e he
    rcases rs.queue_new e he with hold | ⟨c1, c2, c3⟩
    · obtain ⟨q1, q2⟩ := hq e (List.mem_of_mem_erase hold)
      have := rs.dist_le e.2
      exact ⟨q1, by omega⟩
    · obtain ⟨w1, w2⟩ := t3 e.2 c1
      rw [w2] at c2
      have hI : (3609 : Int) < INT_MAX := by decide
      have := finCount_le g
      exact ⟨c1.2.1, by omega⟩

theorem dijkstraLoop_bound (endp : Coord) (fuel : Nat) (g : Grid) (q : List Entry)
    (r : SearchResult) (h : BoundInv g q) (hr : dijkstraLoop endp fuel g q = some r) :
    DistInv r.grid := by
  obtain ⟨_, hI⟩ := dijkstraLoop_invariant endp BoundInv
    (fun _ _ top hI _ _ _ _ => hI.stale_bound top)
    (fun _ _ _ hI htop _ _ _ => hI.expand_bound htop) fuel g q r h hr
  exact hI.2.1

theorem loopEvents_bound (endp : Coord) :
    ∀ fuel g q, BoundInv g q → ∀ ev ∈ loopEvents endp fuel g q,
      (∀ cur d, ev = SearchEvent.expanded cur d →
        0 ≤ d ∧ d ≤ 9 * (GRID_SIZE * GRID_SIZE - 1)) ∧
      ∀ v d w, ev = SearchEvent.candidate v d w →
        (0 ≤ d ∧ d ≤ 9 * (GRID_SIZE * GRID_SIZE - 1)) ∧ (1 ≤ w ∧ w ≤ 9) ∧
          wrapInt (d + w) = d + w := by
  have hgs : (9 : Int) * (GRID_SIZE * GRID_SIZE - 1) = 3591 := by decide
  rw [hgs]
  refine loopEvents_forall endp BoundInv
    (fun ev => (∀ cur d, ev = SearchEvent.expanded cur d → 0 ≤ d ∧ d ≤ 3591) ∧
      ∀ v d w, ev = SearchEvent.candidate v d w →
        (0 ≤ d ∧ d ≤ 3591) ∧ (1 ≤ w ∧ w ≤ 9) ∧ wrapInt (d + w) = d + w) ?_ ?_ ?_
  · intro g q top _ _
    exact ⟨fun cur d h => absurd h (by simp), fun v d w h => absurd h (by simp)⟩
  · intro g q top hI _ _ _ _
    exact ⟨hI.stale_bound top, fun cur d h => absurd h (by simp),
      fun v d w h => absurd h (by simp)⟩
  · intro g q top hI htop _ _ _
    obtain ⟨⟨t1, t2⟩, t3⟩ := hI.top htop
    have hcnt := finCount_le g
    refine ⟨hI.expand_bound htop, ⟨?_, fun v d w h => absurd h (by simp)⟩, ?_⟩
    · intro cur d h
      simp only [SearchEvent.expanded.injEq] at h
      rw [← h.2]
      exact ⟨t1, by omega⟩
    · intro ev hev
      rcases relaxEventsFrom_spec top.2 g (q.erase top) directions g (q.erase top)
        (fun _ hd => hd) (RelaxStep.refl _ _ _) ev hev with ⟨u, h1, h2⟩ | ⟨u, _, _, h3⟩
      · refine ⟨fun cur d h => ?_, ?_⟩
        · rw [h2] at h
          exact absurd h (by simp)
        · intro v d w h
          rw [h2] at h
          simp only [SearchEvent.candidate.injEq] at h
          obtain ⟨w1, w2⟩ := t3 u h1
          rw [← h.2.1, ← h.2.2]
          exact ⟨⟨t1, by omega⟩, w1, w2⟩
      · rw [h3]
        exact ⟨fun cur d h => absurd h (by simp), fun v d w h => absurd h (by simp)⟩

theorem BoundInv.seed_bound {s : State} (hw : WeightInv s) (hd : DistInv s.grid)
    (hs : inGrid s.startPos) :
    BoundInv (setCell s.grid s.startPos { s.grid s.startPos with distance := 0 })
      [((0 : Int), s.startPos)] := by
  refine ⟨fun c _ => ?_, hd.seed_dist _ hs, ?_⟩
  · rw [(setCell_distance_type s.grid s.startPos 0 c).2.2.1]
    exact hw c
  · intro e he
    rw [List.mem_singleton.1 he]
    refine ⟨hs, ?_⟩
    show (setCell s.grid s.startPos { s.grid s.startPos with distance := 0 }
      s.startPos).distance < INT_MAX
    rw [setCell_same]
    exact (by decide : (0 : Int) < INT_MAX)

theorem runDijkstra_bound (fuel : Nat) (s s' : State) (hw : WeightInv s)
    (hd : DistInv s.grid) (h : runDijkstra fuel s = some s') : DistInv s'.grid := by
  have hsearch : ∀ r, search fuel s = some r → DistInv r.grid := by
    intro r hr
    unfold search at hr
    by_cases hs : inGrid s.startPos
    · rw [if_neg (not_not.2 hs)] at hr
      exact dijkstraLoop_bound s.endPos fuel _ _ r (BoundInv.seed_bound hw hd hs) hr
    · rw [if_pos hs] at hr
      simp at hr
  rcases runDijkstra_cases fuel s s' h with ⟨gf, h1, rfl⟩ | ⟨gf, w, h1, _, rfl⟩
  · exact hsearch _ h1
  · exact (hsearch _ h1).congr (fun c => markWalk_distance _ _ _ c)

theorem cycleWeight_distance (s : State) (p c : Coord) :
    ((cycleWeight s p).grid c).distance = (s.grid c).distance := by
  unfold cycleWeight
  split_ifs
  · by_cases hc : c = p
    · subst hc
      simp only [setCell_same]
    · simp only [setCell_other _ _ _ _ hc]
  · rfl

theorem clickCell_distance (s : State) (p : Coord) (b : Button) (c : Coord) :
    ((clickCell s p b).grid c).distance = (s.grid c).distance := by
  have hset : ∀ (t : CellType) (w : Int),
      (setCell s.grid p { s.grid p with type := t, weight := w } c).distance =
        (s.grid c).distance := by
    intro t w
    by_cases hc : c = p
    · subst hc
      simp only [setCell_same]
    · simp only [setCell_other _ _ _ _ hc]
  cases b with
  | Left =>
    simp only [clickCell]
    by_cases hm : s.isSettingWeight = true
    · rw [if_pos hm]
      exact cycleWeight_distance s p c
    · rw [if_neg hm]
      by_cases h1 : s.startPos.1 = -1
      · rw [if_pos h1]
        exact hset CellType.Start (s.grid p).weight
      · rw [if_neg h1]
        by_cases h2 : s.endPos.1 = -1
        · rw [if_pos h2]
          exact hset CellType.End (s.grid p).weight
        · rw [if_neg h2]
          exact hset CellType.Wall (s.grid p).weight
  | Right => exact hset CellType.Empty 1
  | Middle => exact cycleWeight_distance s p c
  | Other => rfl

theorem DistInv.dist_handleEvent {s : State} (h : DistInv s.grid) (hw : WeightInv s)
    (fuel : Nat) (e : Event) (s' : State) (hs : handleEvent fuel s e = some s') :
    DistInv s'.grid := by
  cases e with
  | MouseButtonPressed x y b =>
    simp only [handleEvent, Option.some.injEq] at hs
    rw [← hs, handleMouseClick_eq]
    split_ifs
    · exact h.congr (clickCell_distance s _ b)
    · exact h
  | KeyPressed k =>
    simp only [handleEvent, handleKeyPress] at hs
    cases k with
    | Space =>
      simp only at hs
      by_cases hm : s.startPos.1 ≠ -1 ∧ s.endPos.1 ≠ -1
      · rw [if_pos hm] at hs
        exact runDijkstra_bound fuel s s' hw h hs
      · rw [if_neg hm] at hs
        simp only [Option.some.injEq] at hs
        rw [← hs]
        exact h
    | R =>
      simp only [Option.some.injEq] at hs
      rw [← hs]
      exact DistInv.default _ (fun _ => rfl)
    | W =>
      simp only [Option.some.injEq] at hs
      rw [← hs]
      exact h
    | Other =>
      simp only [Option.some.injEq] at hs
      rw [← hs]
      exact h

theorem Reachable.distances {s : State} (h : Reachable s) : DistInv s.grid := by
  induction h with
  | init => exact DistInv.default _ (fun _ => rfl)
  | step fuel e hr hs ih => exact ih.dist_handleEvent hr.weights fuel e _ hs

theorem searchEvents_bound (s : State) (hw : WeightInv s) (hd : DistInv s.grid) (fuel : Nat) :
    ∀ ev ∈ searchEvents fuel s,
      (∀ cur d, ev = SearchEvent.expanded cur d →
        0 ≤ d ∧ d ≤ 9 * (GRID_SIZE * GRID_SIZE - 1)) ∧
      ∀ v d w, ev = SearchEvent.candidate v d w →
        (0 ≤ d ∧ d ≤ 9 * (GRID_SIZE * GRID_SIZE - 1)) ∧ (1 ≤ w ∧ w ≤ 9) ∧
          wrapInt (d + w) = d + w := by
  intro ev hev
  unfold searchEvents at hev
  by_cases hs : inGrid s.startPos
  · rw [if_neg (not_not.2 hs)] at hev
    rcases List.mem_cons.1 hev with h | h
    · rw [h]
      exact ⟨fun cur d h => absurd h (by simp), fun v d w h => absurd h (by simp)⟩
    · exact loopEvents_bound s.endPos fuel _ _ (BoundInv.seed_bound hw hd hs) ev h
  · rw [if_pos hs] at hev
    exact absurd hev (List.not_mem_nil _)

/-- C18: in every state reachable from the initial state through mouse clicks and
key presses (searches and resets among them), the distance of each cell of the grid
is the sentinel INT_MAX or lies between 0 and 9*(GRID_SIZE*GRID_SIZE-1) = 3591; and
in a search started from such a state, every cell that is popped and expanded holds
a distance between 0 and 3591, other than the sentinel, and every sum
`grid[current].distance + grid[neighbour].weight` that the relaxation computes has a
weight in [1,9], stays at or below INT_MAX and is not changed by the 32-bit
wrap-around. -/
theorem reachable_no_overflow (s : State) (h : Reachable s) :
    (∀ c, inGrid c → (s.grid c).distance = INT_MAX ∨
        (0 ≤ (s.grid c).distance ∧ (s.grid c).distance ≤ 9 * (GRID_SIZE * GRID_SIZE - 1))) ∧
      ∀ fuel, ∀ ev ∈ searchEvents fuel s,
        (∀ cur d, ev = SearchEvent.expanded cur d →
          d ≠ INT_MAX ∧ 0 ≤ d ∧ d ≤ 9 * (GRID_SIZE * GRID_SIZE - 1)) ∧
        ∀ v d w, ev = SearchEvent.candidate v d w →
          (1 ≤ w ∧ w ≤ 9) ∧ d + w ≤ INT_MAX ∧ wrapInt (d + w) = d + w := by
  have hgs : (9 : Int) * (GRID_SIZE * GRID_SIZE - 1) = 3591 := by decide
  have hmax : (3600 : Int) < INT_MAX := by decide
  refine ⟨fun c hc => h.distances.le c hc, ?_⟩
  intro fuel ev hev
  obtain ⟨h1, h2⟩ := searchEvents_bound s h.weights h.distances fuel ev hev
  rw [hgs] at h1 h2 ⊢
  constructor
  · intro cur d he
    obtain ⟨a1, a2⟩ := h1 cur d he
    exact ⟨by omega, a1, a2⟩
  · intro v d w he
    obtain ⟨⟨a1, a2⟩, ⟨a3, a4⟩, a5⟩ := h2 v d w he
    exact ⟨⟨a3, a4⟩, by omega, a5⟩

/-- Witness of C18: the state `blockedState`, reached by two clicks, a search and a
third click, which holds the distances 0, 1 and 2 of the first search. -/
theorem reachable_no_overflow_witness :
    Reachable blockedState ∧
      ((∀ c, inGrid c → (blockedState.grid c).distance = INT_MAX ∨
          (0 ≤ (blockedState.grid c).distance ∧
            (blockedState.grid c).distance ≤ 9 * (GRID_SIZE * GRID_SIZE - 1))) ∧
        ∀ fuel, ∀ ev ∈ searchEvents fuel blockedState,
          (∀ cur d, ev = SearchEvent.expanded cur d →
            d ≠ INT_MAX ∧ 0 ≤ d ∧ d ≤ 9 * (GRID_SIZE * GRID_SIZE - 1)) ∧
          ∀ v d w, ev = SearchEvent.candidate v d w →
            (1 ≤ w ∧ w ≤ 9) ∧ d + w ≤ INT_MAX ∧ wrapInt (d + w) = d + w) ∧
      9 * (GRID_SIZE * GRID_SIZE - 1) = 3591 ∧
      (blockedState.grid (2, 0)).distance = 2 ∧
      SearchEvent.candidate (0, 1) 0 1 ∈ searchEvents 2 blockedState :=
  ⟨blockedState_reachable, reachable_no_overflow blockedState blockedState_reachable,
    by decide, by decide, by decide⟩

/-! ## The walk of `reconstructPath` in any reachable state -/

theorem dijkstraLoop_invariant_end (endp : Coord) (I : Grid → List Entry → Prop)
    (hstale : ∀ g q top, I g q → pqTop q = some top → top.2 ≠ endp → inGrid top.2 →
      top.1 > (g top.2).distance → I g (q.erase top))
    (hexp : ∀ g q top, I g q → pqTop q = some top → top.2 ≠ endp → inGrid top.2 →
      ¬ top.1 > (g top.2).distance →
      I (relaxAll top.2 g (q.erase top)).1 (relaxAll top.2 g (q.erase top)).2) :
    ∀ (fuel : Nat) (g : Grid) (q : List Entry) (gf : Grid), I g q →
      dijkstraLoop endp fuel g q = some (SearchResult.reachedEnd gf) →
      ∃ q' top, I gf q' ∧ pqTop q' = some top ∧ top.2 = endp := by
  intro fuel
  induction fuel with
  | zero =>
    intro g q gf _ hr
    simp [dijkstraLoop] at hr
  | succ n ih =>
    intro g q gf hI hr
    unfold dijkstraLoop at hr
    cases htop : pqTop q with
    | none =>
      rw [htop] at hr
      simp at hr
    | some top =>
      rw [htop] at hr
      simp only at hr
      by_cases he : top.2 = endp
      · rw [if_pos he] at hr
        simp only [Option.some.injEq, SearchResult.reachedEnd.injEq] at hr
        rw [← hr]
        exact ⟨q, top, hI, htop, he⟩
      · rw [if_neg he] at hr
        by_cases hg : inGrid top.2
        · rw [if_neg (not_not.2 hg)] at hr
          by_cases hst : top.1 > (g top.2).distance
          · rw [if_pos hst] at hr
            exact ih g _ gf (hstale g q top hI htop he hg hst) hr
          · rw [if_neg hst] at hr
            exact ih _ _ gf (hexp g q top hI htop he hg hst) hr
        · rw [if_pos hg] at hr
          simp at hr

theorem ChainInv.seed_chain {s : State} (hw : WeightInv s) (hd : DistInv s.grid)
    (hs : inGrid s.startPos) :
    ChainInv s.startPos (fun v => v = s.startPos)
      (setCell s.grid s.startPos { s.grid s.startPos with distance := 0 })
      [((0 : Int), s.startPos)] := by
  have h0 : (setCell s.grid s.startPos { s.grid s.startPos with distance := 0 }
      s.startPos).distance = 0 := by
    rw [setCell_same]
  refine ⟨BoundInv.seed_bound hw hd hs, rfl, h0, ?_, ?_, ?_⟩
  · intro v hv
    rw [hv, h0]
    exact ⟨hs, (by decide : (0 : Int) < INT_MAX)⟩
  · intro v hv hne
    exact absurd hv hne
  · intro e he
    rw [List.mem_singleton.1 he]

theorem ChainInv.stale_chain {a : Coord} {T : Coord → Prop} {g : Grid} {q : List Entry}
    (h : ChainInv a T g q) (top : Entry) : ChainInv a T g (q.erase top) :=
  ⟨h.bound.stale_bound top, h.start_mem, h.start_dist, h.mem_ok, h.parent_ok,
    fun e he => h.queue_mem e (List.mem_of_mem_erase he)⟩

theorem ChainInv.expand_chain {a : Coord} {T : Coord → Prop} {g : Grid} {q : List Entry}
    (h : ChainInv a T g q) {top : Entry} (htop : pqTop q = some top) :
    ChainInv a (fun v => T v ∨ (relaxAll top.2 g (q.erase top)).1 v ≠ g v)
      (relaxAll top.2 g (q.erase top)).1 (relaxAll top.2 g (q.erase top)).2 := by
  obtain ⟨⟨t1, t2⟩, t3⟩ := h.bound.top htop
  obtain ⟨rs, _⟩ := relaxAll_spec top.2 g (q.erase top)
  have hTu : T top.2 := h.queue_mem top (pqTop_mem htop)
  have hnew : ∀ v, canEnter g top.2 v →
      ((relaxAll top.2 g (q.erase top)).1 v).distance =
        wrapInt ((g top.2).distance + (g v).weight) →
      (g top.2).distance < ((relaxAll top.2 g (q.erase top)).1 v).distance := by
    intro v c1 c2
    obtain ⟨w1, w2⟩ := t3 v c1
    rw [c2, w2]
    omega
  refine ⟨h.bound.expand_bound htop, Or.inl h.start_mem, ?_, ?_, ?_, ?_⟩
  · rcases rs.cell a with e | ⟨c1, c2, c3, _, _⟩
    · rw [e]
      exact h.start_dist
    · have := hnew a c1 c2
      rw [h.start_dist] at c3
      omega
  · intro v hv
    rcases rs.cell v with e | ⟨c1, c2, c3, _, _⟩
    · rcases hv with hv | hv
      · rw [e]
        exact h.mem_ok v hv
      · exact absurd e hv
    · have := (h.bound.2.1 v c1.2.1).1
      exact ⟨c1.2.1, by omega⟩
  · intro v hv hne
    rcases rs.cell v with e | ⟨c1, c2, c3, c4, _⟩
    · rcases hv with hv | hv
      · obtain ⟨p1, p2⟩ := h.parent_ok v hv hne
        rw [e]
        have := rs.dist_le (g v).parent
        exact ⟨Or.inl p1, by omega⟩
      · exact absurd e hv
    · rw [c4, rs.cur_eq]
      exact ⟨Or.inl hTu, hnew v c1 c2⟩
  · intro e he
    obtain ⟨_, p2, p3⟩ := relaxEventsFrom_pushed top.2 g (q.erase top) directions g
      (q.erase top) (fun _ hd => hd) (RelaxStep.refl _ _ _)
    have hq : (relaxAll top.2 g (q.erase top)).2 =
        (writtenEntries (relaxEventsFrom top.2 directions (g, q.erase top))).reverse ++
          q.erase top := p3
    have hg : ∀ v, ((directions.foldl (relax top.2) (g, q.erase top)).1 v) =
        (relaxAll top.2 g (q.erase top)).1 v := fun _ => rfl
    rw [hq, List.mem_append, List.mem_reverse] at he
    rcases he with he | he
    · obtain ⟨old, hmem⟩ := (mem_writtenEntries _ e).1 he
      have hpush : e.2 ∈ pushedCoords (relaxEventsFrom top.2 directions (g, q.erase top)) :=
        (mem_pushedCoords _ _).2 (Or.inr ⟨old, e.1, hmem⟩)
      have hlt := (p2 e.2 hpush).2
      rw [hg] at hlt
      right
      intro heq
      rw [heq] at hlt
      exact absurd hlt (lt_irrefl _)
    · exact Or.inl (h.queue_mem e (List.mem_of_mem_erase he))

theorem ChainInv.walk {a : Coord} {T : Coord → Prop} {g : Grid} {q : List Entry}
    (h : ChainInv a T g q) :
    ∀ (n : Nat) (v : Coord), T v → (g v).distance ≤ n →
      ∃ w, parentWalk a g (n + 1) v = some w := by
  have hnn : ∀ v, T v → 0 ≤ (g v).distance := by
    intro v hv
    obtain ⟨m1, m2⟩ := h.mem_ok v hv
    exact ((h.bound.2.1 v m1).2 m2).1
  intro n
  induction n with
  | zero =>
    intro v hv hn
    by_cases hva : v = a
    · exact ⟨[v], by simp [parentWalk, hva]⟩
    · obtain ⟨p1, p2⟩ := h.parent_ok v hv hva
      have := hnn _ p1
      simp only [Nat.cast_zero] at hn
      omega
  | succ n ih =>
    intro v hv hn
    by_cases hva : v = a
    · exact ⟨[v], by simp [parentWalk, hva]⟩
    · obtain ⟨p1, p2⟩ := h.parent_ok v hv hva
      have hn' : (g (g v).parent).distance ≤ n := by
        push_cast at hn
        omega
      obtain ⟨w, w1⟩ := ih _ p1 hn'
      refine ⟨v :: w, ?_⟩
      rw [parentWalk, if_neg hva, if_neg (not_not.2 (h.mem_ok v hv).1), w1]
      rfl

theorem parentWalk_ends (a : Coord) (g : Grid) :
    ∀ (n : Nat) (v : Coord) (w : List Coord), parentWalk a g n v = some w →
      w.head? = some v ∧ w.getLast? = some a := by
  intro n
  induction n with
  | zero =>
    intro v w hw
    simp [parentWalk] at hw
  | succ n ih =>
    intro v w hw
    simp only [parentWalk] at hw
    by_cases hva : v = a
    · rw [if_pos hva] at hw
      simp only [Option.some.injEq] at hw
      rw [← hw, hva]
      exact ⟨rfl, rfl⟩
    · rw [if_neg hva] at hw
      by_cases hin : inGrid v
      · rw [if_neg (not_not.2 hin)] at hw
        cases hp : parentWalk a g n (g v).parent with
        | none =>
          rw [hp] at hw
          simp at hw
        | some w' =>
          rw [hp] at hw
          simp only [Option.map_some', Option.some.injEq] at hw
          obtain ⟨e1, e2⟩ := ih _ _ hp
          rw [← hw]
          refine ⟨rfl, ?_⟩
          cases w' with
          | nil => simp at e1
          | cons u rest =>
            rw [List.getLast?_cons_cons]
            exact e2
      · rw [if_pos hin] at hw
        simp at hw

theorem search_reached_walk (s : State) (hw : WeightInv s) (hd : DistInv s.grid)
    (fuel : Nat) (gf : Grid) (hr : search fuel s = some (SearchResult.reachedEnd gf)) :
    ∃ n w, ∀ k, n ≤ k → parentWalk s.startPos gf k s.endPos = some w := by
  unfold search at hr
  by_cases hs : inGrid s.startPos
  · rw [if_neg (not_not.2 hs)] at hr
    obtain ⟨q', top, ⟨T, hT⟩, htop, he⟩ := dijkstraLoop_invariant_end s.endPos
      (fun g q => ∃ T, ChainInv s.startPos T g q)
      (fun _ _ top hI _ _ _ _ => by
        obtain ⟨T, hT⟩ := hI
        exact ⟨T, hT.stale_chain top⟩)
      (fun _ _ _ hI htop _ _ _ => by
        obtain ⟨T, hT⟩ := hI
        exact ⟨_, hT.expand_chain htop⟩)
      fuel _ _ gf ⟨_, ChainInv.seed_chain hw hd hs⟩ hr
    have hTe : T s.endPos := by
      rw [← he]
      exact hT.queue_mem top (pqTop_mem htop)
    obtain ⟨m1, m2⟩ := hT.mem_ok _ hTe
    have hnn := ((hT.bound.2.1 _ m1).2 m2).1
    obtain ⟨w, hwalk⟩ := hT.walk (gf s.endPos).distance.toNat s.endPos hTe
      (by rw [Int.toNat_of_nonneg hnn])
    exact ⟨_, w, fun k hk => parentWalk_mono _ _ _ _ _ hwalk k hk⟩
  · rw [if_pos hs] at hr
    simp at hr

theorem runDijkstra_reached_total (s : State) (hr : Reachable s) (fuel : Nat)
    (hpop : endPopped (search fuel s) = true) :
    ∃ gf N w, (∀ k, N ≤ k → search k s = some (SearchResult.reachedEnd gf) ∧
        parentWalk s.startPos gf k s.endPos = some w ∧
        runDijkstra k s = some { s with grid := markWalk s.startPos gf w }) ∧
      w.head? = some s.endPos ∧ w.getLast? = some s.startPos ∧
      ∀ c, (gf c).type = (s.grid c).type := by
  cases hsr : search fuel s with
  | none =>
    rw [hsr] at hpop
    simp [endPopped] at hpop
  | some r =>
    cases r with
    | exhausted gf =>
      rw [hsr] at hpop
      simp [endPopped] at hpop
    | reachedEnd gf =>
      obtain ⟨n, w, hwalk⟩ := search_reached_walk s hr.weights hr.distances fuel gf hsr
      obtain ⟨e1, e2⟩ := parentWalk_ends _ _ _ _ _ (hwalk n (le_refl _))
      refine ⟨gf, max fuel n, w, ?_, e1, e2, (search_frame s fuel _ hsr).2.1⟩
      intro k hk
      have h1 := search_mono s fuel _ hsr k (le_trans (le_max_left _ _) hk)
      have h2 := hwalk k (le_trans (le_max_right _ _) hk)
      exact ⟨h1, h2, runDijkstra_of_reached s k gf w h1 h2⟩

theorem runDijkstra_returns (s : State) (hr : Reachable s) (hs : inGrid s.startPos) :
    ∃ s' N, ∀ k, N ≤ k → runDijkstra k s = some s' := by
  obtain ⟨N, r, hN⟩ := search_terminates s hs
  cases r with
  | exhausted gf =>
    exact ⟨_, N, fun k hk => runDijkstra_of_exhausted s k gf (hN k hk)⟩
  | reachedEnd gf =>
    have hpop : endPopped (search N s) = true := by
      rw [hN N (le_refl _)]
      rfl
    obtain ⟨gf', M, w, hrun, _⟩ := runDijkstra_reached_total s hr N hpop
    exact ⟨_, M, fun k hk => (hrun k hk).2.2⟩

/-! ## Claims that a left click on a Start or End cell breaks

The left-click branch of `handleMouseClick` writes the kind of the clicked cell
without looking at the kind it has and without updating `startPos` or `endPos`
when that cell is the Start or the End cell, whereas the right-click branch keeps
the markers and the kinds together.  The four claims below fail only in states
that such a click has produced. -/

/-- C7 fails on the code: in the reachable state `placedState` (Start placed on
`(0, 0)`, End on `(2, 0)`, weight-setting mode off) a left click on the Start cell,
which is neither a right click nor a reset, turns its kind from Start into Wall and
leaves `startPos` at `(0, 0)`; a left click on the End cell does the same to End.
A right click on the Start cell makes it Empty and clears `startPos`.  In every
reachable state every other event obeys the claim: if it changes the kind of a
Start or End cell, it is a right click on that cell or the reset key, and the new
kind is Empty. -/
theorem leftClick_overwrites_marker :
    (Reachable placedState ∧ placedState.isSettingWeight = false ∧
        placedState.startPos = (0, 0) ∧ placedState.endPos = (2, 0) ∧
        (placedState.grid (0, 0)).type = CellType.Start ∧
        (placedState.grid (2, 0)).type = CellType.End ∧
        cellOf 0 0 = (0, 0) ∧ cellOf 60 0 = (2, 0)) ∧
      (handleEvent 0 placedState (Event.MouseButtonPressed 0 0 Button.Left)).map
          (fun t => ((t.grid (0, 0)).type, t.startPos)) = some (CellType.Wall, (0, 0)) ∧
      (handleEvent 0 placedState (Event.MouseButtonPressed 60 0 Button.Left)).map
          (fun t => ((t.grid (2, 0)).type, t.endPos)) = some (CellType.Wall, (2, 0)) ∧
      (handleEvent 0 placedState (Event.MouseButtonPressed 0 0 Button.Right)).map
          (fun t => ((t.grid (0, 0)).type, t.startPos)) = some (CellType.Empty, (-1, -1)) ∧
      ∀ (s : State), Reachable s → ∀ (fuel : Nat) (e : Event) (s' : State) (c : Coord),
        handleEvent fuel s e = some s' →
        (s.grid c).type = CellType.Start ∨ (s.grid c).type = CellType.End →
        (s'.grid c).type ≠ (s.grid c).type →
        (¬ ∃ x y, e = Event.MouseButtonPressed x y Button.Left ∧ c = cellOf x y ∧
          s.isSettingWeight = false) →
        ((∃ x y, e = Event.MouseButtonPressed x y Button.Right ∧ c = cellOf x y) ∨
            e = Event.KeyPressed Key.R) ∧
          (s'.grid c).type = CellType.Empty := by
  refine ⟨⟨Reachable.init.of_clicks _, by decide, by decide, by decide, by decide, by decide,
    by decide, by decide⟩, by decide, by decide, by decide, ?_⟩
  intro s hs fuel e s' c hstep hk hne hnot
  rcases marker_kind_change s hs fuel e s' hstep c hk hne with
    ⟨x, y, h1, h2, h3⟩ | ⟨h1, h2⟩ | ⟨x, y, h1, h2, h3, _⟩
  · exact ⟨Or.inl ⟨x, y, h1, h2⟩, h3⟩
  · exact ⟨Or.inr h1, h2⟩
  · exact absurd ⟨x, y, h1, h2, h3⟩ hnot

/-- C8 fails on the code: in the reachable state `overwrittenState` (Start placed on
`(0, 0)`, End on `(2, 0)`, then a left click on `(0, 0)`, which makes the Start cell
a Wall) a right click on the cell at the Start coordinate `(0, 0)` makes the cell
Empty with weight 1 and leaves `startPos` at `(0, 0)`.  In every state in which the
cell at the Start coordinate has kind Start, a right click on it sets `startPos` to
`(-1, -1)`; likewise for End; and the clicked cell always becomes Empty with
weight 1. -/
theorem rightClick_keeps_marker :
    (Reachable overwrittenState ∧ overwrittenState.startPos = (0, 0) ∧
        cellOf 0 0 = (0, 0) ∧ (overwrittenState.grid (0, 0)).type = CellType.Wall) ∧
      ((handleMouseClick overwrittenState 0 0 Button.Right).startPos = (0, 0) ∧
        ((handleMouseClick overwrittenState 0 0 Button.Right).grid (0, 0)).type =
          CellType.Empty ∧
        ((handleMouseClick overwrittenState 0 0 Button.Right).grid (0, 0)).weight = 1) ∧
      ∀ (s : State) (x y : Int), inGrid (cellOf x y) →
        ((s.grid s.startPos).type = CellType.Start → cellOf x y = s.startPos →
          (handleMouseClick s x y Button.Right).startPos = (-1, -1)) ∧
        ((s.grid s.endPos).type = CellType.End → cellOf x y = s.endPos →
          (handleMouseClick s x y Button.Right).endPos = (-1, -1)) ∧
        ((handleMouseClick s x y Button.Right).grid (cellOf x y)).type = CellType.Empty ∧
        ((handleMouseClick s x y Button.Right).grid (cellOf x y)).weight = 1 := by
  refine ⟨⟨(Reachable.init.of_clicks _).of_clicks _, by decide, by decide, by decide⟩,
    ⟨by decide, by decide, by decide⟩, ?_⟩
  intro s x y hin
  rw [handleMouseClick_eq, if_pos hin]
  refine ⟨?_, ?_, ?_, ?_⟩
  · intro h hc
    rw [← hc] at h
    simp [clickCell, h]
  · intro h hc
    rw [← hc] at h
    simp [clickCell, h]
  · simp [clickCell, setCell]
  · simp [clickCell, setCell]

/-- C15 fails on the code: in the reachable state `overwrittenState` the cell at the
Start coordinate `(0, 0)` is a Wall and the run key starts a search; the seed
pushes `(0, 0)` and the run changes the distance of that Wall cell from the
sentinel to 0.  In every state a relaxation never writes or pushes a Wall cell; and
in every reachable state in which the run key starts a search and the cell at the
Start coordinate is not a Wall, the run returns, no coordinate of a Wall cell is
pushed, and every Wall cell keeps its distance and its parent. -/
theorem seed_pushes_wall_start :
    (Reachable overwrittenState ∧
        (overwrittenState.startPos.1 ≠ -1 ∧ overwrittenState.endPos.1 ≠ -1) ∧
        overwrittenState.startPos = (0, 0) ∧
        (overwrittenState.grid (0, 0)).type = CellType.Wall ∧
        (overwrittenState.grid (0, 0)).distance = INT_MAX) ∧
      ((0, 0) ∈ pushedCoords (searchEvents 4 overwrittenState) ∧
        (handleKeyPress 4 overwrittenState Key.Space).map
            (fun t => ((t.grid (0, 0)).type, (t.grid (0, 0)).distance)) =
          some (CellType.Wall, 0)) ∧
      (∀ (s : State) (fuel : Nat) (v : Coord) (old new : Int),
        SearchEvent.written v old new ∈ searchEvents fuel s →
          inGrid v ∧ (s.grid v).type ≠ CellType.Wall) ∧
      ∀ (s : State), Reachable s → s.startPos.1 ≠ -1 ∧ s.endPos.1 ≠ -1 →
        (s.grid s.startPos).type ≠ CellType.Wall →
        ∃ s' N, (∀ k, N ≤ k → handleKeyPress k s Key.Space = some s') ∧
          (∀ fuel, ∀ v ∈ pushedCoords (searchEvents fuel s),
            (s.grid v).type ≠ CellType.Wall) ∧
          ∀ c, (s.grid c).type = CellType.Wall →
            (s'.grid c).parent = (s.grid c).parent ∧
              (s'.grid c).distance = (s.grid c).distance := by
  refine ⟨⟨(Reachable.init.of_clicks _).of_clicks _, by decide, by decide, by decide,
    by decide⟩, ⟨by decide, by decide⟩, ?_, ?_⟩
  · intro s fuel v old new h
    exact (walls_not_relaxed s fuel).1 v old new h
  · intro s hr hm hnw
    have hs : inGrid s.startPos := inGrid_of_set hr.ranges.start_ok hm.1
    obtain ⟨s', N, hN⟩ := runDijkstra_returns s hr hs
    refine ⟨s', N, ?_, ?_, ?_⟩
    · intro k hk
      simp only [handleKeyPress]
      rw [if_pos hm]
      exact hN k hk
    · intro fuel v hv
      rcases (walls_not_relaxed s fuel).2.1 v hv with h | h
      · rw [h]
        exact hnw
      · exact h.2
    · intro c hc
      obtain ⟨h1, h2, _⟩ := (walls_not_relaxed s N).2.2 s' (hN N (le_refl _)) c hc
      refine ⟨h1, h2 ?_⟩
      intro hcs
      rw [hcs] at hc
      exact hnw hc

/-- C4 fails on the code: in the reachable state `movedState` the markers are at
`(0, 0)` and `(1, 0)` and the cell at the End coordinate `(1, 0)` is Empty, a left
click having written Start over the End cell before a right click emptied it; the
run pops End and turns the cell at the End coordinate into a Path cell.  In every
reachable state in which the cell at the End coordinate has kind End, a run that
pops End returns (for every large enough number of steps, with one result), its
walk along the parents leads from End to Start, the cells of the walk other than
the two ends become Path, and every other cell, the two ends included, keeps its
kind. -/
theorem runDijkstra_marks_end_cell :
    (Reachable movedState ∧ movedState.startPos = (0, 0) ∧ movedState.endPos = (1, 0) ∧
        (movedState.grid (1, 0)).type = CellType.Empty) ∧
      (endPopped (search 2 movedState) = true ∧
        (handleKeyPress 2 movedState Key.Space).map (fun t => (t.grid (1, 0)).type) =
          some CellType.Path) ∧
      ∀ (s : State), Reachable s → (s.grid s.endPos).type = CellType.End →
        ∀ fuel, endPopped (search fuel s) = true →
        ∃ s' N w,
          (∀ k, N ≤ k → runDijkstra k s = some s' ∧
            parentWalk s.startPos s'.grid k s.endPos = some w) ∧
          w.head? = some s.endPos ∧ w.getLast? = some s.startPos ∧
          ∀ c, (s'.grid c).type =
            if c ∈ w ∧ c ≠ s.startPos ∧ c ≠ s.endPos then CellType.Path
            else (s.grid c).type := by
  refine ⟨⟨Reachable.init.of_clicks _, by decide, by decide, by decide⟩,
    ⟨by decide, by decide⟩, ?_⟩
  intro s hr hend fuel hpop
  obtain ⟨gf, N, w, hrun, e1, e2, hty⟩ := runDijkstra_reached_total s hr fuel hpop
  refine ⟨{ s with grid := markWalk s.startPos gf w }, N, w, ?_, e1, e2, ?_⟩
  · intro k hk
    obtain ⟨_, h2, h3⟩ := hrun k hk
    refine ⟨h3, ?_⟩
    rw [parentWalk_congr s.startPos gf _ (markWalk_parent s.startPos gf w)]
    exact h2
  · intro c
    show (markWalk s.startPos gf w c).type = _
    rw [markWalk_type, hty c]
    by_cases hc : c = s.endPos
    · rw [if_neg, if_neg]
      · exact fun h => h.2.2 hc
      · rw [hc]
        exact fun h => h.2.2 hend
    · by_cases hm : c ∈ w ∧ c ≠ s.startPos
      · rw [if_pos ⟨hm.1, hm.2, fun h => hc (hr.markers.end_at c h).1⟩,
          if_pos ⟨hm.1, hm.2, hc⟩]
      · rw [if_neg (fun h => hm ⟨h.1, h.2.1⟩), if_neg (fun h => hm ⟨h.1, h.2.1⟩)]

end DijkstraVisualizer
